import Mathlib

/-!
# Lomse: MusicXML time keeping, staff numbers, clefs, barlines, text patterns and
document locators

A shallow embedding of parts of `lomse_mxl_analyser.cpp` and `lomse_file_system.cpp`, and
of the context snapshots declared in `lomse_spacing_algorithm.h`.

Conventions of the embedding

* C++ `int` and `long` values are unbounded `Int`s (signed overflow is undefined
  behaviour in the source, so no wrap-around is modelled). Where a text is read into a
  number (stream extraction, `std::stoi`, narrowing of a `long` to an `int`) the range of
  the type is part of what the source does and is modelled.
* `TimeUnits` (a floating point type) is idealised as exact rationals.
* `std::map<int, T>` is an association list kept in increasing key order.
* `std::string` is a `List Char`.
* A C++ loop that may run forever is a function with a fuel argument returning
  `Option`; `none` means that the fuel ran out.
-/

namespace Lomse

/-! ## std::map<int, long> -/

/-- Lookup with `std::map::find`: the value stored under `k`, `none` when absent. -/
def map_find : List (Int × Int) → Int → Option Int
  | [], _ => none
  | (k', v) :: t, k => if k = k' then some v else map_find t k

/-- Assignment `m[k] = v`: replaces the value of an existing key, otherwise inserts the
pair at its place in key order. -/
def map_set : List (Int × Int) → Int → Int → List (Int × Int)
  | [], k, v => [(k, v)]
  | (k', v') :: t, k, v =>
    if k = k' then (k, v) :: t
    else if k < k' then (k, v) :: (k', v') :: t
    else (k', v') :: map_set t k v

/-! ## MxlTimeKeeper and the part of MxlAnalyser it talks to -/

/-- Data members of `MxlTimeKeeper`. -/
structure MxlTimeKeeper where
  m_time : ℚ
  m_startTime : ℚ
  m_maxTime : ℚ
  m_curTime : Int
  m_divisions : Int
  m_fResetVoiceTime : Bool
  m_voiceTime : List (Int × Int)
  m_voiceStaff : List (Int × Int)
  deriving DecidableEq

/-- A rest created by `insert_go_fwd`: `duration` is the value handed to
`set_type_duration` (in divisions); the rest is marked go-forward and invisible. -/
structure ImoRest where
  go_fwd : Bool
  visible : Bool
  duration : Int
  staff : Int
  voice : Int
  deriving DecidableEq

/-- The members of `MxlAnalyser` used by the time keeper. `m_currentMD` is `none` for a
null pointer, otherwise the children appended to the music data. `current_divisions` is
the value returned by the accessor of that name. `go_fwd_calls` is a trace: every call
`insert_go_fwd(voice, shift)` appends `(voice, shift)` to it. -/
structure MxlAnalyser where
  m_timeKeeper : MxlTimeKeeper
  m_curVoice : Int
  current_divisions : Int
  m_currentMD : Option (List ImoRest)
  go_fwd_calls : List (Int × Int)
  deriving DecidableEq

namespace MxlTimeKeeper

/-- `MxlTimeKeeper::duration_to_time_units`; `k_duration_quarter` is a constant of a
header that is not part of the sources at hand, so it is a parameter. -/
def duration_to_time_units (k_duration_quarter : ℚ) (tk : MxlTimeKeeper) (duration : Int) : ℚ :=
  let timeUnitsPerDivision : ℚ := k_duration_quarter / (tk.m_divisions : ℚ)
  (duration : ℚ) * timeUnitsPerDivision

/-- `MxlTimeKeeper::get_timepos_for_voice`: the recorded time position, and the time
keeper afterwards (a voice seen for the first time gets the record 0). -/
def get_timepos_for_voice (tk : MxlTimeKeeper) (voice : Int) : Int × MxlTimeKeeper :=
  match (if tk.m_voiceTime.length > 0 then map_find tk.m_voiceTime voice else none) with
  | some t => (t, tk)
  | none => (0, { tk with m_voiceTime := map_set tk.m_voiceTime voice 0 })

/-- `MxlTimeKeeper::get_staff_for_voice`. -/
def get_staff_for_voice (tk : MxlTimeKeeper) (voice : Int) : Int :=
  match (if tk.m_voiceStaff.length > 0 then map_find tk.m_voiceStaff voice else none) with
  | some s => s
  | none => 1

/-- `MxlTimeKeeper::increment_time`. -/
def increment_time (k_duration_quarter : ℚ) (tk : MxlTimeKeeper) (voice _staff amount : Int) :
    MxlTimeKeeper :=
  let (t, tk) := tk.get_timepos_for_voice voice
  let cur := t + amount
  let cur := if cur < 0 then 0 else cur
  let tk := { tk with m_curTime := cur }
  let time := tk.m_startTime + tk.duration_to_time_units k_duration_quarter tk.m_curTime
  { tk with
    m_time := time
    m_maxTime := max time tk.m_maxTime
    m_voiceTime := map_set tk.m_voiceTime voice tk.m_curTime }

/-- `MxlTimeKeeper::reset_for_new_measure`. -/
def reset_for_new_measure (tk : MxlTimeKeeper) : MxlTimeKeeper :=
  let tk := if tk.m_fResetVoiceTime then { tk with m_voiceTime := [], m_voiceStaff := [] } else tk
  { tk with m_curTime := 0, m_startTime := tk.m_time }

/-- `MxlTimeKeeper::full_reset`. -/
def full_reset (tk : MxlTimeKeeper) : MxlTimeKeeper :=
  reset_for_new_measure { tk with m_time := 0, m_maxTime := 0 }

/-- The loop of `MxlTimeKeeper::assign_voice`; `n` bounds the number of iterations. -/
def assign_voice_loop : Nat → MxlTimeKeeper → Int → Int × MxlTimeKeeper
  | 0, tk, voice => (voice, tk)
  | n + 1, tk, voice =>
    if voice ≤ (tk.m_voiceTime.length : Int) ∧ voice < 100 then
      let voice := voice + 1
      let (voiceTime, tk) := tk.get_timepos_for_voice voice
      if voiceTime ≤ tk.m_curTime then (voice, tk)
      else assign_voice_loop n tk voice
    else (voice, tk)

/-- `MxlTimeKeeper::assign_voice`: the loop starts at voice 0 and stops at voice 100 at the
latest, so 100 iterations are enough. -/
def assign_voice (tk : MxlTimeKeeper) : Int × MxlTimeKeeper :=
  assign_voice_loop 100 tk 0

end MxlTimeKeeper

namespace MxlAnalyser

/-- Modelled from the spec: `MxlAnalyser::set_current_voice`, an accessor declared in a
header that is not part of the sources at hand; it stores the analyser's current voice. -/
def set_current_voice (a : MxlAnalyser) (voice : Int) : MxlAnalyser :=
  { a with m_curVoice := voice }

/-- The `while (remaining > 0L)` loop of `MxlAnalyser::insert_go_fwd`. -/
def insert_go_fwd_loop (k_duration_quarter : ℚ) :
    Nat → MxlAnalyser → (voice staff longaNote remaining shift : Int) → Option MxlAnalyser
  | 0, a, _, _, _, remaining, _ => if remaining > 0 then none else some a
  | n + 1, a, voice, staff, longaNote, remaining, shift =>
    if remaining > 0 then
      let shift := if remaining > longaNote then longaNote else shift
      let pFwd : ImoRest :=
        { go_fwd := true, visible := false, duration := shift, staff := staff, voice := voice }
      let a := { a with m_currentMD := a.m_currentMD.map (fun md => md ++ [pFwd]) }
      let remaining := remaining - shift
      let a := { a with
        m_timeKeeper := a.m_timeKeeper.increment_time k_duration_quarter voice staff shift }
      insert_go_fwd_loop k_duration_quarter n a voice staff longaNote remaining shift
    else some a

/-- `MxlAnalyser::insert_go_fwd`. -/
def insert_go_fwd (k_duration_quarter : ℚ) (fuel : Nat) (a : MxlAnalyser) (voice shift : Int) :
    Option MxlAnalyser :=
  let a := { a with go_fwd_calls := a.go_fwd_calls ++ [(voice, shift)] }
  if a.m_currentMD.isNone then some a
  else
    let staff := a.m_timeKeeper.get_staff_for_voice voice - 1
    let remaining := shift
    let longaNote := 8 * a.current_divisions
    insert_go_fwd_loop k_duration_quarter fuel a voice staff longaNote remaining shift

end MxlAnalyser

namespace MxlTimeKeeper

/-- The statements of `move_time_as_required_by_voice` that follow the three-way
comparison: `m_time`, `m_maxTime` and the voice's record are brought up to date. -/
def move_time_update (k_duration_quarter : ℚ) (a : MxlAnalyser) (voice : Int) : MxlAnalyser :=
  let tk := a.m_timeKeeper
  let time := tk.m_startTime + tk.duration_to_time_units k_duration_quarter tk.m_curTime
  { a with m_timeKeeper := { tk with
      m_time := time
      m_maxTime := max time tk.m_maxTime
      m_voiceTime := map_set tk.m_voiceTime voice tk.m_curTime } }

/-- `MxlTimeKeeper::move_time_as_required_by_voice`. -/
def move_time_as_required_by_voice (k_duration_quarter : ℚ) (fuel : Nat) (a : MxlAnalyser)
    (voice _staff : Int) : Option MxlAnalyser :=
  if voice > 0 then
    let (voiceTime, tk) := a.m_timeKeeper.get_timepos_for_voice voice
    if voiceTime < tk.m_curTime then
      let gap := tk.m_curTime - voiceTime
      let tk := { tk with m_curTime := voiceTime }
      let tk := { tk with
        m_time := tk.m_startTime + tk.duration_to_time_units k_duration_quarter tk.m_curTime }
      (MxlAnalyser.insert_go_fwd k_duration_quarter fuel { a with m_timeKeeper := tk } voice gap).map
        (fun a => move_time_update k_duration_quarter a voice)
    else if voiceTime = tk.m_curTime then
      some (move_time_update k_duration_quarter { a with m_timeKeeper := tk } voice)
    else
      let tk := { tk with m_curTime := voiceTime }
      some (move_time_update k_duration_quarter { a with m_timeKeeper := tk } voice)
  else some a

/-- `MxlTimeKeeper::determine_voice_and_timepos`: the voice returned and the state. -/
def determine_voice_and_timepos (k_duration_quarter : ℚ) (fuel : Nat) (a : MxlAnalyser)
    (voice staff : Int) : Option (Int × MxlAnalyser) :=
  let (voice, tk) := if voice = 0 then a.m_timeKeeper.assign_voice else (voice, a.m_timeKeeper)
  let (voiceTime, tk) := tk.get_timepos_for_voice voice
  let tk := if voiceTime = 0 then { tk with m_voiceStaff := map_set tk.m_voiceStaff voice staff }
            else tk
  (move_time_as_required_by_voice k_duration_quarter fuel { a with m_timeKeeper := tk }
    voice staff).map (fun a => (voice, a))

/-- `MxlTimeKeeper::forward_timepos`. -/
def forward_timepos (k_duration_quarter : ℚ) (a : MxlAnalyser) (amount voice _staff : Int) :
    MxlAnalyser :=
  let tk := a.m_timeKeeper
  let tk := { tk with m_curTime := tk.m_curTime + amount }
  let time := tk.m_startTime + tk.duration_to_time_units k_duration_quarter tk.m_curTime
  let tk := { tk with m_time := time, m_maxTime := max time tk.m_maxTime }
  let a := { a with m_timeKeeper := tk }
  if voice > 0 then a.set_current_voice voice else a

/-- `MxlTimeKeeper::backup_timepos`. -/
def backup_timepos (k_duration_quarter : ℚ) (a : MxlAnalyser) (amount : Int) : MxlAnalyser :=
  let tk := a.m_timeKeeper
  let tk := { tk with m_curTime := tk.m_curTime - amount }
  let tk := if tk.m_curTime < 0 then { tk with m_curTime := 0 } else tk
  let time := tk.m_startTime + tk.duration_to_time_units k_duration_quarter tk.m_curTime
  let tk := { tk with m_time := time, m_maxTime := max time tk.m_maxTime }
  (({ a with m_timeKeeper := tk } : MxlAnalyser)).set_current_voice 0

end MxlTimeKeeper

/-- The operations of `MxlTimeKeeper` that move time, with their arguments. -/
inductive TimeKeeperOp where
  | reset_for_new_measure
  | forward_timepos (amount voice staff : Int)
  | backup_timepos (amount : Int)
  | increment_time (voice staff amount : Int)
  | determine_voice_and_timepos (voice staff : Int)
  | move_time_as_required_by_voice (voice staff : Int)

/-- One operation applied to the analyser and its time keeper. -/
def apply_op (k_duration_quarter : ℚ) (fuel : Nat) (a : MxlAnalyser) :
    TimeKeeperOp → Option MxlAnalyser
  | .reset_for_new_measure =>
    some { a with m_timeKeeper := a.m_timeKeeper.reset_for_new_measure }
  | .forward_timepos amount voice staff =>
    some (MxlTimeKeeper.forward_timepos k_duration_quarter a amount voice staff)
  | .backup_timepos amount => some (MxlTimeKeeper.backup_timepos k_duration_quarter a amount)
  | .increment_time voice staff amount =>
    some { a with
      m_timeKeeper := a.m_timeKeeper.increment_time k_duration_quarter voice staff amount }
  | .determine_voice_and_timepos voice staff =>
    (MxlTimeKeeper.determine_voice_and_timepos k_duration_quarter fuel a voice staff).map
      (fun r => r.2)
  | .move_time_as_required_by_voice voice staff =>
    MxlTimeKeeper.move_time_as_required_by_voice k_duration_quarter fuel a voice staff

/-- A sequence of operations applied in order. -/
def apply_ops (k_duration_quarter : ℚ) (fuel : Nat) (a : MxlAnalyser) :
    List TimeKeeperOp → Option MxlAnalyser
  | [] => some a
  | op :: ops =>
    match apply_op k_duration_quarter fuel a op with
    | none => none
    | some a' => apply_ops k_duration_quarter fuel a' ops

/-- Every recorded per-voice time position is non-negative. -/
def voice_times_nonneg (tk : MxlTimeKeeper) : Prop :=
  ∀ p ∈ tk.m_voiceTime, 0 ≤ p.2

/-- The amount of the operation is non-negative when it is a `forward_timepos`. -/
def forward_amount_nonneg : TimeKeeperOp → Prop
  | .forward_timepos amount _ _ => 0 ≤ amount
  | _ => True

/-! ## Staff numbers in NoteRestMxlAnalyser and AtribbutesMxlAnalyser

The text of an XML child or attribute enters as the result of reading it as a decimal
integer into a `long`: `none` when the stream extraction fails. The reporter is the list of the messages
handed to it (the line number and element prefix that the source adds are left out). -/

/-- The conversion of a `long` to an `int`: the low 32 bits, read as a signed number. -/
def long_to_int (number : Int) : Int :=
  (number + 2147483648) % 4294967296 - 2147483648

/-- `MxlElementAnalyser::get_child_value_long`: the value read, or `nDefault` and a
message when the child's text is not an integer (the message of the source also quotes
the text). -/
def get_child_value_long (child : Option Int) (nDefault : Int) : Int × List String :=
  match child with
  | none =>
    (nDefault, ["Invalid integer number. Replaced by '" ++ toString nDefault ++ "'."])
  | some nNumber => (nNumber, [])

/-- `MxlElementAnalyser::get_child_value_integer`: the result of `get_child_value_long`
converted to an `int` by the `static_cast`. -/
def get_child_value_integer (child : Option Int) (nDefault : Int) : Int × List String :=
  let (nNumber, msgs) := get_child_value_long child (long_to_int nDefault)
  (long_to_int nNumber, msgs)

/-- Outcome of `NoteRestMxlAnalyser::set_staff`: the value returned, the staff index given
to the note (`pNR->set_staff`) and the messages reported. -/
structure SetStaffResult where
  iStaff : Int
  noteStaff : Int
  msgs : List String

/-- `NoteRestMxlAnalyser::set_staff`; `numStaves` is `none` when there is no current
instrument, otherwise `pInstr->get_num_staves()`. -/
def NoteRestMxlAnalyser.set_staff (child : Option Int) (numStaves : Option Int) :
    SetStaffResult :=
  let (iStaff, msgs) := get_child_value_integer child 1
  match numStaves with
  | some n =>
    if iStaff < 1 ∨ n < iStaff then
      { iStaff := 1, noteStaff := 1 - 1,
        msgs := msgs ++ ["Invalid staff number " ++ toString iStaff ++
          ". Must be greater than 0 and not higher than number of staves in instrument." ++
          " Replaced by 1."] }
    else { iStaff := iStaff, noteStaff := iStaff - 1, msgs := msgs }
  | none => { iStaff := iStaff, noteStaff := iStaff - 1, msgs := msgs }

/-- Position of the first `c` in `s` as `int(s.find(c))`: -1 when there is none. -/
def str_find (s : List Char) (c : Char) : Int :=
  if c ∈ s then ((s.takeWhile (fun x => x != c)).length : Int) else -1

/-- The call `s.substr(pos)`. -/
def substr (s : List Char) (pos : Int) : List Char :=
  s.drop pos.toNat

/-- The call `s.substr(pos, n)`; a negative `n` becomes a huge unsigned count, which takes
the rest of the string. -/
def substr_n (s : List Char) (pos n : Int) : List Char :=
  if n < 0 then s.drop pos.toNat else (s.drop pos.toNat).take n.toNat

/-- The loop `for (; i < iMax && s[i] != c; ++i);`: the first argument is the text from
index `i` to the end, the result is the final `i`. -/
def scan_for (c : Char) : List Char → Int → Int
  | [], i => i
  | x :: rest, i => if x != c then scan_for c rest (i + 1) else i

/-- The loop `for (; i >= 0 && s[i] != c; --i);`: the first argument is the text from
index `i` down to the start (that is, reversed), the result is the final `i`. -/
def scan_back (c : Char) : List Char → Int → Int
  | [], i => i
  | x :: rest, i => if x != c then scan_back c rest (i - 1) else i

/-- The protocol constants used by `DocLocator`. -/
inductive EProtocol where
  | k_unknown
  | k_none
  | k_file
  | k_string
  | k_zip
  deriving DecidableEq

/-- Data members of `DocLocator`. -/
structure DocLocator where
  m_fullLocator : List Char
  m_protocol : EProtocol
  m_innerProtocol : EProtocol
  m_path : List Char
  m_innerPath : List Char
  m_innerFile : List Char
  m_fValid : Bool
  deriving DecidableEq

namespace DocLocator

/-- `DocLocator::split_locator`, the part under the comment `inner protocol & path`;
`pathStart` is the value left by the first part. -/
def split_locator_inner (d : DocLocator) (locator : List Char) (pathStart : Int) :
    DocLocator :=
  let sharp := str_find locator '#'
  if sharp ≥ 0 then
    let d := { d with m_path := substr_n locator pathStart (sharp - pathStart) }
    let iMax : Int := locator.length
    let i := scan_for ':' (locator.drop (sharp + 1).toNat) (sharp + 1)
    if i = iMax then { d with m_fValid := false }
    else
      let proto := substr_n locator (sharp + 1) (i - sharp - 1)
      let d := { d with
        m_innerProtocol := if proto = ['z', 'i', 'p'] then .k_zip else .k_unknown }
      let d := if i < iMax - 2 then { d with m_innerPath := substr locator (i + 1) } else d
      { d with m_fValid := true }
  else
    let d := if pathStart > 0 then { d with m_path := substr locator pathStart }
             else { d with m_path := locator }
    { d with m_fValid := true }

/-- `DocLocator::split_locator`. -/
def split_locator (d : DocLocator) (locator : List Char) : DocLocator :=
  let d := { d with m_protocol := .k_file }
  let colon := str_find locator ':'
  if colon ≥ 0 ∧ substr_n locator 0 colon ≠ ['f', 'i', 'l', 'e'] ∧
      substr_n locator 0 colon = ['s', 't', 'r', 'i', 'n', 'g'] then
    { d with m_protocol := .k_string, m_fValid := true }
  else
    let pathStart : Int :=
      if colon ≥ 0 ∧ substr_n locator 0 colon = ['f', 'i', 'l', 'e'] then colon + 1 else 0
    split_locator_inner d locator pathStart

/-- `DocLocator::extract_file`. -/
def extract_file (d : DocLocator) : DocLocator :=
  if d.m_innerPath.isEmpty then d
  else
    let iMax : Int := d.m_innerPath.length
    let i := scan_back '/' d.m_innerPath.reverse (iMax - 1)
    if i ≥ 0 then { d with m_innerFile := substr d.m_innerPath (i + 1) } else d

/-- The constructor `DocLocator::DocLocator(locator)`. -/
def construct (locator : List Char) : DocLocator :=
  let d : DocLocator :=
    { m_fullLocator := locator, m_protocol := .k_unknown, m_innerProtocol := .k_none,
      m_path := [], m_innerPath := [], m_innerFile := [], m_fValid := false }
  extract_file (split_locator d locator)

/-- `DocLocator::get_protocol_string`. -/
def get_protocol_string (d : DocLocator) : List Char :=
  match d.m_protocol with
  | .k_file => []
  | .k_string => ['s', 't', 'r', 'i', 'n', 'g', ':']
  | _ => []

/-- `DocLocator::get_locator_string`; `get_path()` and `get_inner_path()` are the
accessors of `m_path` and `m_innerPath` (declared in a header that is not part of the
sources at hand). -/
def get_locator_string (d : DocLocator) : List Char :=
  let loc := d.get_protocol_string ++ d.m_path
  if d.m_innerProtocol = .k_zip then loc ++ ['#', 'z', 'i', 'p', ':'] ++ d.m_innerPath
  else loc

end DocLocator

/-! ## Regular expressions

`std::regex_match(text, re)` succeeds when the whole of `text` matches `re`, so a pattern
is a `RegularExpression Char` and matching is `rmatch`; the anchors `^` and `$` that the
source writes around each alternative hold at the two ends of a whole match and are left
out. -/

/-- The characters of `w` in sequence. -/
def re_lit : List Char → RegularExpression Char
  | [] => 1
  | c :: cs => RegularExpression.char c * re_lit cs

/-- A bracket expression, given by the characters it contains. -/
def re_class : List Char → RegularExpression Char
  | [] => 0
  | c :: cs => RegularExpression.char c + re_class cs

/-- The sub-patterns of the list one after the other. -/
def re_cat : List (RegularExpression Char) → RegularExpression Char
  | [] => 1
  | r :: rs => r * re_cat rs

/-- The pattern ` *` (also written `[ ]*`). -/
def re_spaces : RegularExpression Char :=
  RegularExpression.star (RegularExpression.char ' ')

/-- The pattern `[1-9][0-9]*`. -/
def re_number : RegularExpression Char :=
  re_class ['1', '2', '3', '4', '5', '6', '7', '8', '9'] *
    RegularExpression.star (re_class ['0', '1', '2', '3', '4', '5', '6', '7', '8', '9'])

/-- The pattern of `mxl_is_valid_ending_number`:
`^([ ]*)$|^([1-9][0-9]*(, *[1-9][0-9]*)* *)$`. -/
def regexValid : RegularExpression Char :=
  re_spaces +
    re_number * RegularExpression.star (RegularExpression.char ',' * re_spaces * re_number) *
      re_spaces

/-- `mxl_is_valid_ending_number`. -/
def mxl_is_valid_ending_number (num : List Char) : Bool :=
  regexValid.rmatch num

/-- The pattern that the MusicXML schema gives for ending numbers, as quoted in the
source: `([ ]*)|([1-9][0-9]*(, ?[1-9][0-9]*)*)`. -/
def regexXsdEndingNumber : RegularExpression Char :=
  re_spaces +
    re_number * RegularExpression.star
      (RegularExpression.char ',' * (RegularExpression.char ' ' + 1) * re_number)

/-- The class `\d`: the decimal digits. -/
def is_digit (c : Char) : Bool :=
  ['0', '1', '2', '3', '4', '5', '6', '7', '8', '9'].contains c

/-- The successive matches of `\d+` found by `std::sregex_iterator`: the maximal runs of
digits, from left to right; `cur` is the run being read. -/
def digit_runs_aux : List Char → List Char → List (List Char)
  | [], cur => if cur = [] then [] else [cur]
  | c :: rest, cur =>
    if is_digit c then digit_runs_aux rest (cur ++ [c])
    else if cur = [] then digit_runs_aux rest []
    else cur :: digit_runs_aux rest []

/-- All matches of `\d+` in `num`. -/
def digit_runs (num : List Char) : List (List Char) :=
  digit_runs_aux num []

/-- The number written by a run of decimal digits. -/
def decimal_value (ds : List Char) : Nat :=
  ds.foldl (fun acc c => acc * 10 + (c.toNat - 48)) 0

/-- Largest value of a C++ `int` (32 bits). -/
def INT_MAX : Int := 2147483647

/-- `std::stoi` on a run of digits: `none` stands for the exception `std::out_of_range`,
thrown when the number does not fit in an `int`. -/
def stoi (ds : List Char) : Option Int :=
  if (decimal_value ds : Int) ≤ INT_MAX then some (decimal_value ds) else none

/-- The `while` loop of `mxl_extract_numbers_from_ending` over the matches: every match is
converted and pushed; `none` when a conversion throws. -/
def push_back_matches : List (List Char) → List Int → Option (List Int)
  | [], repetitions => some repetitions
  | m :: rest, repetitions =>
    match stoi m with
    | none => none
    | some n => push_back_matches rest (repetitions ++ [n])

/-- `mxl_extract_numbers_from_ending`: the vector `repetitions` after the call. -/
def mxl_extract_numbers_from_ending (num : List Char) (repetitions : List Int) :
    Option (List Int) :=
  push_back_matches (digit_runs num) repetitions

/-- A run of `n` blank spaces. -/
def spaces (n : Nat) : List Char :=
  List.replicate n ' '

/-- A numeral as the ending patterns want it: a digit from 1 to 9, then digits. -/
def is_ending_numeral : List Char → Bool
  | [] => false
  | h :: t => ['1', '2', '3', '4', '5', '6', '7', '8', '9'].contains h && t.all is_digit

/-- The text after the first numeral of an ending number: for every further numeral a
comma, some blank spaces and the numeral. -/
def ending_tail : List (Nat × List Char) → List Char
  | [] => []
  | (k, d) :: rest => ',' :: (spaces k ++ d) ++ ending_tail rest

/-- An ending number that lists the numeral `first` and the numerals of `more`, each with
its number of blank spaces after the comma, with `trailing` blank spaces at the end. -/
def ending_number_text (first : List Char) (more : List (Nat × List Char)) (trailing : Nat) :
    List Char :=
  first ++ ending_tail more ++ spaces trailing

/-- `::tolower` in the "C" locale: the letters `A` to `Z` become `a` to `z`. -/
def tolower : Char → Char
  | 'A' => 'a'
  | 'B' => 'b'
  | 'C' => 'c'
  | 'D' => 'd'
  | 'E' => 'e'
  | 'F' => 'f'
  | 'G' => 'g'
  | 'H' => 'h'
  | 'I' => 'i'
  | 'J' => 'j'
  | 'K' => 'k'
  | 'L' => 'l'
  | 'M' => 'm'
  | 'N' => 'n'
  | 'O' => 'o'
  | 'P' => 'p'
  | 'Q' => 'q'
  | 'R' => 'r'
  | 'S' => 's'
  | 'T' => 't'
  | 'U' => 'u'
  | 'V' => 'v'
  | 'W' => 'w'
  | 'X' => 'x'
  | 'Y' => 'y'
  | 'Z' => 'z'
  | c => c

/-- The values of a repetition mark. -/
inductive ERepeatMark where
  | k_repeat_none
  | k_repeat_da_capo
  | k_repeat_da_capo_al_fine
  | k_repeat_da_capo_al_coda
  | k_repeat_dal_segno
  | k_repeat_dal_segno_al_fine
  | k_repeat_dal_segno_al_coda
  | k_repeat_fine
  | k_repeat_to_coda
  deriving DecidableEq

/-- The pattern `^ *(d|d\.) *(c|c\.) *$|^ *da *capo *$`. -/
def regexDaCapo : RegularExpression Char :=
  re_cat [re_spaces,
    re_lit ['d'] + re_lit ['d', '.'], re_spaces,
    re_lit ['c'] + re_lit ['c', '.'], re_spaces] +
    re_cat [re_spaces,
      re_lit ['d', 'a'], re_spaces,
      re_lit ['c', 'a', 'p', 'o'], re_spaces]

/-- The pattern `^ *(d|d\.) *(c|c\.) *al *fine *$|^ *da *capo *al *fine *$`. -/
def regexDaCapoAlFine : RegularExpression Char :=
  re_cat [re_spaces,
    re_lit ['d'] + re_lit ['d', '.'], re_spaces,
    re_lit ['c'] + re_lit ['c', '.'], re_spaces,
    re_lit ['a', 'l'], re_spaces,
    re_lit ['f', 'i', 'n', 'e'], re_spaces] +
    re_cat [re_spaces,
      re_lit ['d', 'a'], re_spaces,
      re_lit ['c', 'a', 'p', 'o'], re_spaces,
      re_lit ['a', 'l'], re_spaces,
      re_lit ['f', 'i', 'n', 'e'], re_spaces]

/-- The pattern `^ *(d|d\.) *(c|c\.) *al *coda *$|^ *da *capo *al *coda *$`. -/
def regexDaCapoAlCoda : RegularExpression Char :=
  re_cat [re_spaces,
    re_lit ['d'] + re_lit ['d', '.'], re_spaces,
    re_lit ['c'] + re_lit ['c', '.'], re_spaces,
    re_lit ['a', 'l'], re_spaces,
    re_lit ['c', 'o', 'd', 'a'], re_spaces] +
    re_cat [re_spaces,
      re_lit ['d', 'a'], re_spaces,
      re_lit ['c', 'a', 'p', 'o'], re_spaces,
      re_lit ['a', 'l'], re_spaces,
      re_lit ['c', 'o', 'd', 'a'], re_spaces]

/-- The pattern `^ *(d|d\.) *(s|s\.) *$|^ *d(a|e)l *segno *$`. -/
def regexDalSegno : RegularExpression Char :=
  re_cat [re_spaces,
    re_lit ['d'] + re_lit ['d', '.'], re_spaces,
    re_lit ['s'] + re_lit ['s', '.'], re_spaces] +
    re_cat [re_spaces,
      re_cat [re_lit ['d'], re_lit ['a'] + re_lit ['e'], re_lit ['l']], re_spaces,
      re_lit ['s', 'e', 'g', 'n', 'o'], re_spaces]

/-- The pattern `^ *(d|d\.) *(s|s\.) *al *fine *$|^ *d(a|e)l *segno *al *fine *$`. -/
def regexDalSegnoAlFine : RegularExpression Char :=
  re_cat [re_spaces,
    re_lit ['d'] + re_lit ['d', '.'], re_spaces,
    re_lit ['s'] + re_lit ['s', '.'], re_spaces,
    re_lit ['a', 'l'], re_spaces,
    re_lit ['f', 'i', 'n', 'e'], re_spaces] +
    re_cat [re_spaces,
      re_cat [re_lit ['d'], re_lit ['a'] + re_lit ['e'], re_lit ['l']], re_spaces,
      re_lit ['s', 'e', 'g', 'n', 'o'], re_spaces,
      re_lit ['a', 'l'], re_spaces,
      re_lit ['f', 'i', 'n', 'e'], re_spaces]

/-- The pattern `^ *(d|d\.) *(s|s\.) *al *coda *$|^ *d(a|e)l *segno *al *coda *$`. -/
def regexDalSegnoAlCoda : RegularExpression Char :=
  re_cat [re_spaces,
    re_lit ['d'] + re_lit ['d', '.'], re_spaces,
    re_lit ['s'] + re_lit ['s', '.'], re_spaces,
    re_lit ['a', 'l'], re_spaces,
    re_lit ['c', 'o', 'd', 'a'], re_spaces] +
    re_cat [re_spaces,
      re_cat [re_lit ['d'], re_lit ['a'] + re_lit ['e'], re_lit ['l']], re_spaces,
      re_lit ['s', 'e', 'g', 'n', 'o'], re_spaces,
      re_lit ['a', 'l'], re_spaces,
      re_lit ['c', 'o', 'd', 'a'], re_spaces]

/-- The pattern `^ *fine *$`. -/
def regexFine : RegularExpression Char :=
  re_cat [re_spaces,
    re_lit ['f', 'i', 'n', 'e'], re_spaces]

/-- The pattern `^ *to *coda *$`. -/
def regexToCoda : RegularExpression Char :=
  re_cat [re_spaces,
    re_lit ['t', 'o'], re_spaces,
    re_lit ['c', 'o', 'd', 'a'], re_spaces]

/-- `mxl_type_of_repetion_mark`. -/
def mxl_type_of_repetion_mark (value : List Char) : ERepeatMark :=
  let text := value.map tolower
  if regexDaCapo.rmatch text then .k_repeat_da_capo
  else if regexDaCapoAlFine.rmatch text then .k_repeat_da_capo_al_fine
  else if regexDaCapoAlCoda.rmatch text then .k_repeat_da_capo_al_coda
  else if regexDalSegno.rmatch text then .k_repeat_dal_segno
  else if regexDalSegnoAlFine.rmatch text then .k_repeat_dal_segno_al_fine
  else if regexDalSegnoAlCoda.rmatch text then .k_repeat_dal_segno_al_coda
  else if regexFine.rmatch text then .k_repeat_fine
  else if regexToCoda.rmatch text then .k_repeat_to_coda
  else .k_repeat_none

/-- The words `ws` one after the other, each followed by the number of blank spaces that
`gaps` gives at its place (none when `gaps` is too short). -/
def spaced_words : List (List Char) → List Nat → List Char
  | [], _ => []
  | w :: ws, [] => w ++ spaced_words ws []
  | w :: ws, g :: gs => w ++ spaces g ++ spaced_words ws gs

/-- The characters that occur in the pattern: a text that matches has no other. -/
def re_chars : RegularExpression Char → List Char
  | .zero => []
  | .epsilon => []
  | .char c => [c]
  | .plus P Q => re_chars P ++ re_chars Q
  | .comp P Q => re_chars P ++ re_chars Q
  | .star P => re_chars P

/-- Characters that the pattern requires: a text that matches has each of them. -/
def re_must : RegularExpression Char → List Char
  | .zero => []
  | .epsilon => []
  | .char c => [c]
  | .plus P Q => (re_must P).filter (fun c => (re_must Q).contains c)
  | .comp P Q => re_must P ++ re_must Q
  | .star _ => []

/-- A test that no text made of the words `ws` and blank spaces matches `r`: a word has a
character that `r` does not have, or `r` requires a character, not the blank space, that
no word has. -/
def excluded (r : RegularExpression Char) (ws : List (List Char)) : Bool :=
  ws.flatten.any (fun c => !(re_chars r).contains c) ||
    (re_must r).any (fun c => c != ' ' && !ws.flatten.contains c)

/-- The sub-patterns `rs`, each followed by ` *`. -/
def re_spaced : List (RegularExpression Char) → RegularExpression Char
  | [] => 1
  | r :: rs => r * (re_spaces * re_spaced rs)

/-- Every word matches the sub-pattern at its place. -/
def words_match : List (List Char) → List (RegularExpression Char) → Bool
  | [], [] => true
  | w :: ws, r :: rs => r.rmatch w && words_match ws rs
  | _, _ => false

/-- The words of `D.C.` and of `Da Capo`, in lower case. -/
def da_capo_words : List (List (List Char)) :=
  [[['d', '.'], ['c', '.']], [['d', 'a'], ['c', 'a', 'p', 'o']]]

/-- The words of `D.S.`, `Dal Segno` and `Del Segno`, in lower case. -/
def dal_segno_words : List (List (List Char)) :=
  [[['d', '.'], ['s', '.']], [['d', 'a', 'l'], ['s', 'e', 'g', 'n', 'o']],
    [['d', 'e', 'l'], ['s', 'e', 'g', 'n', 'o']]]

/-- The words of `al Fine`, in lower case. -/
def al_fine_words : List (List Char) :=
  [['a', 'l'], ['f', 'i', 'n', 'e']]

/-- The words of `al Coda`, in lower case. -/
def al_coda_words : List (List Char) :=
  [['a', 'l'], ['c', 'o', 'd', 'a']]

/-! ## Reading integers from text -/

/-- The white space that a stream skips before a number (`isspace` in the "C" locale). -/
def is_space (c : Char) : Bool :=
  [' ', '\t', '\n', '\x0b', '\x0c', '\r'].contains c

/-- Largest value of a C++ `long` (64 bits). -/
def LONG_MAX : Int := 9223372036854775807

/-- Smallest value of a C++ `long` (64 bits). -/
def LONG_MIN : Int := -9223372036854775808

/-- Smallest value of a C++ `int` (32 bits). -/
def INT_MIN : Int := -2147483648

/-- An optional sign at the start of the text: whether it is `-`, and the text after it. -/
def strip_sign : List Char → Bool × List Char
  | '-' :: rest => (true, rest)
  | '+' :: rest => (false, rest)
  | text => (false, text)

/-- The extraction `iss >> std::dec >> number` into a `long`: white space is skipped, then
an optional sign and the longest run of digits are read; `none` stands for `fail()`, which
holds when there is no digit or when the number does not fit in a `long`. -/
def extract_long (text : List Char) : Option Int :=
  let (negative, rest) := strip_sign (text.dropWhile is_space)
  let digits := rest.takeWhile is_digit
  if digits = [] then none
  else
    let number : Int := if negative then -(decimal_value digits : Int) else decimal_value digits
    if LONG_MIN ≤ number ∧ number ≤ LONG_MAX then some number else none

/-- `MxlAnalyser::to_integer`: the value returned (true for an error) and `*pResult`. -/
def MxlAnalyser.to_integer (text : List Char) : Bool × Int :=
  match extract_long text with
  | none => (true, 0)
  | some number => (false, long_to_int number)

/-- `MxlAnalyser::set_musicxml_version`: the value returned, which is also the value left
in `m_musicxmlVersion`. -/
def MxlAnalyser.set_musicxml_version (version : List Char) : Int :=
  let i := str_find version '.'
  if i ≠ -1 then
    let major := substr_n version 0 i
    let (error, m_musicxmlVersion) := MxlAnalyser.to_integer major
    if error then 100
    else
      let m_musicxmlVersion := m_musicxmlVersion * 100
      let minor := substr version (i + 1)
      let (error, nMinor) := MxlAnalyser.to_integer minor
      if error then 100 else m_musicxmlVersion + nMinor
  else 0

/-- The integer written by an optional sign and a run of digits. -/
def signed_value (sign digits : List Char) : Int :=
  if sign = ['-'] then -(decimal_value digits : Int) else decimal_value digits

/-! ## Context snapshots of SpAlgColumn

`lomse_spacing_algorithm.h` only declares `save_context`, `get_prolog_clef` and
`get_prolog_key`. An entry (`ColStaffObjsEntry*`) is `none` for the null pointer, the
"no entry" sentinel. -/

/-- Modelled from the spec: one snapshot saved by `SpAlgColumn::save_context`, whose
definition is not part of the sources at hand: the column, the shape/staff identifier and
the clef and key entries. -/
structure ContextSnapshot where
  iCol : Int
  idx : Int
  pClefEntry : Option Nat
  pKeyEntry : Option Nat
  deriving DecidableEq

/-- Modelled from the spec: `SpAlgColumn::save_context` (definition not part of the
sources at hand): an insert that overwrites any prior snapshot for that (instrument, staff)
in that column; the last write wins. `staff_index` gives the shape/staff identifier of an
(instrument, staff) pair. The newest snapshot is at the head of the list. -/
def SpAlgColumn.save_context (staff_index : Int → Int → Int) (ctx : List ContextSnapshot)
    (iCol iInstr iStaff : Int) (pClefEntry pKeyEntry : Option Nat) : List ContextSnapshot :=
  { iCol := iCol, idx := staff_index iInstr iStaff, pClefEntry := pClefEntry,
    pKeyEntry := pKeyEntry } :: ctx

/-- Modelled from the spec: the snapshot in effect for a column and a shape/staff
identifier, the last one saved for them (lookup used by `get_prolog_clef` and
`get_prolog_key`, whose definitions are not part of the sources at hand). -/
def SpAlgColumn.find_context (ctx : List ContextSnapshot) (iCol idx : Int) :
    Option ContextSnapshot :=
  ctx.find? (fun s => s.iCol = iCol ∧ s.idx = idx)

/-- Modelled from the spec: `SpAlgColumn::get_prolog_clef` (definition not part of the
sources at hand): lookup by column and shape/staff identifier, the "no entry" sentinel
when absent. -/
def SpAlgColumn.get_prolog_clef (ctx : List ContextSnapshot) (iCol idx : Int) : Option Nat :=
  match SpAlgColumn.find_context ctx iCol idx with
  | some s => s.pClefEntry
  | none => none

/-- Modelled from the spec: `SpAlgColumn::get_prolog_key` (definition not part of the
sources at hand): lookup by column and shape/staff identifier, the "no entry" sentinel
when absent. -/
def SpAlgColumn.get_prolog_key (ctx : List ContextSnapshot) (iCol idx : Int) : Option Nat :=
  match SpAlgColumn.find_context ctx iCol idx with
  | some s => s.pKeyEntry
  | none => none

/-- One call of `save_context` with its arguments. -/
structure SaveContextCall where
  iCol : Int
  iInstr : Int
  iStaff : Int
  pClefEntry : Option Nat
  pKeyEntry : Option Nat

/-- The snapshots after a sequence of `save_context` calls, made in the order of the list. -/
def SpAlgColumn.save_all (staff_index : Int → Int → Int) (ctx : List ContextSnapshot) :
    List SaveContextCall → List ContextSnapshot
  | [] => ctx
  | c :: calls =>
    SpAlgColumn.save_all staff_index
      (SpAlgColumn.save_context staff_index ctx c.iCol c.iInstr c.iStaff c.pClefEntry
        c.pKeyEntry) calls

/-! ## ClefMxlAnalyser: validation of a clef -/

/-- The clef signs that `validate_clef` returns: constants of a header that is not part of
the sources at hand, listed by the names the analyser uses and taken to be distinct. -/
inductive EClefSign where
  | k_clef_sign_G
  | k_clef_sign_F
  | k_clef_sign_C
  | k_clef_sign_percussion
  | k_clef_sign_TAB
  | k_clef_sign_none
  deriving DecidableEq

/-- Outcome of `ClefMxlAnalyser::validate_clef`: the sign returned, the members `m_line`
and `m_octaveChange` afterwards, and the messages reported. -/
structure ValidatedClef where
  sign : EClefSign
  m_line : Int
  m_octaveChange : Int
  msgs : List String

/-- `ClefMxlAnalyser::validate_clef`; `m_line` and `m_octaveChange` are the members as
read from the `<line>` and `<clef-octave-change>` children. -/
def ClefMxlAnalyser.validate_clef (sign : List Char) (m_line m_octaveChange : Int) :
    ValidatedClef :=
  let (m_octaveChange, msgs) :=
    if m_octaveChange ≠ 0 ∧ ¬ (sign = ['F'] ∨ sign = ['G']) then
      ((0 : Int),
        ["Error: <clef-octave-change> only implemented for F and G keys. Ignored."])
    else (m_octaveChange, [])
  let (m_octaveChange, msgs) :=
    if m_octaveChange > 2 ∨ m_octaveChange < -2 then
      ((0 : Int), msgs ++
        ["Error: <clef-octave-change> only supported for up to two octaves. Ignored."])
    else (m_octaveChange, msgs)
  if sign = ['G'] then
    if ¬ (m_line = 1 ∨ m_line = 2) then
      { sign := .k_clef_sign_G, m_line := 2, m_octaveChange := m_octaveChange,
        msgs := msgs ++ ["Error: G clef only supported in lines 1 or 2. Line changed to 2."] }
    else
      { sign := .k_clef_sign_G, m_line := m_line, m_octaveChange := m_octaveChange,
        msgs := msgs }
  else if sign = ['F'] then
    if m_line = 4 then
      { sign := .k_clef_sign_F, m_line := m_line, m_octaveChange := m_octaveChange,
        msgs := msgs }
    else if m_line = 3 ∨ m_line = 5 then
      if m_octaveChange ≠ 0 then
        { sign := .k_clef_sign_F, m_line := m_line, m_octaveChange := 0,
          msgs := msgs ++ ["Error: F3 and F5 clefs only supported without octave change. " ++
            "Octave change ignored."] }
      else
        { sign := .k_clef_sign_F, m_line := m_line, m_octaveChange := m_octaveChange,
          msgs := msgs }
    else
      { sign := .k_clef_sign_F, m_line := 4, m_octaveChange := m_octaveChange,
        msgs := msgs ++
          ["Error: F clef only supported in lines 3, 4 or 5. Line changed to 4."] }
  else if sign = ['C'] then
    if m_line < 1 ∨ m_line > 5 then
      { sign := .k_clef_sign_C, m_line := 1, m_octaveChange := m_octaveChange,
        msgs := msgs ++ ["Error: C clef only supported in lines 1 to 5. Line changed to 1."] }
    else
      { sign := .k_clef_sign_C, m_line := m_line, m_octaveChange := m_octaveChange,
        msgs := msgs }
  else if sign = ['p', 'e', 'r', 'c', 'u', 's', 's', 'i', 'o', 'n'] then
    { sign := .k_clef_sign_percussion, m_line := 3, m_octaveChange := 0, msgs := msgs }
  else if sign = ['T', 'A', 'B'] then
    { sign := .k_clef_sign_TAB, m_line := 3, m_octaveChange := 0, msgs := msgs }
  else if sign = ['n', 'o', 'n', 'e'] then
    { sign := .k_clef_sign_none, m_line := 3, m_octaveChange := 0, msgs := msgs }
  else
    { sign := .k_clef_sign_G, m_line := 2, m_octaveChange := 0,
      msgs := msgs ++ ["Unknown clef '" ++ String.mk sign ++ "'. Assumed 'G' in line 2."] }

/-- The supported combinations of clef sign, line and octave change, as the specification
lists them. -/
def supported_clef (sign : EClefSign) (line octaveChange : Int) : Prop :=
  (sign = .k_clef_sign_G ∧ (line = 1 ∨ line = 2) ∧ |octaveChange| ≤ 2) ∨
  (sign = .k_clef_sign_F ∧ line = 4 ∧ |octaveChange| ≤ 2) ∨
  (sign = .k_clef_sign_F ∧ (line = 3 ∨ line = 5) ∧ octaveChange = 0) ∨
  (sign = .k_clef_sign_C ∧ (1 ≤ line ∧ line ≤ 5) ∧ octaveChange = 0) ∨
  ((sign = .k_clef_sign_percussion ∨ sign = .k_clef_sign_TAB ∨ sign = .k_clef_sign_none) ∧
    line = 3 ∧ octaveChange = 0)

instance (sign : EClefSign) (line octaveChange : Int) :
    Decidable (supported_clef sign line octaveChange) := by
  unfold supported_clef
  infer_instance

/-- The sign strings that `validate_clef` knows. -/
def known_clef_signs : List (List Char) :=
  [['G'], ['F'], ['C'], ['p', 'e', 'r', 'c', 'u', 's', 's', 'i', 'o', 'n'], ['T', 'A', 'B'],
    ['n', 'o', 'n', 'e']]

/-! ## BarlineMxlAnalyser: combination of barlines -/

/-- The barline types: the enumeration is declared in a header that is not part of the
sources at hand; its values are listed by the names the analyser uses and taken to be
distinct. -/
inductive EBarline where
  | k_barline_unknown
  | k_barline_none
  | k_barline_simple
  | k_barline_double
  | k_barline_start
  | k_barline_end
  | k_barline_start_repetition
  | k_barline_end_repetition
  | k_barline_double_repetition
  | k_barline_double_repetition_alt
  | k_barline_heavy_heavy
  | k_barline_dotted
  | k_barline_dashed
  | k_barline_heavy
  | k_barline_tick
  | k_barline_short
  deriving DecidableEq

/-- `BarlineMxlAnalyser::create_barline`: the member `m_fRightMiddle` and the type of the
barline `m_pBarline` afterwards. `last_barline` is the type of the barline returned by
`get_last_barline()`, `none` for the null pointer. -/
def BarlineMxlAnalyser.create_barline (location : List Char) (last_barline : Option EBarline) :
    Bool × EBarline :=
  match last_barline with
  | some t => if location = ['l', 'e', 'f', 't'] then (false, t) else (true, .k_barline_unknown)
  | none => (true, .k_barline_unknown)

/-- `BarlineMxlAnalyser::combine_barlines`: the type given to the barline and the messages
reported. `pBarline_type` is the type of the barline before the call;
`barline_type_to_ldp` is the function of `LdpExporter` of that name, which is not part of
the sources at hand. -/
def BarlineMxlAnalyser.combine_barlines (barline_type_to_ldp : EBarline → String)
    (m_fRightMiddle : Bool) (pBarline_type newType : EBarline) : EBarline × List String :=
  if m_fRightMiddle then (newType, [])
  else
    let leftSide := pBarline_type
    let rightSide := newType
    if rightSide = .k_barline_none then (leftSide, [])
    else if leftSide = .k_barline_simple ∧ rightSide = .k_barline_simple then
      (.k_barline_double, [])
    else if rightSide = .k_barline_simple ∨ rightSide = .k_barline_none then
      (.k_barline_simple, [])
    else if leftSide = .k_barline_simple then (rightSide, [])
    else if leftSide = .k_barline_end ∧ rightSide = .k_barline_start_repetition then
      (rightSide, [])
    else if leftSide = .k_barline_end_repetition ∧
        rightSide = .k_barline_start_repetition then
      (.k_barline_double_repetition, [])
    else
      (.k_barline_heavy_heavy,
        ["Barlines combination not supported: left = " ++ barline_type_to_ldp leftSide ++
          ", right = " ++ barline_type_to_ldp rightSide ++
          ". Replaced by 'heavy-heavy' barline."])

/-- The steps `create_barline(location)` and `combine_barlines(m_pBarline, type)` of
`BarlineMxlAnalyser::do_analysis`: the type of the barline afterwards and the messages. -/
def BarlineMxlAnalyser.created_and_combined (barline_type_to_ldp : EBarline → String)
    (location : List Char) (last_barline : Option EBarline) (newType : EBarline) :
    EBarline × List String :=
  let (m_fRightMiddle, pBarline_type) :=
    BarlineMxlAnalyser.create_barline location last_barline
  BarlineMxlAnalyser.combine_barlines barline_type_to_ldp m_fRightMiddle pBarline_type newType

/-! ## MxlElementAnalyser: integers within a range -/

/-- `MxlElementAnalyser::get_child_pcdata_int`: the value returned and the messages
reported; `number` is the text of the child. `invalid` is what the source does when its
flag `fError` is set: one message and the default value. -/
def MxlElementAnalyser.get_child_pcdata_int (name : String) (number : List Char)
    (nMin nMax nDefault : Int) : Int × List String :=
  let range := toString nMin ++ " to " ++ toString nMax
  let sDefault := toString nDefault
  let invalid : Int × List String :=
    (nDefault, [name ++ ": invalid value " ++ String.mk number ++
      ". Must be integer in range " ++ range ++ ". Value " ++ sDefault ++ " assumed."])
  match extract_long number with
  | none => invalid
  | some nNumber =>
    if nNumber < nMin ∨ nNumber > nMax then invalid else (long_to_int nNumber, [])

/-- The `midi-channel` step of `MidiInstrumentMxlAnalyser::do_analysis`: the value given
to `set_midi_channel` and the messages reported. -/
def MidiInstrumentMxlAnalyser.midi_channel (number : List Char) : Int × List String :=
  let (value, msgs) := MxlElementAnalyser.get_child_pcdata_int "midi-channel" number 1 16 1
  (value - 1, msgs)

/-! ## States used to evaluate the time keeper -/

/-- The analyser at the start of a measure, after `full_reset`: no voice has a record, one
division per quarter note and the music data is present. -/
def fresh_analyser : MxlAnalyser :=
  { m_timeKeeper :=
      { m_time := 0, m_startTime := 0, m_maxTime := 0, m_curTime := 0, m_divisions := 1,
        m_fResetVoiceTime := true, m_voiceTime := [], m_voiceStaff := [] },
    m_curVoice := 0, current_divisions := 1, m_currentMD := some [], go_fwd_calls := [] }

/-- A state with two voices used to evaluate the go-forward filler: voice 1 has reached
position 9, voice 2 is at position 0, the current position is 9, one division per quarter
note (a longa is 8 divisions) and the music data is present. -/
def two_voice_analyser : MxlAnalyser :=
  { m_timeKeeper :=
      { m_time := 576, m_startTime := 0, m_maxTime := 576, m_curTime := 9, m_divisions := 1,
        m_fResetVoiceTime := true, m_voiceTime := [(1, 9), (2, 0)],
        m_voiceStaff := [(1, 1), (2, 1)] },
    m_curVoice := 2, current_divisions := 1, m_currentMD := some [], go_fwd_calls := [] }

/-- A state used to instantiate the theorems: voice 1 has reached position 8, voice 2 is
at position 3, the current position is 8, one division per quarter note. -/
def sample_analyser : MxlAnalyser :=
  { m_timeKeeper :=
      { m_time := 512, m_startTime := 0, m_maxTime := 512, m_curTime := 8, m_divisions := 1,
        m_fResetVoiceTime := true, m_voiceTime := [(1, 8), (2, 3)],
        m_voiceStaff := [(1, 1), (2, 1)] },
    m_curVoice := 1, current_divisions := 1, m_currentMD := some [], go_fwd_calls := [] }

/-! ## Facts about the time keeper -/

theorem get_timepos_for_voice_curTime (tk : MxlTimeKeeper) (v : Int) :
    (tk.get_timepos_for_voice v).2.m_curTime = tk.m_curTime := by
  unfold MxlTimeKeeper.get_timepos_for_voice
  split <;> rfl

theorem get_timepos_for_voice_startTime (tk : MxlTimeKeeper) (v : Int) :
    (tk.get_timepos_for_voice v).2.m_startTime = tk.m_startTime := by
  unfold MxlTimeKeeper.get_timepos_for_voice
  split <;> rfl

theorem insert_go_fwd_loop_calls (kq : ℚ) (n : Nat) :
    ∀ (a a' : MxlAnalyser) (voice staff longaNote remaining shift : Int),
      MxlAnalyser.insert_go_fwd_loop kq n a voice staff longaNote remaining shift = some a' →
      a'.go_fwd_calls = a.go_fwd_calls := by
  induction n with
  | zero =>
    intro a a' voice staff longaNote remaining shift h
    simp only [MxlAnalyser.insert_go_fwd_loop] at h
    split at h
    · exact absurd h (by simp)
    · cases h; rfl
  | succ n ih =>
    intro a a' voice staff longaNote remaining shift h
    simp only [MxlAnalyser.insert_go_fwd_loop] at h
    split at h
    · have h2 := ih _ _ _ _ _ _ _ h
      exact h2
    · cases h; rfl

theorem insert_go_fwd_calls (kq : ℚ) (fuel : Nat) (a a' : MxlAnalyser) (voice shift : Int)
    (h : MxlAnalyser.insert_go_fwd kq fuel a voice shift = some a') :
    a'.go_fwd_calls = a.go_fwd_calls ++ [(voice, shift)] := by
  simp only [MxlAnalyser.insert_go_fwd] at h
  split at h
  · cases h; rfl
  · exact insert_go_fwd_loop_calls kq _ _ _ _ _ _ _ _ h

theorem insert_go_fwd_loop_isSome (kq : ℚ) (n : Nat) :
    ∀ (a : MxlAnalyser) (voice staff longaNote remaining shift : Int),
      1 ≤ longaNote → 1 ≤ shift → remaining.toNat ≤ n →
      (MxlAnalyser.insert_go_fwd_loop kq n a voice staff longaNote remaining shift).isSome := by
  induction n with
  | zero =>
    intro a voice staff longaNote remaining shift _ _ hr
    have : ¬ remaining > 0 := by omega
    simp [MxlAnalyser.insert_go_fwd_loop, this]
  | succ n ih =>
    intro a voice staff longaNote remaining shift hl hs hr
    simp only [MxlAnalyser.insert_go_fwd_loop]
    split
    · apply ih _ _ _ _ _ _ hl
      · split <;> omega
      · split <;> omega
    · rfl

theorem insert_go_fwd_isSome (kq : ℚ) (fuel : Nat) (a : MxlAnalyser) (voice shift : Int)
    (hd : a.m_currentMD = none ∨ 1 ≤ a.current_divisions) (hs : 1 ≤ shift)
    (hf : shift.toNat ≤ fuel) :
    (MxlAnalyser.insert_go_fwd kq fuel a voice shift).isSome := by
  simp only [MxlAnalyser.insert_go_fwd]
  split
  · rfl
  · next hmd =>
    rcases hd with hd | hd
    · simp [hd] at hmd
    · exact insert_go_fwd_loop_isSome kq fuel _ _ _ _ _ _ (by omega) hs hf

theorem map_find_map_set_self (m : List (Int × Int)) (k v : Int) :
    map_find (map_set m k v) k = some v := by
  induction m with
  | nil => simp [map_set, map_find]
  | cons hd t ih =>
    obtain ⟨k', v'⟩ := hd
    simp only [map_set]
    split
    · simp [map_find]
    · next hne =>
      split
      · simp [map_find]
      · simp [map_find, hne, ih]

theorem map_set_length_pos (m : List (Int × Int)) (k v : Int) :
    0 < (map_set m k v).length := by
  cases m with
  | nil => simp [map_set]
  | cons hd t =>
    obtain ⟨k', v'⟩ := hd
    simp only [map_set]
    split
    · simp
    · split <;> simp

theorem map_find_guard (m : List (Int × Int)) (k : Int) :
    (if m.length > 0 then map_find m k else none) = map_find m k := by
  cases m with
  | nil => simp [map_find]
  | cons hd t => simp

theorem get_timepos_for_voice_of_some (tk : MxlTimeKeeper) (v t : Int)
    (h : map_find tk.m_voiceTime v = some t) : tk.get_timepos_for_voice v = (t, tk) := by
  unfold MxlTimeKeeper.get_timepos_for_voice
  rw [map_find_guard, h]

theorem get_timepos_for_voice_of_none (tk : MxlTimeKeeper) (v : Int)
    (h : map_find tk.m_voiceTime v = none) :
    tk.get_timepos_for_voice v = (0, { tk with m_voiceTime := map_set tk.m_voiceTime v 0 }) := by
  unfold MxlTimeKeeper.get_timepos_for_voice
  rw [map_find_guard, h]

theorem get_timepos_for_voice_recorded (tk : MxlTimeKeeper) (v : Int) :
    map_find (tk.get_timepos_for_voice v).2.m_voiceTime v =
      some (tk.get_timepos_for_voice v).1 := by
  cases h : map_find tk.m_voiceTime v with
  | some t => rw [get_timepos_for_voice_of_some tk v t h]; exact h
  | none => rw [get_timepos_for_voice_of_none tk v h]; exact map_find_map_set_self _ _ _

theorem move_time_update_calls (kq : ℚ) (a : MxlAnalyser) (v : Int) :
    (MxlTimeKeeper.move_time_update kq a v).go_fwd_calls = a.go_fwd_calls := rfl

theorem move_time_update_md (kq : ℚ) (a : MxlAnalyser) (v : Int) :
    (MxlTimeKeeper.move_time_update kq a v).m_currentMD = a.m_currentMD := rfl

theorem move_time_in_sequence (kq : ℚ) (fuel : Nat) (a : MxlAnalyser) (v staff : Int)
    (hv : 0 < v) (h : map_find a.m_timeKeeper.m_voiceTime v = some a.m_timeKeeper.m_curTime) :
    MxlTimeKeeper.move_time_as_required_by_voice kq fuel a v staff =
      some (MxlTimeKeeper.move_time_update kq a v) := by
  simp [MxlTimeKeeper.move_time_as_required_by_voice, hv,
    get_timepos_for_voice_of_some _ _ _ h]

theorem move_time_ahead (kq : ℚ) (fuel : Nat) (a : MxlAnalyser) (v staff t : Int)
    (hv : 0 < v) (h : map_find a.m_timeKeeper.m_voiceTime v = some t)
    (ht : a.m_timeKeeper.m_curTime < t) :
    MxlTimeKeeper.move_time_as_required_by_voice kq fuel a v staff =
      some (MxlTimeKeeper.move_time_update kq
        { a with m_timeKeeper := { a.m_timeKeeper with m_curTime := t } } v) := by
  have h1 : ¬ t < a.m_timeKeeper.m_curTime := by omega
  have h2 : ¬ t = a.m_timeKeeper.m_curTime := by omega
  simp [MxlTimeKeeper.move_time_as_required_by_voice, hv,
    get_timepos_for_voice_of_some _ _ _ h, h1, h2]

theorem backup_timepos_curTime (kq : ℚ) (a : MxlAnalyser) (amount : Int) :
    (MxlTimeKeeper.backup_timepos kq a amount).m_timeKeeper.m_curTime =
      max 0 (a.m_timeKeeper.m_curTime - amount) := by
  simp only [MxlTimeKeeper.backup_timepos, MxlAnalyser.set_current_voice]
  split
  · next h => simp only; omega
  · next h => simp only; omega

theorem backup_timepos_voiceTime (kq : ℚ) (a : MxlAnalyser) (amount : Int) :
    (MxlTimeKeeper.backup_timepos kq a amount).m_timeKeeper.m_voiceTime =
      a.m_timeKeeper.m_voiceTime := by
  simp only [MxlTimeKeeper.backup_timepos, MxlAnalyser.set_current_voice]
  split <;> rfl

theorem backup_timepos_startTime (kq : ℚ) (a : MxlAnalyser) (amount : Int) :
    (MxlTimeKeeper.backup_timepos kq a amount).m_timeKeeper.m_startTime =
      a.m_timeKeeper.m_startTime := by
  simp only [MxlTimeKeeper.backup_timepos, MxlAnalyser.set_current_voice]
  split <;> rfl

theorem duration_to_time_units_zero (kq : ℚ) (tk : MxlTimeKeeper) :
    tk.duration_to_time_units kq 0 = 0 := by
  simp [MxlTimeKeeper.duration_to_time_units]

theorem map_set_mem (m : List (Int × Int)) (k v : Int) (p : Int × Int)
    (h : p ∈ map_set m k v) : p = (k, v) ∨ p ∈ m := by
  induction m with
  | nil =>
    simp only [map_set, List.mem_singleton] at h
    exact Or.inl h
  | cons hd t ih =>
    obtain ⟨k', v'⟩ := hd
    simp only [map_set] at h
    split at h
    · rcases List.mem_cons.mp h with h | h
      · exact Or.inl h
      · exact Or.inr (List.mem_cons_of_mem _ h)
    · split at h
      · rcases List.mem_cons.mp h with h | h
        · exact Or.inl h
        · exact Or.inr h
      · rcases List.mem_cons.mp h with h | h
        · exact Or.inr (h ▸ List.mem_cons_self _ _)
        · rcases ih h with h | h
          · exact Or.inl h
          · exact Or.inr (List.mem_cons_of_mem _ h)

theorem map_find_mem (m : List (Int × Int)) (k v : Int) (h : map_find m k = some v) :
    (k, v) ∈ m := by
  induction m with
  | nil => simp [map_find] at h
  | cons hd t ih =>
    obtain ⟨k', v'⟩ := hd
    simp only [map_find] at h
    split at h
    · next hk =>
      simp only [Option.some.injEq] at h
      subst hk; subst h
      exact List.mem_cons_self _ _
    · exact List.mem_cons_of_mem _ (ih h)

theorem map_set_nonneg (m : List (Int × Int)) (k v : Int) (hm : ∀ p ∈ m, 0 ≤ p.2)
    (hv : 0 ≤ v) : ∀ p ∈ map_set m k v, 0 ≤ p.2 := by
  intro p hp
  rcases map_set_mem m k v p hp with h | h
  · rw [h]; exact hv
  · exact hm p h

theorem get_timepos_for_voice_nonneg (tk : MxlTimeKeeper) (v : Int)
    (h : voice_times_nonneg tk) :
    0 ≤ (tk.get_timepos_for_voice v).1 ∧ voice_times_nonneg (tk.get_timepos_for_voice v).2 := by
  cases hf : map_find tk.m_voiceTime v with
  | some t =>
    rw [get_timepos_for_voice_of_some tk v t hf]
    exact ⟨h _ (map_find_mem _ _ _ hf), h⟩
  | none =>
    rw [get_timepos_for_voice_of_none tk v hf]
    exact ⟨le_refl _, map_set_nonneg _ _ _ h (le_refl _)⟩

theorem increment_time_nonneg (kq : ℚ) (tk : MxlTimeKeeper) (voice staff amount : Int)
    (h : voice_times_nonneg tk) :
    0 ≤ (tk.increment_time kq voice staff amount).m_curTime ∧
      voice_times_nonneg (tk.increment_time kq voice staff amount) := by
  have hg := (get_timepos_for_voice_nonneg tk voice h).2
  have hc : 0 ≤ (if (tk.get_timepos_for_voice voice).1 + amount < 0 then (0 : Int)
      else (tk.get_timepos_for_voice voice).1 + amount) := by
    split <;> omega
  exact ⟨hc, map_set_nonneg _ _ _ hg hc⟩

theorem insert_go_fwd_loop_nonneg (kq : ℚ) (n : Nat) :
    ∀ (a a' : MxlAnalyser) (voice staff longaNote remaining shift : Int),
      voice_times_nonneg a.m_timeKeeper → 0 ≤ a.m_timeKeeper.m_curTime →
      MxlAnalyser.insert_go_fwd_loop kq n a voice staff longaNote remaining shift = some a' →
      0 ≤ a'.m_timeKeeper.m_curTime ∧ voice_times_nonneg a'.m_timeKeeper := by
  induction n with
  | zero =>
    intro a a' voice staff longaNote remaining shift hv hc h
    simp only [MxlAnalyser.insert_go_fwd_loop] at h
    split at h
    · exact absurd h (by simp)
    · cases h; exact ⟨hc, hv⟩
  | succ n ih =>
    intro a a' voice staff longaNote remaining shift hv hc h
    simp only [MxlAnalyser.insert_go_fwd_loop] at h
    split at h
    · have hi := increment_time_nonneg kq a.m_timeKeeper voice staff
        (if remaining > longaNote then longaNote else shift) hv
      exact ih _ _ _ _ _ _ _ hi.2 hi.1 h
    · cases h; exact ⟨hc, hv⟩

theorem insert_go_fwd_nonneg (kq : ℚ) (fuel : Nat) (a a' : MxlAnalyser) (voice shift : Int)
    (hv : voice_times_nonneg a.m_timeKeeper) (hc : 0 ≤ a.m_timeKeeper.m_curTime)
    (h : MxlAnalyser.insert_go_fwd kq fuel a voice shift = some a') :
    0 ≤ a'.m_timeKeeper.m_curTime ∧ voice_times_nonneg a'.m_timeKeeper := by
  simp only [MxlAnalyser.insert_go_fwd] at h
  split at h
  · cases h; exact ⟨hc, hv⟩
  · exact insert_go_fwd_loop_nonneg kq fuel
      { a with go_fwd_calls := a.go_fwd_calls ++ [(voice, shift)] } a' _ _ _ _ _ hv hc h

theorem move_time_update_nonneg (kq : ℚ) (a : MxlAnalyser) (v : Int)
    (hv : voice_times_nonneg a.m_timeKeeper) (hc : 0 ≤ a.m_timeKeeper.m_curTime) :
    0 ≤ (MxlTimeKeeper.move_time_update kq a v).m_timeKeeper.m_curTime ∧
      voice_times_nonneg (MxlTimeKeeper.move_time_update kq a v).m_timeKeeper :=
  ⟨hc, map_set_nonneg _ _ _ hv hc⟩

theorem move_time_nonneg (kq : ℚ) (fuel : Nat) (a a' : MxlAnalyser) (v staff : Int)
    (hv : voice_times_nonneg a.m_timeKeeper)
    (h : MxlTimeKeeper.move_time_as_required_by_voice kq fuel a v staff = some a') :
    voice_times_nonneg a'.m_timeKeeper ∧
      ((0 < v ∨ 0 ≤ a.m_timeKeeper.m_curTime) → 0 ≤ a'.m_timeKeeper.m_curTime) := by
  have hg := get_timepos_for_voice_nonneg a.m_timeKeeper v hv
  have hcur := get_timepos_for_voice_curTime a.m_timeKeeper v
  unfold MxlTimeKeeper.move_time_as_required_by_voice at h
  split at h
  · simp only at h
    split at h
    · obtain ⟨a1, h1, h2⟩ := Option.map_eq_some'.mp h
      have hn := insert_go_fwd_nonneg kq fuel _ a1 v _ hg.2 hg.1 h1
      have hu := move_time_update_nonneg kq a1 v hn.2 hn.1
      rw [← h2]
      exact ⟨hu.2, fun _ => hu.1⟩
    · split at h
      · next heq =>
        simp only [Option.some.injEq] at h
        have hc : 0 ≤ (a.m_timeKeeper.get_timepos_for_voice v).2.m_curTime := by
          rw [← heq]; exact hg.1
        have hu := move_time_update_nonneg kq
          { a with m_timeKeeper := (a.m_timeKeeper.get_timepos_for_voice v).2 } v hg.2 hc
        rw [← h]
        exact ⟨hu.2, fun _ => hu.1⟩
      · simp only [Option.some.injEq] at h
        have hu := move_time_update_nonneg kq
          { a with m_timeKeeper := { (a.m_timeKeeper.get_timepos_for_voice v).2 with
              m_curTime := (a.m_timeKeeper.get_timepos_for_voice v).1 } } v hg.2 hg.1
        rw [← h]
        exact ⟨hu.2, fun _ => hu.1⟩
  · next hnv =>
    simp only [Option.some.injEq] at h
    subst h
    exact ⟨hv, fun hh => hh.elim (fun h0 => absurd h0 hnv) id⟩

theorem assign_voice_loop_nonneg (n : Nat) :
    ∀ (tk : MxlTimeKeeper) (voice : Int), voice_times_nonneg tk →
      voice_times_nonneg (MxlTimeKeeper.assign_voice_loop n tk voice).2 ∧
      (MxlTimeKeeper.assign_voice_loop n tk voice).2.m_curTime = tk.m_curTime := by
  induction n with
  | zero => intro tk voice hv; exact ⟨hv, rfl⟩
  | succ n ih =>
    intro tk voice hv
    have hg := (get_timepos_for_voice_nonneg tk (voice + 1) hv).2
    have hcur := get_timepos_for_voice_curTime tk (voice + 1)
    simp only [MxlTimeKeeper.assign_voice_loop]
    split
    · split
      · exact ⟨hg, hcur⟩
      · have := ih _ (voice + 1) hg
        exact ⟨this.1, this.2.trans hcur⟩
    · exact ⟨hv, rfl⟩

theorem determine_voice_and_timepos_nonneg (kq : ℚ) (fuel : Nat) (a : MxlAnalyser)
    (voice staff : Int) (r : Int × MxlAnalyser) (hv : voice_times_nonneg a.m_timeKeeper)
    (h : MxlTimeKeeper.determine_voice_and_timepos kq fuel a voice staff = some r) :
    voice_times_nonneg r.2.m_timeKeeper ∧
      (0 ≤ a.m_timeKeeper.m_curTime → 0 ≤ r.2.m_timeKeeper.m_curTime) := by
  have key : ∀ (v : Int) (tk : MxlTimeKeeper), voice_times_nonneg tk →
      tk.m_curTime = a.m_timeKeeper.m_curTime →
      (MxlTimeKeeper.move_time_as_required_by_voice kq fuel
          { a with m_timeKeeper :=
              if (tk.get_timepos_for_voice v).1 = 0 then
                { (tk.get_timepos_for_voice v).2 with
                  m_voiceStaff := map_set (tk.get_timepos_for_voice v).2.m_voiceStaff v staff }
              else (tk.get_timepos_for_voice v).2 } v staff).map (fun a => (v, a)) = some r →
      voice_times_nonneg r.2.m_timeKeeper ∧
        (0 ≤ a.m_timeKeeper.m_curTime → 0 ≤ r.2.m_timeKeeper.m_curTime) := by
    intro v tk htk hc hm
    obtain ⟨a1, h1, h2⟩ := Option.map_eq_some'.mp hm
    have hg := (get_timepos_for_voice_nonneg tk v htk).2
    have hcur := get_timepos_for_voice_curTime tk v
    have hpre : voice_times_nonneg
        (if (tk.get_timepos_for_voice v).1 = 0 then
          { (tk.get_timepos_for_voice v).2 with
            m_voiceStaff := map_set (tk.get_timepos_for_voice v).2.m_voiceStaff v staff }
        else (tk.get_timepos_for_voice v).2) := by
      split
      · exact hg
      · exact hg
    have hprec : (if (tk.get_timepos_for_voice v).1 = 0 then
          { (tk.get_timepos_for_voice v).2 with
            m_voiceStaff := map_set (tk.get_timepos_for_voice v).2.m_voiceStaff v staff }
        else (tk.get_timepos_for_voice v).2).m_curTime = a.m_timeKeeper.m_curTime := by
      split
      · exact hcur.trans hc
      · exact hcur.trans hc
    have hmv := move_time_nonneg kq fuel _ a1 v staff hpre h1
    rw [← h2]
    refine ⟨hmv.1, fun h0 => hmv.2 (Or.inr ?_)⟩
    show 0 ≤ (if (tk.get_timepos_for_voice v).1 = 0 then _ else _ : MxlTimeKeeper).m_curTime
    rw [hprec]; exact h0
  unfold MxlTimeKeeper.determine_voice_and_timepos at h
  by_cases h0 : voice = 0
  · simp only [h0, if_true] at h
    have ha := assign_voice_loop_nonneg 100 a.m_timeKeeper 0 hv
    exact key _ _ ha.1 ha.2 h
  · simp only [h0, if_false] at h
    exact key _ _ hv rfl h

theorem apply_op_nonneg (kq : ℚ) (fuel : Nat) (a a' : MxlAnalyser) (op : TimeKeeperOp)
    (hv : voice_times_nonneg a.m_timeKeeper) (h : apply_op kq fuel a op = some a') :
    voice_times_nonneg a'.m_timeKeeper ∧
      (0 ≤ a.m_timeKeeper.m_curTime → forward_amount_nonneg op →
        0 ≤ a'.m_timeKeeper.m_curTime) := by
  cases op with
  | reset_for_new_measure =>
    simp only [apply_op, Option.some.injEq] at h
    subst h
    refine ⟨?_, fun _ _ => le_refl _⟩
    simp only [MxlTimeKeeper.reset_for_new_measure, voice_times_nonneg]
    split
    · intro p hp; simp at hp
    · exact hv
  | forward_timepos amount voice staff =>
    simp only [apply_op, Option.some.injEq] at h
    subst h
    simp only [MxlTimeKeeper.forward_timepos, MxlAnalyser.set_current_voice]
    constructor
    · split <;> exact hv
    · intro hc hf
      have hf' : 0 ≤ amount := hf
      split <;> (simp only; omega)
  | backup_timepos amount =>
    simp only [apply_op, Option.some.injEq] at h
    subst h
    refine ⟨?_, fun _ _ => ?_⟩
    · unfold voice_times_nonneg
      rw [backup_timepos_voiceTime]
      exact hv
    · rw [backup_timepos_curTime]
      exact le_max_left _ _
  | increment_time voice staff amount =>
    simp only [apply_op, Option.some.injEq] at h
    subst h
    have hi := increment_time_nonneg kq a.m_timeKeeper voice staff amount hv
    exact ⟨hi.2, fun _ _ => hi.1⟩
  | determine_voice_and_timepos voice staff =>
    simp only [apply_op] at h
    obtain ⟨r, h1, h2⟩ := Option.map_eq_some'.mp h
    have hd := determine_voice_and_timepos_nonneg kq fuel a voice staff r hv h1
    rw [← h2]
    exact ⟨hd.1, fun hc _ => hd.2 hc⟩
  | move_time_as_required_by_voice voice staff =>
    simp only [apply_op] at h
    have hm := move_time_nonneg kq fuel a a' voice staff hv h
    exact ⟨hm.1, fun hc _ => hm.2 (Or.inr hc)⟩

/-- Time never negative, the part that holds: along every sequence of operations that
returns, the recorded per-voice positions stay non-negative, whatever the amounts; and the
current position stays non-negative when no `forward_timepos` has a negative amount. -/
theorem apply_ops_nonneg (kq : ℚ) (fuel : Nat) (ops : List TimeKeeperOp) :
    ∀ (a a' : MxlAnalyser), voice_times_nonneg a.m_timeKeeper →
      apply_ops kq fuel a ops = some a' →
      voice_times_nonneg a'.m_timeKeeper ∧
        (0 ≤ a.m_timeKeeper.m_curTime → (∀ op ∈ ops, forward_amount_nonneg op) →
          0 ≤ a'.m_timeKeeper.m_curTime) := by
  induction ops with
  | nil =>
    intro a a' hv h
    simp only [apply_ops, Option.some.injEq] at h
    subst h
    exact ⟨hv, fun hc _ => hc⟩
  | cons op ops ih =>
    intro a a' hv h
    simp only [apply_ops] at h
    split at h
    · exact absurd h (by simp)
    · next a1 h1 =>
      have ho := apply_op_nonneg kq fuel a a1 op hv h1
      have hr := ih a1 a' ho.1 h
      refine ⟨hr.1, fun hc hf => hr.2 (ho.2 hc (hf op (List.mem_cons_self _ _))) ?_⟩
      intro op' hop'
      exact hf op' (List.mem_cons_of_mem _ hop')

/-! ## Facts about strings and DocLocator -/

theorem takeWhile_ne_decomp (A B : List Char) (c : Char) (h : c ∉ A) :
    (A ++ c :: B).takeWhile (fun x => x != c) = A := by
  induction A with
  | nil => simp
  | cons a t ih =>
    have hne : (a != c) = true := by
      simp only [bne_iff_ne, ne_eq]
      intro hac
      exact h (hac ▸ List.mem_cons_self _ _)
    have ht : c ∉ t := fun hm => h (List.mem_cons_of_mem _ hm)
    simp [List.takeWhile_cons, hne, ih ht]

theorem dropWhile_ne_decomp (A B : List Char) (c : Char) (h : c ∉ A) :
    (A ++ c :: B).dropWhile (fun x => x != c) = c :: B := by
  induction A with
  | nil => simp
  | cons a t ih =>
    have hne : (a != c) = true := by
      simp only [bne_iff_ne, ne_eq]
      intro hac
      exact h (hac ▸ List.mem_cons_self _ _)
    have ht : c ∉ t := fun hm => h (List.mem_cons_of_mem _ hm)
    simp [List.dropWhile_cons, hne, ih ht]

theorem takeWhile_ne_of_not_mem (L : List Char) (c : Char) (h : c ∉ L) :
    L.takeWhile (fun x => x != c) = L := by
  induction L with
  | nil => rfl
  | cons a t ih =>
    have hne : (a != c) = true := by
      simp only [bne_iff_ne, ne_eq]
      intro hac
      exact h (hac ▸ List.mem_cons_self _ _)
    have ht : c ∉ t := fun hm => h (List.mem_cons_of_mem _ hm)
    simp [List.takeWhile_cons, hne, ih ht]

theorem str_find_decomp (A B : List Char) (c : Char) (h : c ∉ A) :
    str_find (A ++ c :: B) c = A.length := by
  simp [str_find, takeWhile_ne_decomp A B c h]

theorem str_find_of_not_mem (L : List Char) (c : Char) (h : c ∉ L) : str_find L c = -1 := by
  simp [str_find, h]

theorem substr_n_prefix (A R : List Char) : substr_n (A ++ R) 0 A.length = A := by
  simp [substr_n]

theorem substr_after (A R : List Char) (k : Int) (hk : k = A.length) :
    substr (A ++ R) k = R := by
  subst hk
  simp [substr]

theorem scan_for_eq (c : Char) (l : List Char) :
    ∀ i : Int, scan_for c l i = i + (l.takeWhile (fun x => x != c)).length := by
  induction l with
  | nil => intro i; simp [scan_for]
  | cons a t ih =>
    intro i
    by_cases hne : (a != c) = true
    · simp only [scan_for, hne, if_true, ih, List.takeWhile_cons, List.length_cons]
      push_cast
      ring
    · simp [scan_for, hne, List.takeWhile_cons]

theorem scan_back_eq (c : Char) (l : List Char) :
    ∀ i : Int, scan_back c l i = i - (l.takeWhile (fun x => x != c)).length := by
  induction l with
  | nil => intro i; simp [scan_back]
  | cons a t ih =>
    intro i
    by_cases hne : (a != c) = true
    · simp only [scan_back, hne, if_true, ih, List.takeWhile_cons, List.length_cons]
      push_cast
      ring
    · simp [scan_back, hne, List.takeWhile_cons]

theorem takeWhile_length_eq_iff (c : Char) (l : List Char) :
    (l.takeWhile (fun x => x != c)).length = l.length ↔ c ∉ l := by
  constructor
  · intro h hm
    obtain ⟨A, B, hl, hA⟩ := List.eq_append_cons_of_mem hm
    rw [hl, takeWhile_ne_decomp A B c hA] at h
    simp at h
  · intro h
    rw [takeWhile_ne_of_not_mem l c h]

theorem extract_file_valid (d : DocLocator) : d.extract_file.m_fValid = d.m_fValid := by
  unfold DocLocator.extract_file
  split
  · rfl
  · simp only
    split <;> rfl

theorem str_find_colon_text (L : List Char) (c : Char) (h : c ∈ L) :
    0 ≤ str_find L c ∧ substr_n L 0 (str_find L c) = L.takeWhile (fun x => x != c) := by
  obtain ⟨A, B, hl, hA⟩ := List.eq_append_cons_of_mem h
  subst hl
  rw [str_find_decomp A B c hA, takeWhile_ne_decomp A B c hA]
  exact ⟨by omega, substr_n_prefix A _⟩

theorem split_locator_string (d : DocLocator) (L : List Char)
    (h : ':' ∈ L ∧ L.takeWhile (fun x => x != ':') = ['s', 't', 'r', 'i', 'n', 'g']) :
    d.split_locator L = { d with m_protocol := .k_string, m_fValid := true } := by
  obtain ⟨h0, h1⟩ := str_find_colon_text L ':' h.1
  unfold DocLocator.split_locator
  simp only [h1, h.2]
  rw [if_pos ⟨h0, by decide, trivial⟩]

theorem split_locator_not_string (d : DocLocator) (L : List Char)
    (h : ¬ (':' ∈ L ∧ L.takeWhile (fun x => x != ':') = ['s', 't', 'r', 'i', 'n', 'g'])) :
    d.split_locator L = DocLocator.split_locator_inner { d with m_protocol := .k_file } L
      (if ':' ∈ L ∧ L.takeWhile (fun x => x != ':') = ['f', 'i', 'l', 'e']
        then str_find L ':' + 1 else 0) := by
  unfold DocLocator.split_locator
  by_cases hm : ':' ∈ L
  · obtain ⟨h0, h1⟩ := str_find_colon_text L ':' hm
    have hs : ¬ L.takeWhile (fun x => x != ':') = ['s', 't', 'r', 'i', 'n', 'g'] :=
      fun hh => h ⟨hm, hh⟩
    simp only [h1, hs, and_false, if_false, h0, hm, true_and, ge_iff_le]
  · have hf := str_find_of_not_mem L ':' hm
    simp [hf, hm]

theorem split_locator_inner_no_sharp (d : DocLocator) (L : List Char) (pathStart : Int)
    (h : '#' ∉ L) :
    DocLocator.split_locator_inner d L pathStart =
      { d with m_path := if pathStart > 0 then substr L pathStart else L, m_fValid := true } := by
  unfold DocLocator.split_locator_inner
  simp only [str_find_of_not_mem L '#' h]
  rw [if_neg (by decide)]
  split <;> rfl

theorem split_locator_inner_no_colon (d : DocLocator) (A B : List Char) (pathStart : Int)
    (hA : '#' ∉ A) (hB : ':' ∉ B) :
    (DocLocator.split_locator_inner d (A ++ '#' :: B) pathStart).m_fValid = false := by
  unfold DocLocator.split_locator_inner
  have hd : (A ++ '#' :: B).drop ((A.length : Int) + 1).toNat = B := by
    have : ((A.length : Int) + 1).toNat = A.length + 1 := by omega
    rw [this]
    simp
  simp only [str_find_decomp A B '#' hA, hd, scan_for_eq,
    takeWhile_ne_of_not_mem B ':' hB]
  rw [if_pos (by omega), if_pos (by simp; omega)]

theorem split_locator_inner_colon (d : DocLocator) (A C Q : List Char) (pathStart : Int)
    (hA : '#' ∉ A) (hC : ':' ∉ C) :
    DocLocator.split_locator_inner d (A ++ '#' :: (C ++ ':' :: Q)) pathStart =
      { d with
        m_path := substr_n (A ++ '#' :: (C ++ ':' :: Q)) pathStart (A.length - pathStart)
        m_innerProtocol := if C = ['z', 'i', 'p'] then .k_zip else .k_unknown
        m_innerPath := if 2 ≤ Q.length then Q else d.m_innerPath
        m_fValid := true } := by
  unfold DocLocator.split_locator_inner
  have hn : ((A.length : Int) + 1).toNat = A.length + 1 := by omega
  have hd : (A ++ '#' :: (C ++ ':' :: Q)).drop ((A.length : Int) + 1).toNat =
      C ++ ':' :: Q := by
    rw [hn]
    simp
  have hp : substr_n (A ++ '#' :: (C ++ ':' :: Q)) ((A.length : Int) + 1)
      ((A.length : Int) + 1 + (C.length : Int) - (A.length : Int) - 1) = C := by
    have h2 : ((A.length : Int) + 1 + (C.length : Int) - (A.length : Int) - 1) = C.length := by
      omega
    rw [h2]
    simp [substr_n, hn]
  have hq : substr (A ++ '#' :: (C ++ ':' :: Q)) ((A.length : Int) + 1 + (C.length : Int) + 1) =
      Q := by
    have h3 : ((A.length : Int) + 1 + (C.length : Int) + 1).toNat =
        A.length + 1 + (C.length + 1) := by omega
    simp only [substr, h3]
    rw [← List.drop_drop]
    simp
  simp only [str_find_decomp A _ '#' hA, hd, scan_for_eq, takeWhile_ne_decomp C Q ':' hC, hp, hq]
  rw [if_pos (by omega), if_neg (by simp; omega)]
  by_cases h2 : 2 ≤ Q.length
  · rw [if_pos (by simp; omega), if_pos h2]
  · rw [if_neg (by simp; omega), if_neg h2]

theorem extract_file_protocol (d : DocLocator) :
    d.extract_file.m_protocol = d.m_protocol := by
  unfold DocLocator.extract_file
  split
  · rfl
  · simp only
    split <;> rfl

theorem extract_file_path (d : DocLocator) : d.extract_file.m_path = d.m_path := by
  unfold DocLocator.extract_file
  split
  · rfl
  · simp only
    split <;> rfl

theorem extract_file_innerProtocol (d : DocLocator) :
    d.extract_file.m_innerProtocol = d.m_innerProtocol := by
  unfold DocLocator.extract_file
  split
  · rfl
  · simp only
    split <;> rfl

theorem extract_file_innerPath (d : DocLocator) :
    d.extract_file.m_innerPath = d.m_innerPath := by
  unfold DocLocator.extract_file
  split
  · rfl
  · simp only
    split <;> rfl

theorem extract_file_of_empty (d : DocLocator) (h : d.m_innerPath = []) :
    d.extract_file = d := by
  simp [DocLocator.extract_file, h]

theorem extract_file_after_slash (d : DocLocator) (A F : List Char)
    (hq : d.m_innerPath = A ++ '/' :: F) (hF : '/' ∉ F) :
    d.extract_file = { d with m_innerFile := F } := by
  have hne : d.m_innerPath.isEmpty = false := by rw [hq]; cases A <;> rfl
  have hr : d.m_innerPath.reverse = F.reverse ++ '/' :: A.reverse := by
    rw [hq]; simp
  have hF' : '/' ∉ F.reverse := by simpa using hF
  have hlen : (d.m_innerPath.length : Int) = A.length + 1 + F.length := by
    rw [hq]; simp; omega
  unfold DocLocator.extract_file
  simp only [hne, Bool.false_eq_true, if_false, hr, scan_back_eq,
    takeWhile_ne_decomp F.reverse A.reverse '/' hF', List.length_reverse, hlen]
  rw [if_pos (by omega)]
  have h1 : ((A.length : Int) + 1 + (F.length : Int) - 1 - (F.length : Int) + 1) =
      ((A ++ ['/']).length : Int) := by simp; omega
  rw [h1, hq]
  have h2 : A ++ '/' :: F = (A ++ ['/']) ++ F := by simp
  rw [h2, substr_after (A ++ ['/']) F _ rfl]

theorem takeWhile_ne_append_of_mem (P R : List Char) (c : Char) (h : c ∈ P) :
    (P ++ R).takeWhile (fun x => x != c) = P.takeWhile (fun x => x != c) := by
  obtain ⟨A, B, hl, hA⟩ := List.eq_append_cons_of_mem h
  subst hl
  rw [takeWhile_ne_decomp A B c hA]
  have : A ++ c :: B ++ R = A ++ c :: (B ++ R) := by simp
  rw [this, takeWhile_ne_decomp A (B ++ R) c hA]

/-- A locator `P#zip:Q`, with `P` free of `#` and the text before the first `:` of `P`
neither `file` nor `string`: valid, protocol file, path `P`, inner protocol zip; the inner
path is `Q` when `Q` has two characters or more and is empty otherwise; with an inner path
`Q` containing `/`, the inner file is the text after the last `/`. -/
theorem construct_zip_locator (P Q : List Char) (hP : '#' ∉ P)
    (hproto : ':' ∈ P → P.takeWhile (fun x => x != ':') ≠ ['f', 'i', 'l', 'e'] ∧
      P.takeWhile (fun x => x != ':') ≠ ['s', 't', 'r', 'i', 'n', 'g']) :
    (DocLocator.construct (P ++ ['#', 'z', 'i', 'p', ':'] ++ Q)).m_fValid = true ∧
    (DocLocator.construct (P ++ ['#', 'z', 'i', 'p', ':'] ++ Q)).m_protocol = .k_file ∧
    (DocLocator.construct (P ++ ['#', 'z', 'i', 'p', ':'] ++ Q)).m_path = P ∧
    (DocLocator.construct (P ++ ['#', 'z', 'i', 'p', ':'] ++ Q)).m_innerProtocol = .k_zip ∧
    (DocLocator.construct (P ++ ['#', 'z', 'i', 'p', ':'] ++ Q)).m_innerPath =
      (if 2 ≤ Q.length then Q else []) ∧
    (2 ≤ Q.length → ∀ A F, Q = A ++ '/' :: F → '/' ∉ F →
      (DocLocator.construct (P ++ ['#', 'z', 'i', 'p', ':'] ++ Q)).m_innerFile = F) := by
  have hL : P ++ ['#', 'z', 'i', 'p', ':'] ++ Q = P ++ '#' :: (['z', 'i', 'p'] ++ ':' :: Q) := by
    simp
  have htw : ¬ (':' ∈ P ++ '#' :: (['z', 'i', 'p'] ++ ':' :: Q) ∧
      ((P ++ '#' :: (['z', 'i', 'p'] ++ ':' :: Q)).takeWhile (fun x => x != ':') =
          ['f', 'i', 'l', 'e'] ∨
        (P ++ '#' :: (['z', 'i', 'p'] ++ ':' :: Q)).takeWhile (fun x => x != ':') =
          ['s', 't', 'r', 'i', 'n', 'g'])) := by
    rintro ⟨-, h⟩
    by_cases hc : ':' ∈ P
    · rw [takeWhile_ne_append_of_mem P _ ':' hc] at h
      rcases h with h | h
      · exact (hproto hc).1 h
      · exact (hproto hc).2 h
    · have e : P ++ '#' :: (['z', 'i', 'p'] ++ ':' :: Q) =
          (P ++ ['#', 'z', 'i', 'p']) ++ ':' :: Q := by simp
      have hn : ':' ∉ P ++ ['#', 'z', 'i', 'p'] := by
        simp only [List.mem_append, not_or]
        exact ⟨hc, by decide⟩
      rw [e, takeWhile_ne_decomp _ Q ':' hn] at h
      have hs : '#' ∈ P ++ ['#', 'z', 'i', 'p'] := by simp
      rcases h with h | h
      · rw [h] at hs; exact absurd hs (by decide)
      · rw [h] at hs; exact absurd hs (by decide)
  have hns : ¬ (':' ∈ P ++ '#' :: (['z', 'i', 'p'] ++ ':' :: Q) ∧
      (P ++ '#' :: (['z', 'i', 'p'] ++ ':' :: Q)).takeWhile (fun x => x != ':') =
        ['s', 't', 'r', 'i', 'n', 'g']) := fun h => htw ⟨h.1, Or.inr h.2⟩
  have hnf : ¬ (':' ∈ P ++ '#' :: (['z', 'i', 'p'] ++ ':' :: Q) ∧
      (P ++ '#' :: (['z', 'i', 'p'] ++ ':' :: Q)).takeWhile (fun x => x != ':') =
        ['f', 'i', 'l', 'e']) := fun h => htw ⟨h.1, Or.inl h.2⟩
  have hsplit := split_locator_not_string
    { m_fullLocator := P ++ '#' :: (['z', 'i', 'p'] ++ ':' :: Q), m_protocol := .k_unknown,
      m_innerProtocol := .k_none, m_path := [], m_innerPath := [], m_innerFile := [],
      m_fValid := false } _ hns
  rw [if_neg hnf, split_locator_inner_colon _ P ['z', 'i', 'p'] Q 0 hP (by decide)] at hsplit
  rw [hL]
  unfold DocLocator.construct
  simp only [hsplit]
  have hpath : substr_n (P ++ '#' :: (['z', 'i', 'p'] ++ ':' :: Q)) 0 ((P.length : Int) - 0) =
      P := by
    rw [sub_zero]; exact substr_n_prefix P _
  refine ⟨?_, ?_, ?_, ?_, ?_, ?_⟩
  · rw [extract_file_valid]
  · rw [extract_file_protocol]
  · rw [extract_file_path]; exact hpath
  · rw [extract_file_innerProtocol]; rfl
  · rw [extract_file_innerPath]
  · intro h2 A F hq hF
    rw [extract_file_after_slash _ A F (by simp only [h2, if_true]; exact hq) hF]

theorem prefix_of_takeWhile_ne (L w : List Char) (c : Char) (hm : c ∈ L)
    (h : L.takeWhile (fun x => x != c) = w) : (w ++ [c]) <+: L := by
  obtain ⟨A, B, hl, hA⟩ := List.eq_append_cons_of_mem hm
  rw [hl, takeWhile_ne_decomp A B c hA] at h
  subst h
  exact ⟨B, by rw [hl]; simp⟩

/-- Round trip for a locator without `#` that starts neither with `file:` nor with
`string:`: `get_locator_string` gives the locator back. -/
theorem locator_round_trip_no_sharp (L : List Char) (h : '#' ∉ L)
    (hf : ¬ ['f', 'i', 'l', 'e', ':'] <+: L)
    (hs : ¬ ['s', 't', 'r', 'i', 'n', 'g', ':'] <+: L) :
    (DocLocator.construct L).get_locator_string = L := by
  have hs' : ¬ (':' ∈ L ∧ L.takeWhile (fun x => x != ':') = ['s', 't', 'r', 'i', 'n', 'g']) :=
    fun hh => hs (prefix_of_takeWhile_ne L _ ':' hh.1 hh.2)
  have hf' : ¬ (':' ∈ L ∧ L.takeWhile (fun x => x != ':') = ['f', 'i', 'l', 'e']) :=
    fun hh => hf (prefix_of_takeWhile_ne L _ ':' hh.1 hh.2)
  unfold DocLocator.construct
  simp only [split_locator_not_string _ L hs', split_locator_inner_no_sharp _ L _ h, hf',
    if_false]
  rw [extract_file_of_empty _ rfl]
  simp [DocLocator.get_locator_string, DocLocator.get_protocol_string]

/-- Round trip for a locator `P#zip:Q` with `P` free of `#`, starting neither with `file:`
nor with `string:`, whose inner path `Q` is not of length 1. -/
theorem locator_round_trip_zip (P Q : List Char) (hP : '#' ∉ P)
    (hf : ¬ ['f', 'i', 'l', 'e', ':'] <+: P ++ ['#', 'z', 'i', 'p', ':'] ++ Q)
    (hs : ¬ ['s', 't', 'r', 'i', 'n', 'g', ':'] <+: P ++ ['#', 'z', 'i', 'p', ':'] ++ Q)
    (hQ : Q.length ≠ 1) :
    (DocLocator.construct (P ++ ['#', 'z', 'i', 'p', ':'] ++ Q)).get_locator_string =
      P ++ ['#', 'z', 'i', 'p', ':'] ++ Q := by
  have hproto : ':' ∈ P → P.takeWhile (fun x => x != ':') ≠ ['f', 'i', 'l', 'e'] ∧
      P.takeWhile (fun x => x != ':') ≠ ['s', 't', 'r', 'i', 'n', 'g'] := by
    intro hm
    constructor
    · intro ht
      obtain ⟨B, hB⟩ := prefix_of_takeWhile_ne P _ ':' hm ht
      exact hf ⟨B ++ ['#', 'z', 'i', 'p', ':'] ++ Q, by rw [← hB]; simp⟩
    · intro ht
      obtain ⟨B, hB⟩ := prefix_of_takeWhile_ne P _ ':' hm ht
      exact hs ⟨B ++ ['#', 'z', 'i', 'p', ':'] ++ Q, by rw [← hB]; simp⟩
  obtain ⟨-, h2, h3, h4, h5, -⟩ := construct_zip_locator P Q hP hproto
  simp only [DocLocator.get_locator_string, DocLocator.get_protocol_string, h2, h3, h4, h5,
    if_true, List.nil_append]
  by_cases h2q : 2 ≤ Q.length
  · rw [if_pos h2q]
  · rw [if_neg h2q]
    have : Q = [] := by
      cases Q with
      | nil => rfl
      | cons a t => simp only [List.length_cons] at hQ h2q; omega
    rw [this]

/-! ## Facts about regular expressions and ending numbers -/

theorem xsd_le_valid : regexXsdEndingNumber.matches' ≤ regexValid.matches' := by
  simp only [regexXsdEndingNumber, regexValid, re_spaces, RegularExpression.matches'_add,
    RegularExpression.matches'_mul, RegularExpression.matches'_star,
    RegularExpression.matches'_char, RegularExpression.matches'_epsilon]
  refine Language.le_add_congr le_rfl ?_
  have h1 : ({[' ']} : Language Char) + 1 ≤ KStar.kstar ({[' ']} : Language Char) :=
    add_le le_kstar one_le_kstar
  have h2 : re_number.matches' *
        KStar.kstar (({[',']} : Language Char) * ({[' ']} + 1) * re_number.matches') ≤
      re_number.matches' * KStar.kstar (({[',']} : Language Char) *
        KStar.kstar ({[' ']} : Language Char) * re_number.matches') :=
    Language.le_mul_congr le_rfl
      (kstar_mono (Language.le_mul_congr (Language.le_mul_congr le_rfl h1) le_rfl))
  calc re_number.matches' *
        KStar.kstar (({[',']} : Language Char) * ({[' ']} + 1) * re_number.matches')
      = re_number.matches' *
        KStar.kstar (({[',']} : Language Char) * ({[' ']} + 1) * re_number.matches') * 1 := by
        rw [mul_one]
    _ ≤ _ := Language.le_mul_congr h2 one_le_kstar

theorem mem_kstar_cons (l : Language Char) (a b : List Char) (ha : a ∈ l)
    (hb : b ∈ KStar.kstar l) : a ++ b ∈ KStar.kstar l := by
  rw [← Language.one_add_self_mul_kstar_eq_kstar]
  exact Or.inr (Language.append_mem_mul ha hb)

theorem mem_re_class (cs : List Char) (c : Char) (h : c ∈ cs) :
    [c] ∈ (re_class cs).matches' := by
  induction cs with
  | nil => simp at h
  | cons a t ih =>
    simp only [re_class, RegularExpression.matches'_add, RegularExpression.matches'_char]
    rcases List.mem_cons.mp h with h | h
    · subst h; exact Or.inl rfl
    · exact Or.inr (ih h)

theorem mem_star_re_class (cs : List Char) (t : List Char) (h : ∀ c ∈ t, c ∈ cs) :
    t ∈ (RegularExpression.star (re_class cs)).matches' := by
  rw [RegularExpression.matches'_star]
  induction t with
  | nil => exact Language.nil_mem_kstar _
  | cons a t ih =>
    exact mem_kstar_cons _ [a] t (mem_re_class cs a (h a (List.mem_cons_self _ _)))
      (ih (fun c hc => h c (List.mem_cons_of_mem _ hc)))

theorem spaces_mem_re_spaces (n : Nat) : spaces n ∈ re_spaces.matches' := by
  simp only [re_spaces, RegularExpression.matches'_star, RegularExpression.matches'_char]
  induction n with
  | zero => exact Language.nil_mem_kstar _
  | succ n ih => exact mem_kstar_cons _ [' '] (spaces n) rfl ih

theorem contains_iff_mem (cs : List Char) (c : Char) : cs.contains c = true ↔ c ∈ cs := by
  unfold List.contains
  exact List.elem_iff

theorem numeral_mem_re_number (d : List Char) (h : is_ending_numeral d = true) :
    d ∈ re_number.matches' := by
  cases d with
  | nil => simp [is_ending_numeral] at h
  | cons a t =>
    simp only [is_ending_numeral, Bool.and_eq_true, contains_iff_mem,
      List.all_eq_true, is_digit] at h
    rw [re_number, RegularExpression.matches'_mul]
    exact Language.append_mem_mul (a := [a]) (mem_re_class _ a h.1) (mem_star_re_class _ t h.2)

theorem ending_tail_mem (more : List (Nat × List Char))
    (h : ∀ p ∈ more, is_ending_numeral p.2 = true) :
    ending_tail more ∈ (RegularExpression.star
      (RegularExpression.char ',' * re_spaces * re_number)).matches' := by
  rw [RegularExpression.matches'_star]
  induction more with
  | nil => exact Language.nil_mem_kstar _
  | cons p rest ih =>
    obtain ⟨k, d⟩ := p
    have hd := numeral_mem_re_number d (h (k, d) (List.mem_cons_self _ _))
    have hp : ',' :: (spaces k ++ d) ∈
        (RegularExpression.char ',' * re_spaces * re_number).matches' := by
      simp only [RegularExpression.matches'_mul, RegularExpression.matches'_char]
      have : ',' :: (spaces k ++ d) = ([','] ++ spaces k) ++ d := by simp
      rw [this]
      exact Language.append_mem_mul
        (Language.append_mem_mul (a := [',']) rfl (spaces_mem_re_spaces k)) hd
    exact mem_kstar_cons _ _ _ hp (ih (fun q hq => h q (List.mem_cons_of_mem _ hq)))

theorem ending_number_text_valid (first : List Char) (more : List (Nat × List Char))
    (trailing : Nat) (h1 : is_ending_numeral first = true)
    (h2 : ∀ p ∈ more, is_ending_numeral p.2 = true) :
    mxl_is_valid_ending_number (ending_number_text first more trailing) = true := by
  rw [mxl_is_valid_ending_number, RegularExpression.rmatch_iff_matches', regexValid,
    RegularExpression.matches'_add, RegularExpression.matches'_mul,
    RegularExpression.matches'_mul]
  exact Or.inr (Language.append_mem_mul
    (Language.append_mem_mul (numeral_mem_re_number first h1) (ending_tail_mem more h2))
    (spaces_mem_re_spaces trailing))

theorem numeral_digits (d : List Char) (h : is_ending_numeral d = true) :
    d ≠ [] ∧ ∀ c ∈ d, is_digit c = true := by
  cases d with
  | nil => simp [is_ending_numeral] at h
  | cons a t =>
    simp only [is_ending_numeral, Bool.and_eq_true, List.all_eq_true] at h
    refine ⟨by simp, ?_⟩
    intro c hc
    rcases List.mem_cons.mp hc with hc | hc
    · subst hc
      have := (contains_iff_mem _ _).mp h.1
      rw [is_digit, contains_iff_mem]
      simp only [List.mem_cons] at this ⊢
      tauto
    · exact h.2 c hc

theorem digit_runs_aux_digits (d : List Char) (hd : ∀ c ∈ d, is_digit c = true) :
    ∀ (s cur : List Char), digit_runs_aux (d ++ s) cur = digit_runs_aux s (cur ++ d) := by
  induction d with
  | nil => intro s cur; simp
  | cons a t ih =>
    intro s cur
    have ha := hd a (List.mem_cons_self _ _)
    have e : a :: t ++ s = a :: (t ++ s) := rfl
    rw [e, digit_runs_aux, if_pos ha, ih (fun c hc => hd c (List.mem_cons_of_mem _ hc))]
    simp

theorem digit_runs_aux_spaces (n : Nat) (s : List Char) :
    digit_runs_aux (spaces n ++ s) [] = digit_runs_aux s [] := by
  induction n with
  | zero => rfl
  | succ n ih =>
    have : spaces (n + 1) ++ s = ' ' :: (spaces n ++ s) := rfl
    rw [this, digit_runs_aux, if_neg (by decide), if_pos rfl, ih]

theorem digit_runs_aux_spaces_end (n : Nat) (cur : List Char) (hcur : cur ≠ []) :
    digit_runs_aux (spaces n) cur = [cur] := by
  cases n with
  | zero => simp [spaces, digit_runs_aux, hcur]
  | succ n =>
    have h1 : spaces (n + 1) = ' ' :: spaces n := rfl
    have h2 := digit_runs_aux_spaces n []
    simp only [List.append_nil] at h2
    rw [h1, digit_runs_aux, if_neg (by decide), if_neg hcur, h2]
    rfl

theorem digit_runs_aux_ending_tail (trailing : Nat) (more : List (Nat × List Char))
    (h : ∀ p ∈ more, is_ending_numeral p.2 = true) :
    ∀ cur : List Char, cur ≠ [] →
      digit_runs_aux (ending_tail more ++ spaces trailing) cur =
        cur :: more.map Prod.snd := by
  induction more with
  | nil =>
    intro cur hcur
    simpa [ending_tail] using digit_runs_aux_spaces_end trailing cur hcur
  | cons p rest ih =>
    intro cur hcur
    obtain ⟨k, d⟩ := p
    have hd := numeral_digits d (h (k, d) (List.mem_cons_self _ _))
    have e : ending_tail ((k, d) :: rest) ++ spaces trailing =
        ',' :: (spaces k ++ (d ++ (ending_tail rest ++ spaces trailing))) := by
      simp [ending_tail]
    rw [e, digit_runs_aux, if_neg (by decide), if_neg hcur, digit_runs_aux_spaces,
      digit_runs_aux_digits d hd.2, List.nil_append,
      ih (fun q hq => h q (List.mem_cons_of_mem _ hq)) d hd.1]
    rfl

theorem digit_runs_ending_number_text (first : List Char) (more : List (Nat × List Char))
    (trailing : Nat) (h1 : is_ending_numeral first = true)
    (h2 : ∀ p ∈ more, is_ending_numeral p.2 = true) :
    digit_runs (ending_number_text first more trailing) = first :: more.map Prod.snd := by
  have hd := numeral_digits first h1
  have e : ending_number_text first more trailing =
      first ++ (ending_tail more ++ spaces trailing) := by
    simp [ending_number_text]
  rw [digit_runs, e, digit_runs_aux_digits first hd.2, List.nil_append,
    digit_runs_aux_ending_tail trailing more h2 first hd.1]

theorem push_back_matches_in_range (runs : List (List Char))
    (h : ∀ r ∈ runs, (decimal_value r : Int) ≤ INT_MAX) :
    ∀ repetitions : List Int, push_back_matches runs repetitions =
      some (repetitions ++ runs.map (fun r => (decimal_value r : Int))) := by
  induction runs with
  | nil => intro repetitions; simp [push_back_matches]
  | cons r rest ih =>
    intro repetitions
    have hr := h r (List.mem_cons_self _ _)
    simp only [push_back_matches, stoi, hr, if_true,
      ih (fun q hq => h q (List.mem_cons_of_mem _ hq))]
    simp

theorem re_class_mem (cs : List Char) (x : List Char) (h : x ∈ (re_class cs).matches') :
    ∃ c ∈ cs, x = [c] := by
  induction cs with
  | nil => exact absurd h (Language.not_mem_zero x)
  | cons a t ih =>
    simp only [re_class, RegularExpression.matches'_add, RegularExpression.matches'_char] at h
    rcases h with h | h
    · exact ⟨a, List.mem_cons_self _ _, h⟩
    · obtain ⟨c, hc, hx⟩ := ih h
      exact ⟨c, List.mem_cons_of_mem _ hc, hx⟩

theorem re_spaces_mem (x : List Char) (h : x ∈ re_spaces.matches') : ∃ n, x = spaces n := by
  simp only [re_spaces, RegularExpression.matches'_star, RegularExpression.matches'_char] at h
  obtain ⟨L, hx, hL⟩ := Language.mem_kstar.mp h
  subst hx
  clear h
  induction L with
  | nil => exact ⟨0, rfl⟩
  | cons y rest ih =>
    obtain ⟨n, hn⟩ := ih (fun z hz => hL z (List.mem_cons_of_mem _ hz))
    have hy : y = [' '] := hL y (List.mem_cons_self _ _)
    refine ⟨n + 1, ?_⟩
    rw [List.flatten_cons, hn, hy]
    rfl

theorem star_re_class_mem (cs : List Char) (x : List Char)
    (h : x ∈ (RegularExpression.star (re_class cs)).matches') : ∀ c ∈ x, c ∈ cs := by
  rw [RegularExpression.matches'_star] at h
  obtain ⟨L, hx, hL⟩ := Language.mem_kstar.mp h
  subst hx
  intro c hc
  obtain ⟨y, hy, hcy⟩ := List.mem_flatten.mp hc
  obtain ⟨c', hc', hy'⟩ := re_class_mem cs y (hL y hy)
  rw [hy'] at hcy
  rw [List.mem_singleton.mp hcy]
  exact hc'

theorem re_number_mem (x : List Char) (h : x ∈ re_number.matches') :
    is_ending_numeral x = true := by
  rw [re_number, RegularExpression.matches'_mul] at h
  obtain ⟨a, ha, b, hb, hab⟩ := Language.mem_mul.mp h
  obtain ⟨c, hc, hac⟩ := re_class_mem _ a ha
  have hb' := star_re_class_mem _ b hb
  subst hab; subst hac
  simp only [List.singleton_append, is_ending_numeral, Bool.and_eq_true, List.all_eq_true,
    is_digit, contains_iff_mem]
  exact ⟨hc, hb'⟩

theorem ending_tail_of_mem (x : List Char)
    (h : x ∈ (RegularExpression.star
      (RegularExpression.char ',' * re_spaces * re_number)).matches') :
    ∃ more : List (Nat × List Char),
      (∀ p ∈ more, is_ending_numeral p.2 = true) ∧ x = ending_tail more := by
  rw [RegularExpression.matches'_star] at h
  obtain ⟨L, hx, hL⟩ := Language.mem_kstar.mp h
  subst hx
  clear h
  induction L with
  | nil => exact ⟨[], by simp, rfl⟩
  | cons y rest ih =>
    obtain ⟨more, hm, he⟩ := ih (fun z hz => hL z (List.mem_cons_of_mem _ hz))
    have hy := hL y (List.mem_cons_self _ _)
    simp only [RegularExpression.matches'_mul, RegularExpression.matches'_char] at hy
    obtain ⟨ab, hab, d, hd, hy2⟩ := Language.mem_mul.mp hy
    obtain ⟨a, ha, b, hb, hab2⟩ := Language.mem_mul.mp hab
    obtain ⟨k, hk⟩ := re_spaces_mem b hb
    have ha' : a = [','] := ha
    refine ⟨(k, d) :: more, ?_, ?_⟩
    · intro p hp
      rcases List.mem_cons.mp hp with hp | hp
      · rw [hp]; exact re_number_mem d hd
      · exact hm p hp
    · rw [List.flatten_cons, he, ← hy2, ← hab2, ha', hk]
      simp [ending_tail]

/-- Every text accepted by `mxl_is_valid_ending_number` is blank or lists numerals: it is
an `ending_number_text` of numerals. -/
theorem valid_ending_number_cases (num : List Char)
    (h : mxl_is_valid_ending_number num = true) :
    (∃ n, num = spaces n) ∨
    ∃ first more trailing, is_ending_numeral first = true ∧
      (∀ p ∈ more, is_ending_numeral p.2 = true) ∧
      num = ending_number_text first more trailing := by
  rw [mxl_is_valid_ending_number, RegularExpression.rmatch_iff_matches', regexValid,
    RegularExpression.matches'_add, RegularExpression.matches'_mul,
    RegularExpression.matches'_mul] at h
  rcases h with h | h
  · exact Or.inl (re_spaces_mem num h)
  · obtain ⟨ab, hab, c, hc, hx⟩ := Language.mem_mul.mp h
    obtain ⟨a, ha, b, hb, hab2⟩ := Language.mem_mul.mp hab
    obtain ⟨more, hm, he⟩ := ending_tail_of_mem b hb
    obtain ⟨t, ht⟩ := re_spaces_mem c hc
    exact Or.inr ⟨a, more, t, re_number_mem a ha, hm, by
      rw [← hx, ← hab2, he, ht]; rfl⟩

/-! ## Facts about repetition marks -/

theorem tolower_of_not_upper (c : Char)
    (h : c ∉ ['A', 'B', 'C', 'D', 'E', 'F', 'G', 'H', 'I', 'J', 'K', 'L', 'M', 'N', 'O', 'P',
      'Q', 'R', 'S', 'T', 'U', 'V', 'W', 'X', 'Y', 'Z']) : tolower c = c := by
  unfold tolower
  split <;> first | rfl | (exfalso; exact h (by decide))

theorem tolower_idem (c : Char) : tolower (tolower c) = tolower c := by
  by_cases h : c ∈ ['A', 'B', 'C', 'D', 'E', 'F', 'G', 'H', 'I', 'J', 'K', 'L', 'M', 'N',
      'O', 'P', 'Q', 'R', 'S', 'T', 'U', 'V', 'W', 'X', 'Y', 'Z']
  · simp only [List.mem_cons, List.mem_singleton, List.not_mem_nil, or_false] at h
    rcases h with h | h | h | h | h | h | h | h | h | h | h | h | h | h | h | h | h | h | h |
      h | h | h | h | h | h | h <;> (subst h; rfl)
  · rw [tolower_of_not_upper c h, tolower_of_not_upper c h]

theorem re_chars_sound (r : RegularExpression Char) :
    ∀ x : List Char, x ∈ r.matches' → ∀ c ∈ x, c ∈ re_chars r := by
  induction r with
  | zero => intro x hx; exact absurd hx (Language.not_mem_zero x)
  | epsilon =>
    intro x hx c hc
    have : x = [] := hx
    rw [this] at hc
    exact absurd hc (List.not_mem_nil c)
  | char a =>
    intro x hx c hc
    have : x = [a] := hx
    rw [this] at hc
    exact hc
  | plus P Q ihP ihQ =>
    intro x hx c hc
    simp only [re_chars, List.mem_append]
    rcases hx with hx | hx
    · exact Or.inl (ihP x hx c hc)
    · exact Or.inr (ihQ x hx c hc)
  | comp P Q ihP ihQ =>
    intro x hx c hc
    simp only [re_chars, List.mem_append]
    obtain ⟨a, ha, b, hb, hab⟩ := Language.mem_mul.mp hx
    rw [← hab] at hc
    rcases List.mem_append.mp hc with hc | hc
    · exact Or.inl (ihP a ha c hc)
    · exact Or.inr (ihQ b hb c hc)
  | star P ih =>
    intro x hx c hc
    obtain ⟨L, hxL, hL⟩ := Language.mem_kstar.mp hx
    rw [hxL] at hc
    obtain ⟨y, hy, hcy⟩ := List.mem_flatten.mp hc
    exact ih y (hL y hy) c hcy

theorem re_must_sound (r : RegularExpression Char) :
    ∀ x : List Char, x ∈ r.matches' → ∀ c ∈ re_must r, c ∈ x := by
  induction r with
  | zero => intro x hx; exact absurd hx (Language.not_mem_zero x)
  | epsilon => intro x _ c hc; exact absurd hc (List.not_mem_nil c)
  | char a =>
    intro x hx c hc
    have : x = [a] := hx
    rw [this]
    exact hc
  | plus P Q ihP ihQ =>
    intro x hx c hc
    simp only [re_must, List.mem_filter] at hc
    rcases hx with hx | hx
    · exact ihP x hx c hc.1
    · exact ihQ x hx c ((contains_iff_mem _ _).mp hc.2)
  | comp P Q ihP ihQ =>
    intro x hx c hc
    simp only [re_must, List.mem_append] at hc
    obtain ⟨a, ha, b, hb, hab⟩ := Language.mem_mul.mp hx
    rw [← hab]
    rcases hc with hc | hc
    · exact List.mem_append_left _ (ihP a ha c hc)
    · exact List.mem_append_right _ (ihQ b hb c hc)
  | star P _ => intro x _ c hc; exact absurd hc (List.not_mem_nil c)

theorem mem_spaces (n : Nat) (c : Char) (h : c ∈ spaces n) : c = ' ' :=
  (List.mem_replicate.mp h).2

theorem mem_spaced_words (ws : List (List Char)) :
    ∀ (gaps : List Nat) (c : Char), c ∈ spaced_words ws gaps → c = ' ' ∨ c ∈ ws.flatten := by
  induction ws with
  | nil => intro gaps c h; simp [spaced_words] at h
  | cons w rest ih =>
    intro gaps c h
    cases gaps with
    | nil =>
      simp only [spaced_words, List.mem_append] at h
      rcases h with h | h
      · exact Or.inr (by simp [h])
      · rcases ih [] c h with h | h
        · exact Or.inl h
        · exact Or.inr (by simp only [List.flatten_cons, List.mem_append]; exact Or.inr h)
    | cons g gs =>
      simp only [spaced_words, List.mem_append] at h
      rcases h with (h | h) | h
      · exact Or.inr (by simp [h])
      · exact Or.inl (mem_spaces g c h)
      · rcases ih gs c h with h | h
        · exact Or.inl h
        · exact Or.inr (by simp only [List.flatten_cons, List.mem_append]; exact Or.inr h)

theorem mem_spaced_words_of_mem (ws : List (List Char)) :
    ∀ (gaps : List Nat) (c : Char), c ∈ ws.flatten → c ∈ spaced_words ws gaps := by
  induction ws with
  | nil => intro gaps c h; simp at h
  | cons w rest ih =>
    intro gaps c h
    simp only [List.flatten_cons, List.mem_append] at h
    cases gaps with
    | nil =>
      simp only [spaced_words, List.mem_append]
      rcases h with h | h
      · exact Or.inl h
      · exact Or.inr (ih [] c h)
    | cons g gs =>
      simp only [spaced_words, List.mem_append]
      rcases h with h | h
      · exact Or.inl (Or.inl h)
      · exact Or.inr (ih gs c h)

theorem excluded_rmatch (r : RegularExpression Char) (ws : List (List Char))
    (h : excluded r ws = true) (lead : Nat) (gaps : List Nat) :
    r.rmatch (spaces lead ++ spaced_words ws gaps) = false := by
  rw [Bool.eq_false_iff]
  intro hm
  rw [RegularExpression.rmatch_iff_matches'] at hm
  simp only [excluded, Bool.or_eq_true, List.any_eq_true, Bool.not_eq_true',
    Bool.and_eq_true, bne_iff_ne, ne_eq] at h
  rcases h with ⟨c, hc, hcr⟩ | ⟨c, hc, hsp, hcw⟩
  · have h1 := re_chars_sound r _ hm c
      (List.mem_append_right _ (mem_spaced_words_of_mem ws gaps c hc))
    rw [← contains_iff_mem, hcr] at h1
    exact absurd h1 (by simp)
  · have h1 := re_must_sound r _ hm c hc
    rcases List.mem_append.mp h1 with h1 | h1
    · exact hsp (mem_spaces lead c h1)
    · rcases mem_spaced_words ws gaps c h1 with h2 | h2
      · exact hsp h2
      · rw [← contains_iff_mem, hcw] at h2
        exact absurd h2 (by simp)

theorem spaced_words_mem (ws : List (List Char)) :
    ∀ (rs : List (RegularExpression Char)) (gaps : List Nat), words_match ws rs = true →
      spaced_words ws gaps ∈ (re_spaced rs).matches' := by
  induction ws with
  | nil =>
    intro rs gaps h
    cases rs with
    | nil => exact Language.nil_mem_one
    | cons r rs => simp [words_match] at h
  | cons w rest ih =>
    intro rs gaps h
    cases rs with
    | nil => simp [words_match] at h
    | cons r rs =>
      simp only [words_match, Bool.and_eq_true] at h
      have hw : w ∈ r.matches' := (RegularExpression.rmatch_iff_matches' _ _).mp h.1
      simp only [re_spaced, RegularExpression.matches'_mul]
      cases gaps with
      | nil =>
        have e : spaced_words (w :: rest) [] = w ++ (spaces 0 ++ spaced_words rest []) := rfl
        rw [e]
        exact Language.append_mem_mul hw
          (Language.append_mem_mul (spaces_mem_re_spaces 0) (ih rs [] h.2))
      | cons g gs =>
        have e : spaced_words (w :: rest) (g :: gs) =
            w ++ (spaces g ++ spaced_words rest gs) := by
          simp [spaced_words]
        rw [e]
        exact Language.append_mem_mul hw
          (Language.append_mem_mul (spaces_mem_re_spaces g) (ih rs gs h.2))

theorem spaced_rmatch (rs : List (RegularExpression Char)) (ws : List (List Char))
    (h : words_match ws rs = true) (lead : Nat) (gaps : List Nat) :
    (re_spaces * re_spaced rs).rmatch (spaces lead ++ spaced_words ws gaps) = true := by
  rw [RegularExpression.rmatch_iff_matches', RegularExpression.matches'_mul]
  exact Language.append_mem_mul (spaces_mem_re_spaces lead) (spaced_words_mem ws rs gaps h)

theorem spaced_rmatch_inl (rs : List (RegularExpression Char)) (Q : RegularExpression Char)
    (ws : List (List Char)) (h : words_match ws rs = true) (lead : Nat) (gaps : List Nat) :
    (re_spaces * re_spaced rs + Q).rmatch (spaces lead ++ spaced_words ws gaps) = true := by
  rw [RegularExpression.rmatch_iff_matches', RegularExpression.matches'_add]
  exact Or.inl ((RegularExpression.rmatch_iff_matches' _ _).mp (spaced_rmatch rs ws h lead gaps))

theorem spaced_rmatch_inr (rs : List (RegularExpression Char)) (P : RegularExpression Char)
    (ws : List (List Char)) (h : words_match ws rs = true) (lead : Nat) (gaps : List Nat) :
    (P + re_spaces * re_spaced rs).rmatch (spaces lead ++ spaced_words ws gaps) = true := by
  rw [RegularExpression.rmatch_iff_matches', RegularExpression.matches'_add]
  exact Or.inr ((RegularExpression.rmatch_iff_matches' _ _).mp (spaced_rmatch rs ws h lead gaps))

theorem repetion_mark_da_capo (value t : List Char) (h : value.map tolower = t)
    (m : regexDaCapo.rmatch t = true) :
    mxl_type_of_repetion_mark value = .k_repeat_da_capo := by
  simp only [mxl_type_of_repetion_mark, h, m, Bool.false_eq_true, if_false, if_true]

theorem repetion_mark_da_capo_al_fine (value t : List Char) (h : value.map tolower = t)
    (e1 : regexDaCapo.rmatch t = false)
    (m : regexDaCapoAlFine.rmatch t = true) :
    mxl_type_of_repetion_mark value = .k_repeat_da_capo_al_fine := by
  simp only [mxl_type_of_repetion_mark, h, e1, m, Bool.false_eq_true, if_false, if_true]

theorem repetion_mark_da_capo_al_coda (value t : List Char) (h : value.map tolower = t)
    (e1 : regexDaCapo.rmatch t = false)
    (e2 : regexDaCapoAlFine.rmatch t = false)
    (m : regexDaCapoAlCoda.rmatch t = true) :
    mxl_type_of_repetion_mark value = .k_repeat_da_capo_al_coda := by
  simp only [mxl_type_of_repetion_mark, h, e1, e2, m, Bool.false_eq_true, if_false, if_true]

theorem repetion_mark_dal_segno (value t : List Char) (h : value.map tolower = t)
    (e1 : regexDaCapo.rmatch t = false)
    (e2 : regexDaCapoAlFine.rmatch t = false)
    (e3 : regexDaCapoAlCoda.rmatch t = false)
    (m : regexDalSegno.rmatch t = true) :
    mxl_type_of_repetion_mark value = .k_repeat_dal_segno := by
  simp only [mxl_type_of_repetion_mark, h, e1, e2, e3, m, Bool.false_eq_true, if_false, if_true]

theorem repetion_mark_dal_segno_al_fine (value t : List Char) (h : value.map tolower = t)
    (e1 : regexDaCapo.rmatch t = false)
    (e2 : regexDaCapoAlFine.rmatch t = false)
    (e3 : regexDaCapoAlCoda.rmatch t = false)
    (e4 : regexDalSegno.rmatch t = false)
    (m : regexDalSegnoAlFine.rmatch t = true) :
    mxl_type_of_repetion_mark value = .k_repeat_dal_segno_al_fine := by
  simp only [mxl_type_of_repetion_mark, h, e1, e2, e3, e4, m, Bool.false_eq_true, if_false, if_true]

theorem repetion_mark_dal_segno_al_coda (value t : List Char) (h : value.map tolower = t)
    (e1 : regexDaCapo.rmatch t = false)
    (e2 : regexDaCapoAlFine.rmatch t = false)
    (e3 : regexDaCapoAlCoda.rmatch t = false)
    (e4 : regexDalSegno.rmatch t = false)
    (e5 : regexDalSegnoAlFine.rmatch t = false)
    (m : regexDalSegnoAlCoda.rmatch t = true) :
    mxl_type_of_repetion_mark value = .k_repeat_dal_segno_al_coda := by
  simp only [mxl_type_of_repetion_mark, h, e1, e2, e3, e4, e5, m, Bool.false_eq_true, if_false, if_true]

theorem repetion_mark_fine (value t : List Char) (h : value.map tolower = t)
    (e1 : regexDaCapo.rmatch t = false)
    (e2 : regexDaCapoAlFine.rmatch t = false)
    (e3 : regexDaCapoAlCoda.rmatch t = false)
    (e4 : regexDalSegno.rmatch t = false)
    (e5 : regexDalSegnoAlFine.rmatch t = false)
    (e6 : regexDalSegnoAlCoda.rmatch t = false)
    (m : regexFine.rmatch t = true) :
    mxl_type_of_repetion_mark value = .k_repeat_fine := by
  simp only [mxl_type_of_repetion_mark, h, e1, e2, e3, e4, e5, e6, m, Bool.false_eq_true, if_false, if_true]

theorem repetion_mark_to_coda (value t : List Char) (h : value.map tolower = t)
    (e1 : regexDaCapo.rmatch t = false)
    (e2 : regexDaCapoAlFine.rmatch t = false)
    (e3 : regexDaCapoAlCoda.rmatch t = false)
    (e4 : regexDalSegno.rmatch t = false)
    (e5 : regexDalSegnoAlFine.rmatch t = false)
    (e6 : regexDalSegnoAlCoda.rmatch t = false)
    (e7 : regexFine.rmatch t = false)
    (m : regexToCoda.rmatch t = true) :
    mxl_type_of_repetion_mark value = .k_repeat_to_coda := by
  simp only [mxl_type_of_repetion_mark, h, e1, e2, e3, e4, e5, e6, e7, m, Bool.false_eq_true, if_false, if_true]

theorem repetion_mark_none (value t : List Char) (h : value.map tolower = t)
    (e1 : regexDaCapo.rmatch t = false)
    (e2 : regexDaCapoAlFine.rmatch t = false)
    (e3 : regexDaCapoAlCoda.rmatch t = false)
    (e4 : regexDalSegno.rmatch t = false)
    (e5 : regexDalSegnoAlFine.rmatch t = false)
    (e6 : regexDalSegnoAlCoda.rmatch t = false)
    (e7 : regexFine.rmatch t = false)
    (e8 : regexToCoda.rmatch t = false) :
    mxl_type_of_repetion_mark value = .k_repeat_none := by
  simp only [mxl_type_of_repetion_mark, h, e1, e2, e3, e4, e5, e6, e7, e8, Bool.false_eq_true, if_false]

/-! ## Facts about reading integers -/

theorem is_digit_not_special (c : Char) (h : is_digit c = true) :
    is_space c = false ∧ c ≠ '+' ∧ c ≠ '-' ∧ c ≠ '.' := by
  rw [is_digit, contains_iff_mem] at h
  simp only [List.mem_cons, List.mem_singleton, List.not_mem_nil, or_false] at h
  rcases h with h | h | h | h | h | h | h | h | h | h <;> (subst h; decide)

theorem strip_sign_of_digit (c : Char) (l : List Char) (h : is_digit c = true) :
    strip_sign (c :: l) = (false, c :: l) := by
  have hc := is_digit_not_special c h
  unfold strip_sign
  split
  · next heq => rw [List.cons.injEq] at heq; exact absurd heq.1 hc.2.2.1
  · next heq => rw [List.cons.injEq] at heq; exact absurd heq.1 hc.2.1
  · rfl

theorem dropWhile_eq_self_of_head (p : Char → Bool) (l : List Char)
    (h : ∀ c ∈ l.head?, p c = false) : l.dropWhile p = l := by
  cases l with
  | nil => rfl
  | cons a t =>
    have ha : p a = false := h a (by simp)
    simp [List.dropWhile_cons, ha]

theorem takeWhile_eq_nil_of_head (p : Char → Bool) (l : List Char)
    (h : ∀ c ∈ l.head?, p c = false) : l.takeWhile p = [] := by
  cases l with
  | nil => rfl
  | cons a t =>
    have ha : p a = false := h a (by simp)
    simp [List.takeWhile_cons, ha]

theorem extract_long_of_tail (ws tail : List Char) (hws : ∀ c ∈ ws, is_space c = true)
    (htail : ∀ c ∈ tail.head?, is_space c = false) :
    extract_long (ws ++ tail) = extract_long tail := by
  unfold extract_long
  rw [List.dropWhile_append_of_pos hws, dropWhile_eq_self_of_head _ tail htail]

theorem extract_long_digits (negative : Bool) (digits rest tail : List Char)
    (hs : strip_sign tail = (negative, digits ++ rest))
    (htail : ∀ c ∈ tail.head?, is_space c = false)
    (hne : digits ≠ []) (hd : ∀ c ∈ digits, is_digit c = true)
    (hrest : ∀ c ∈ rest.head?, is_digit c = false) :
    extract_long tail =
      if LONG_MIN ≤ (if negative then -(decimal_value digits : Int) else decimal_value digits) ∧
          (if negative then -(decimal_value digits : Int) else decimal_value digits) ≤ LONG_MAX
      then some (if negative then -(decimal_value digits : Int) else decimal_value digits)
      else none := by
  unfold extract_long
  rw [dropWhile_eq_self_of_head _ tail htail, hs]
  simp only [List.takeWhile_append_of_pos hd, takeWhile_eq_nil_of_head _ rest hrest,
    List.append_nil, hne, if_false]

theorem extract_long_numeral (ws sign digits rest : List Char)
    (hws : ∀ c ∈ ws, is_space c = true)
    (hsign : sign = [] ∨ sign = ['+'] ∨ sign = ['-'])
    (hne : digits ≠ []) (hd : ∀ c ∈ digits, is_digit c = true)
    (hrest : ∀ c ∈ rest.head?, is_digit c = false) :
    extract_long (ws ++ sign ++ digits ++ rest) =
      if LONG_MIN ≤ signed_value sign digits ∧ signed_value sign digits ≤ LONG_MAX
      then some (signed_value sign digits) else none := by
  obtain ⟨d, ds, hdd⟩ := List.exists_cons_of_ne_nil hne
  have hd0 := is_digit_not_special d (hd d (by rw [hdd]; exact List.mem_cons_self _ _))
  have e : ws ++ sign ++ digits ++ rest = ws ++ (sign ++ (digits ++ rest)) := by simp
  rw [e]
  rcases hsign with h | h | h
  · subst h
    have ht : ∀ c ∈ ([] ++ (digits ++ rest)).head?, is_space c = false := by
      rw [hdd]; intro c hc; simp at hc; rw [← hc]; exact hd0.1
    rw [extract_long_of_tail ws _ hws ht,
      extract_long_digits false digits rest _ (by
        rw [hdd]
        exact strip_sign_of_digit d _ (hd d (by rw [hdd]; exact List.mem_cons_self _ _)))
        ht hne hd hrest]
    simp [signed_value]
  · subst h
    have ht : ∀ c ∈ (['+'] ++ (digits ++ rest)).head?, is_space c = false := by
      intro c hc; simp at hc; rw [← hc]; decide
    rw [extract_long_of_tail ws _ hws ht,
      extract_long_digits false digits rest (['+'] ++ (digits ++ rest)) rfl ht hne hd hrest]
    simp [signed_value]
  · subst h
    have ht : ∀ c ∈ (['-'] ++ (digits ++ rest)).head?, is_space c = false := by
      intro c hc; simp at hc; rw [← hc]; decide
    rw [extract_long_of_tail ws _ hws ht,
      extract_long_digits true digits rest (['-'] ++ (digits ++ rest)) rfl ht hne hd hrest]
    simp [signed_value]

theorem extract_long_no_digits (negative : Bool) (rest tail : List Char)
    (hs : strip_sign tail = (negative, rest))
    (htail : ∀ c ∈ tail.head?, is_space c = false)
    (hrest : ∀ c ∈ rest.head?, is_digit c = false) :
    extract_long tail = none := by
  unfold extract_long
  rw [dropWhile_eq_self_of_head _ tail htail, hs]
  simp only [takeWhile_eq_nil_of_head _ rest hrest, if_true]

theorem extract_long_no_numeral (ws sign rest : List Char)
    (hws : ∀ c ∈ ws, is_space c = true)
    (hsign : sign = [] ∨ sign = ['+'] ∨ sign = ['-'])
    (hrest : ∀ c ∈ rest.head?, is_digit c = false)
    (hmax : sign = [] → ∀ c ∈ rest.head?, is_space c = false ∧ c ≠ '+' ∧ c ≠ '-') :
    extract_long (ws ++ sign ++ rest) = none := by
  have e : ws ++ sign ++ rest = ws ++ (sign ++ rest) := by simp
  rw [e]
  rcases hsign with h | h | h
  · subst h
    have hm := hmax rfl
    have ht : ∀ c ∈ ([] ++ rest).head?, is_space c = false := fun c hc => (hm c hc).1
    rw [extract_long_of_tail ws _ hws ht]
    refine extract_long_no_digits false rest _ ?_ ht hrest
    cases rest with
    | nil => rfl
    | cons a t =>
      have ha := hm a (by simp)
      simp only [List.nil_append]
      unfold strip_sign
      split
      · next heq => rw [List.cons.injEq] at heq; exact absurd heq.1 ha.2.2
      · next heq => rw [List.cons.injEq] at heq; exact absurd heq.1 ha.2.1
      · rfl
  · subst h
    have ht : ∀ c ∈ (['+'] ++ rest).head?, is_space c = false := by
      intro c hc; simp at hc; rw [← hc]; decide
    rw [extract_long_of_tail ws _ hws ht]
    exact extract_long_no_digits false rest (['+'] ++ rest) rfl ht hrest
  · subst h
    have ht : ∀ c ∈ (['-'] ++ rest).head?, is_space c = false := by
      intro c hc; simp at hc; rw [← hc]; decide
    rw [extract_long_of_tail ws _ hws ht]
    exact extract_long_no_digits true rest (['-'] ++ rest) rfl ht hrest

theorem long_to_int_of_int (n : Int) (h1 : INT_MIN ≤ n) (h2 : n ≤ INT_MAX) :
    long_to_int n = n := by
  unfold long_to_int
  unfold INT_MIN at h1
  unfold INT_MAX at h2
  omega

theorem to_integer_digits (digits : List Char) (hne : digits ≠ [])
    (hd : ∀ c ∈ digits, is_digit c = true) (hfit : (decimal_value digits : Int) ≤ INT_MAX) :
    MxlAnalyser.to_integer digits = (false, (decimal_value digits : Int)) := by
  have h := extract_long_numeral [] [] digits [] (by simp) (Or.inl rfl) hne hd (by simp)
  simp only [List.nil_append, List.append_nil] at h
  have hv : signed_value [] digits = (decimal_value digits : Int) := by simp [signed_value]
  have h0 : (0 : Int) ≤ (decimal_value digits : Int) := Int.natCast_nonneg _
  have hr : LONG_MIN ≤ (decimal_value digits : Int) ∧ (decimal_value digits : Int) ≤ LONG_MAX := by
    unfold INT_MAX at hfit
    unfold LONG_MIN LONG_MAX
    omega
  rw [hv, if_pos hr] at h
  rw [MxlAnalyser.to_integer, h]
  simp only
  rw [long_to_int_of_int _ (by unfold INT_MIN; omega) hfit]

theorem head_dropWhile_false (p : Char → Bool) (l : List Char) :
    ∀ c ∈ (l.dropWhile p).head?, p c = false := by
  induction l with
  | nil => intro c hc; simp at hc
  | cons a t ih =>
    by_cases ha : p a = true
    · rw [List.dropWhile_cons_of_pos ha]; exact ih
    · rw [List.dropWhile_cons_of_neg ha]
      intro c hc
      simp only [List.head?_cons, Option.mem_def, Option.some.injEq] at hc
      rw [← hc]
      simpa using ha

theorem takeWhile_all (p : Char → Bool) (l : List Char) : ∀ c ∈ l.takeWhile p, p c = true :=
  fun _ hc => List.mem_takeWhile_imp hc

/-- Every text is made of white space, an optional sign, a run of digits (maybe empty) and
a rest that does not begin with a digit; with no sign and no digits, the rest does not
begin with white space or a sign. -/
theorem text_decomposition (text : List Char) :
    ∃ ws sign digits rest : List Char,
      text = ws ++ sign ++ digits ++ rest ∧
      (∀ c ∈ ws, is_space c = true) ∧
      (sign = [] ∨ sign = ['+'] ∨ sign = ['-']) ∧
      (∀ c ∈ digits, is_digit c = true) ∧
      (∀ c ∈ rest.head?, is_digit c = false) ∧
      (sign = [] → digits = [] → ∀ c ∈ rest.head?, is_space c = false ∧ c ≠ '+' ∧ c ≠ '-') := by
  obtain ⟨ws, tail, h1, hws, hsp⟩ : ∃ ws tail : List Char, text = ws ++ tail ∧
      (∀ c ∈ ws, is_space c = true) ∧ (∀ c ∈ tail.head?, is_space c = false) :=
    ⟨text.takeWhile is_space, text.dropWhile is_space,
      (List.takeWhile_append_dropWhile is_space text).symm, takeWhile_all _ _,
      head_dropWhile_false _ _⟩
  have key : ∀ body : List Char, ∃ digits rest : List Char, body = digits ++ rest ∧
      (∀ c ∈ digits, is_digit c = true) ∧ (∀ c ∈ rest.head?, is_digit c = false) ∧
      (digits = [] → rest = body) := by
    intro body
    refine ⟨body.takeWhile is_digit, body.dropWhile is_digit,
      (List.takeWhile_append_dropWhile is_digit body).symm, takeWhile_all _ _,
      head_dropWhile_false _ _, ?_⟩
    intro h
    have := List.takeWhile_append_dropWhile is_digit body
    rw [h] at this
    simpa using this
  by_cases hm : ∃ r, tail = '-' :: r
  · obtain ⟨r, hr⟩ := hm
    obtain ⟨digits, rest, hb, hd, hrest, -⟩ := key r
    refine ⟨ws, ['-'], digits, rest, ?_, hws,
      Or.inr (Or.inr rfl), hd, hrest, fun h => absurd h (by simp)⟩
    rw [h1, hr, hb]; simp
  · by_cases hp : ∃ r, tail = '+' :: r
    · obtain ⟨r, hr⟩ := hp
      obtain ⟨digits, rest, hb, hd, hrest, -⟩ := key r
      refine ⟨ws, ['+'], digits, rest, ?_, hws,
        Or.inr (Or.inl rfl), hd, hrest, fun h => absurd h (by simp)⟩
      rw [h1, hr, hb]; simp
    · obtain ⟨digits, rest, hb, hd, hrest, hnil⟩ := key tail
      refine ⟨ws, [], digits, rest, ?_, hws,
        Or.inl rfl, hd, hrest, ?_⟩
      · rw [h1, hb]; simp
      · intro _ hdn c hc
        rw [hnil hdn] at hc
        refine ⟨hsp c hc, ?_, ?_⟩
        · intro hcp
          apply hp
          cases tail with
          | nil => simp at hc
          | cons a t =>
            simp only [List.head?_cons, Option.mem_def, Option.some.injEq] at hc
            exact ⟨t, by rw [hc, hcp]⟩
        · intro hcm
          apply hm
          cases tail with
          | nil => simp at hc
          | cons a t =>
            simp only [List.head?_cons, Option.mem_def, Option.some.injEq] at hc
            exact ⟨t, by rw [hc, hcm]⟩

/-! ## Facts about context snapshots -/

theorem find_context_save_all_none (staff_index : Int → Int → Int) (iCol idx : Int)
    (calls : List SaveContextCall) :
    ∀ ctx : List ContextSnapshot, SpAlgColumn.find_context ctx iCol idx = none →
      (∀ c ∈ calls, ¬ (c.iCol = iCol ∧ staff_index c.iInstr c.iStaff = idx)) →
      SpAlgColumn.find_context (SpAlgColumn.save_all staff_index ctx calls) iCol idx = none := by
  induction calls with
  | nil => intro ctx h _; exact h
  | cons c rest ih =>
    intro ctx h hc
    apply ih
    · have hne := hc c (List.mem_cons_self _ _)
      simp only [SpAlgColumn.find_context, SpAlgColumn.save_context, List.find?_cons]
      simp only [hne, decide_False]
      exact h
    · exact fun c' hc' => hc c' (List.mem_cons_of_mem _ hc')

/-! ## Facts about the go-forward filler -/

theorem increment_time_curTime (kq : ℚ) (tk : MxlTimeKeeper) (v staff amount : Int) :
    (tk.increment_time kq v staff amount).m_curTime =
      max 0 ((tk.get_timepos_for_voice v).1 + amount) := by
  show (if (tk.get_timepos_for_voice v).1 + amount < 0 then (0 : Int)
      else (tk.get_timepos_for_voice v).1 + amount) = _
  split <;> omega

theorem increment_time_record (kq : ℚ) (tk : MxlTimeKeeper) (v staff amount : Int) :
    map_find (tk.increment_time kq v staff amount).m_voiceTime v =
      some (max 0 ((tk.get_timepos_for_voice v).1 + amount)) := by
  rw [← increment_time_curTime kq tk v staff amount]
  exact map_find_map_set_self _ _ _

theorem insert_go_fwd_loop_done (kq : ℚ) (n : Nat) (a : MxlAnalyser)
    (voice staff longaNote remaining shift : Int) (h : remaining ≤ 0) :
    MxlAnalyser.insert_go_fwd_loop kq n a voice staff longaNote remaining shift = some a := by
  have h' : ¬ remaining > 0 := by omega
  cases n <;> simp [MxlAnalyser.insert_go_fwd_loop, h']

/-- A filler of at most a longa (8 times the divisions) is inserted as one rest of exactly
that length, and the voice's record advances by exactly that length. -/
theorem insert_go_fwd_single_chunk (kq : ℚ) (n : Nat) (a : MxlAnalyser) (v shift : Int)
    (md : List ImoRest) (hmd : a.m_currentMD = some md) (h0 : 0 < shift)
    (hs : shift ≤ 8 * a.current_divisions)
    (hpos : 0 ≤ (a.m_timeKeeper.get_timepos_for_voice v).1 + shift) :
    ∃ a', MxlAnalyser.insert_go_fwd kq (n + 1) a v shift = some a' ∧
      a'.m_currentMD = some (md ++
        [ImoRest.mk true false shift (a.m_timeKeeper.get_staff_for_voice v - 1) v]) ∧
      a'.m_timeKeeper.m_curTime = (a.m_timeKeeper.get_timepos_for_voice v).1 + shift ∧
      map_find a'.m_timeKeeper.m_voiceTime v =
        some ((a.m_timeKeeper.get_timepos_for_voice v).1 + shift) := by
  have h1 : shift > 0 := h0
  have h2 : ¬ shift > 8 * a.current_divisions := by omega
  have hm : max 0 ((a.m_timeKeeper.get_timepos_for_voice v).1 + shift) =
      (a.m_timeKeeper.get_timepos_for_voice v).1 + shift := max_eq_right hpos
  simp only [MxlAnalyser.insert_go_fwd, hmd, Option.isNone_some, Bool.false_eq_true, if_false,
    MxlAnalyser.insert_go_fwd_loop, h1, if_true, h2]
  rw [insert_go_fwd_loop_done kq n _ _ _ _ _ _ (by omega)]
  refine ⟨_, rfl, rfl, ?_, ?_⟩
  · rw [← hm]
    exact increment_time_curTime kq _ v (a.m_timeKeeper.get_staff_for_voice v - 1) shift
  · rw [← hm]
    exact increment_time_record kq _ v (a.m_timeKeeper.get_staff_for_voice v - 1) shift

/-- When voice `v` is behind the current position by a gap of at most a longa (8 times the
divisions), music data present, `move_time_as_required_by_voice` leaves the current
position where it was and records it for `v`. -/
theorem move_time_single_chunk (kq : ℚ) (n : Nat) (a : MxlAnalyser) (v staff : Int)
    (md : List ImoRest) (hmd : a.m_currentMD = some md) (hv : 0 < v)
    (hlt : (a.m_timeKeeper.get_timepos_for_voice v).1 < a.m_timeKeeper.m_curTime)
    (hgap : a.m_timeKeeper.m_curTime - (a.m_timeKeeper.get_timepos_for_voice v).1 ≤
      8 * a.current_divisions)
    (hcur : 0 ≤ a.m_timeKeeper.m_curTime) :
    ∃ a', MxlTimeKeeper.move_time_as_required_by_voice kq (n + 1) a v staff = some a' ∧
      a'.m_timeKeeper.m_curTime = a.m_timeKeeper.m_curTime ∧
      map_find a'.m_timeKeeper.m_voiceTime v = some a.m_timeKeeper.m_curTime := by
  have hc := get_timepos_for_voice_curTime a.m_timeKeeper v
  have hrec := get_timepos_for_voice_recorded a.m_timeKeeper v
  have hlt2 : (a.m_timeKeeper.get_timepos_for_voice v).1 <
      (a.m_timeKeeper.get_timepos_for_voice v).2.m_curTime := by rw [hc]; exact hlt
  generalize hvt : (a.m_timeKeeper.get_timepos_for_voice v).1 = vt at *
  generalize htk : (a.m_timeKeeper.get_timepos_for_voice v).2 = tk1 at *
  have hg : ∀ tk2 : MxlTimeKeeper, tk2.m_voiceTime = tk1.m_voiceTime →
      (tk2.get_timepos_for_voice v).1 = vt := by
    intro tk2 h2
    rw [get_timepos_for_voice_of_some tk2 v vt (by rw [h2]; exact hrec)]
  have hk : (MxlTimeKeeper.get_timepos_for_voice
      { tk1 with m_curTime := vt
                 m_time := tk1.m_startTime + MxlTimeKeeper.duration_to_time_units kq
                   { tk1 with m_curTime := vt } vt } v).1 = vt := hg _ rfl
  obtain ⟨a1, h1, -, h3, -⟩ := insert_go_fwd_single_chunk kq n
    { a with m_timeKeeper :=
        { tk1 with m_curTime := vt
                   m_time := tk1.m_startTime + MxlTimeKeeper.duration_to_time_units kq
                     { tk1 with m_curTime := vt } vt } } v
    (a.m_timeKeeper.m_curTime - vt) md hmd (by omega) hgap
    (by
      show 0 ≤ (MxlTimeKeeper.get_timepos_for_voice _ v).1 + _
      rw [hk]; omega)
  replace h3 : a1.m_timeKeeper.m_curTime = vt + (a.m_timeKeeper.m_curTime - vt) := by
    rw [h3]
    show (MxlTimeKeeper.get_timepos_for_voice _ v).1 + _ = _
    rw [hk]
  have heq : MxlTimeKeeper.move_time_as_required_by_voice kq (n + 1) a v staff =
      some (MxlTimeKeeper.move_time_update kq a1 v) := by
    simp only [MxlTimeKeeper.move_time_as_required_by_voice, gt_iff_lt, hv, if_true, hvt, htk,
      hlt2, hc, hlt]
    rw [h1]
    rfl
  refine ⟨_, heq, ?_, ?_⟩
  · show a1.m_timeKeeper.m_curTime = _
    rw [h3]; omega
  · show map_find (map_set a1.m_timeKeeper.m_voiceTime v a1.m_timeKeeper.m_curTime) v = _
    rw [map_find_map_set_self, h3]
    congr 1
    omega

/-! ## Facts about assign_voice -/

theorem keys_le_length (m : List (Int × Int)) (n : Nat)
    (h : ∀ w : Int, 1 ≤ w → w ≤ n → ∃ t, map_find m w = some t) : n ≤ m.length := by
  have hnd : ((List.range n).map (fun i : Nat => (i : Int) + 1)).Nodup :=
    (List.nodup_range n).map (fun i j hij => by
      have h' : (i : Int) + 1 = (j : Int) + 1 := hij
      omega)
  have hsub : (List.range n).map (fun i : Nat => (i : Int) + 1) ⊆ m.map Prod.fst := by
    intro w hw
    obtain ⟨i, hi, hiw⟩ := List.mem_map.mp hw
    have hi' := List.mem_range.mp hi
    obtain ⟨t, ht⟩ := h w (by omega) (by omega)
    exact List.mem_map.mpr ⟨(w, t), map_find_mem m w t ht, rfl⟩
  have := (hnd.subperm hsub).length_le
  simpa using this

theorem get_timepos_for_voice_pos (tk : MxlTimeKeeper) (v : Int)
    (h : 0 < (tk.get_timepos_for_voice v).1) :
    ∃ t, map_find tk.m_voiceTime v = some t ∧ tk.get_timepos_for_voice v = (t, tk) := by
  cases hf : map_find tk.m_voiceTime v with
  | some t => exact ⟨t, rfl, get_timepos_for_voice_of_some tk v t hf⟩
  | none =>
    rw [get_timepos_for_voice_of_none tk v hf] at h
    exact absurd h (lt_irrefl 0)

theorem assign_voice_loop_smallest (tk : MxlTimeKeeper) (hcur : 0 ≤ tk.m_curTime) (v : Int)
    (hv100 : v ≤ 100) (hv : (tk.get_timepos_for_voice v).1 ≤ tk.m_curTime) (n : Nat) :
    ∀ voice : Int, 0 ≤ voice → voice < v → (v - voice).toNat ≤ n →
      (∀ w, 1 ≤ w → w < v → tk.m_curTime < (tk.get_timepos_for_voice w).1) →
      MxlTimeKeeper.assign_voice_loop n tk voice = (v, (tk.get_timepos_for_voice v).2) := by
  induction n with
  | zero => intro voice _ h1 h2 _; omega
  | succ n ih =>
    intro voice h0 h1 h2 hmin
    have hlen : voice ≤ (tk.m_voiceTime.length : Int) := by
      have := keys_le_length tk.m_voiceTime voice.toNat (by
        intro w hw1 hw2
        obtain ⟨t, ht, -⟩ := get_timepos_for_voice_pos tk w
          (by have := hmin w hw1 (by omega); omega)
        exact ⟨t, ht⟩)
      omega
    have hg : voice ≤ (tk.m_voiceTime.length : Int) ∧ voice < 100 := ⟨hlen, by omega⟩
    simp only [MxlTimeKeeper.assign_voice_loop, hg, and_self, if_true]
    by_cases hlast : voice + 1 = v
    · rw [hlast, get_timepos_for_voice_curTime, if_pos hv]
    · have hlt := hmin (voice + 1) (by omega) (by omega)
      obtain ⟨t, -, hgt⟩ := get_timepos_for_voice_pos tk (voice + 1) (by omega)
      rw [hgt] at hlt
      simp only [hgt]
      rw [if_neg (by omega)]
      exact ih (voice + 1) (by omega) (by omega) (by omega) hmin

/-! ## Facts about the saved staff of a voice -/

theorem get_timepos_for_voice_voiceStaff (tk : MxlTimeKeeper) (v : Int) :
    (tk.get_timepos_for_voice v).2.m_voiceStaff = tk.m_voiceStaff := by
  unfold MxlTimeKeeper.get_timepos_for_voice
  split <;> rfl

theorem increment_time_voiceStaff (kq : ℚ) (tk : MxlTimeKeeper) (v staff amount : Int) :
    (tk.increment_time kq v staff amount).m_voiceStaff = tk.m_voiceStaff :=
  get_timepos_for_voice_voiceStaff tk v

theorem insert_go_fwd_loop_voiceStaff (kq : ℚ) (n : Nat) :
    ∀ (a a' : MxlAnalyser) (voice staff longaNote remaining shift : Int),
      MxlAnalyser.insert_go_fwd_loop kq n a voice staff longaNote remaining shift = some a' →
      a'.m_timeKeeper.m_voiceStaff = a.m_timeKeeper.m_voiceStaff := by
  induction n with
  | zero =>
    intro a a' voice staff longaNote remaining shift h
    simp only [MxlAnalyser.insert_go_fwd_loop] at h
    split at h
    · exact absurd h (by simp)
    · cases h; rfl
  | succ n ih =>
    intro a a' voice staff longaNote remaining shift h
    simp only [MxlAnalyser.insert_go_fwd_loop] at h
    split at h
    · have h2 := ih _ _ _ _ _ _ _ h
      rw [h2]
      exact get_timepos_for_voice_voiceStaff a.m_timeKeeper voice
    · cases h; rfl

theorem insert_go_fwd_voiceStaff (kq : ℚ) (fuel : Nat) (a a' : MxlAnalyser) (voice shift : Int)
    (h : MxlAnalyser.insert_go_fwd kq fuel a voice shift = some a') :
    a'.m_timeKeeper.m_voiceStaff = a.m_timeKeeper.m_voiceStaff := by
  simp only [MxlAnalyser.insert_go_fwd] at h
  split at h
  · cases h; rfl
  · have h2 := insert_go_fwd_loop_voiceStaff kq _ _ _ _ _ _ _ _ h
    exact h2

theorem move_time_voiceStaff (kq : ℚ) (fuel : Nat) (a a' : MxlAnalyser) (v staff : Int)
    (h : MxlTimeKeeper.move_time_as_required_by_voice kq fuel a v staff = some a') :
    a'.m_timeKeeper.m_voiceStaff = a.m_timeKeeper.m_voiceStaff := by
  have hs := get_timepos_for_voice_voiceStaff a.m_timeKeeper v
  simp only [MxlTimeKeeper.move_time_as_required_by_voice] at h
  split at h
  · split at h
    · simp only [Option.map_eq_some'] at h
      obtain ⟨a1, h1, h2⟩ := h
      subst h2
      have h3 := insert_go_fwd_voiceStaff kq fuel _ _ _ _ h1
      show a1.m_timeKeeper.m_voiceStaff = _
      rw [h3]
      exact hs
    · split at h
      · cases h; exact hs
      · cases h; exact hs
  · cases h; rfl

theorem map_find_map_set_ne (m : List (Int × Int)) (k v w : Int) (h : w ≠ k) :
    map_find (map_set m k v) w = map_find m w := by
  induction m with
  | nil => simp [map_set, map_find, h]
  | cons hd t ih =>
    obtain ⟨k', v'⟩ := hd
    simp only [map_set]
    split
    · next hk => subst hk; simp [map_find, h]
    · split
      · simp [map_find, h]
      · simp only [map_find, ih]

theorem get_staff_for_voice_eq (tk : MxlTimeKeeper) (v : Int) :
    tk.get_staff_for_voice v = (map_find tk.m_voiceStaff v).getD 1 := by
  unfold MxlTimeKeeper.get_staff_for_voice
  rw [map_find_guard]
  cases map_find tk.m_voiceStaff v <;> rfl

theorem determine_voice_voiceStaff (kq : ℚ) (fuel : Nat) (a : MxlAnalyser) (voice staff : Int)
    (hv : voice ≠ 0) (r : Int × MxlAnalyser)
    (h : MxlTimeKeeper.determine_voice_and_timepos kq fuel a voice staff = some r) :
    r.1 = voice ∧
    r.2.m_timeKeeper.m_voiceStaff =
      if (a.m_timeKeeper.get_timepos_for_voice voice).1 = 0
      then map_set a.m_timeKeeper.m_voiceStaff voice staff
      else a.m_timeKeeper.m_voiceStaff := by
  have hs := get_timepos_for_voice_voiceStaff a.m_timeKeeper voice
  simp only [MxlTimeKeeper.determine_voice_and_timepos, hv, if_false,
    Option.map_eq_some'] at h
  obtain ⟨a1, h1, h2⟩ := h
  subst h2
  refine ⟨rfl, ?_⟩
  have h3 := move_time_voiceStaff kq fuel _ _ _ _ h1
  show a1.m_timeKeeper.m_voiceStaff = _
  rw [h3]
  simp only
  split
  · simp only [hs]
  · exact hs

theorem determine_voice_saves_staff (kq : ℚ) (fuel : Nat) (a : MxlAnalyser)
    (voice staff : Int) (hv : voice ≠ 0) (r : Int × MxlAnalyser)
    (h : MxlTimeKeeper.determine_voice_and_timepos kq fuel a voice staff = some r)
    (h0 : (a.m_timeKeeper.get_timepos_for_voice voice).1 = 0) :
    r.2.m_timeKeeper.get_staff_for_voice voice = staff := by
  rw [get_staff_for_voice_eq, (determine_voice_voiceStaff kq fuel a voice staff hv r h).2,
    if_pos h0, map_find_map_set_self]
  rfl

theorem determine_voice_keeps_staff (kq : ℚ) (fuel : Nat) (a : MxlAnalyser)
    (voice staff : Int) (hv : voice ≠ 0) (r : Int × MxlAnalyser)
    (h : MxlTimeKeeper.determine_voice_and_timepos kq fuel a voice staff = some r)
    (h0 : (a.m_timeKeeper.get_timepos_for_voice voice).1 ≠ 0) (w : Int) :
    r.2.m_timeKeeper.get_staff_for_voice w = a.m_timeKeeper.get_staff_for_voice w := by
  rw [get_staff_for_voice_eq, get_staff_for_voice_eq,
    (determine_voice_voiceStaff kq fuel a voice staff hv r h).2, if_neg h0]

theorem determine_voice_other_staff (kq : ℚ) (fuel : Nat) (a : MxlAnalyser)
    (voice staff : Int) (hv : voice ≠ 0) (r : Int × MxlAnalyser)
    (h : MxlTimeKeeper.determine_voice_and_timepos kq fuel a voice staff = some r)
    (w : Int) (hw : w ≠ voice) :
    r.2.m_timeKeeper.get_staff_for_voice w = a.m_timeKeeper.get_staff_for_voice w := by
  rw [get_staff_for_voice_eq, get_staff_for_voice_eq,
    (determine_voice_voiceStaff kq fuel a voice staff hv r h).2]
  split
  · rw [map_find_map_set_ne _ _ _ _ hw]
  · rfl

theorem get_staff_for_voice_after_reset (tk : MxlTimeKeeper) (h : tk.m_fResetVoiceTime = true)
    (v : Int) : tk.reset_for_new_measure.get_staff_for_voice v = 1 := by
  simp [MxlTimeKeeper.reset_for_new_measure, h, MxlTimeKeeper.get_staff_for_voice]

/-! ## Facts about the validation of a clef -/

theorem validate_clef_G (line octaveChange : Int) :
    (ClefMxlAnalyser.validate_clef ['G'] line octaveChange).sign = .k_clef_sign_G ∧
    (ClefMxlAnalyser.validate_clef ['G'] line octaveChange).m_line =
      (if line = 1 ∨ line = 2 then line else 2) ∧
    (ClefMxlAnalyser.validate_clef ['G'] line octaveChange).m_octaveChange =
      (if octaveChange > 2 ∨ octaveChange < -2 then 0 else octaveChange) := by
  by_cases c2 : octaveChange > 2 ∨ octaveChange < -2 <;>
  by_cases c3 : line = 1 ∨ line = 2 <;>
  simp [ClefMxlAnalyser.validate_clef, c2, c3]

theorem validate_clef_F (line octaveChange : Int) :
    (ClefMxlAnalyser.validate_clef ['F'] line octaveChange).sign = .k_clef_sign_F ∧
    (ClefMxlAnalyser.validate_clef ['F'] line octaveChange).m_line =
      (if line = 3 ∨ line = 4 ∨ line = 5 then line else 4) ∧
    (ClefMxlAnalyser.validate_clef ['F'] line octaveChange).m_octaveChange =
      (if octaveChange > 2 ∨ octaveChange < -2 ∨ line = 3 ∨ line = 5 then 0
        else octaveChange) := by
  by_cases c2 : octaveChange > 2 ∨ octaveChange < -2 <;>
  by_cases c3 : line = 4 <;>
  by_cases c4 : line = 3 ∨ line = 5 <;>
  by_cases c5 : octaveChange = 0 <;>
  simp [ClefMxlAnalyser.validate_clef, c2, c3, c4, c5]

theorem validate_clef_C (line octaveChange : Int) :
    (ClefMxlAnalyser.validate_clef ['C'] line octaveChange).sign = .k_clef_sign_C ∧
    (ClefMxlAnalyser.validate_clef ['C'] line octaveChange).m_line =
      (if line < 1 ∨ line > 5 then 1 else line) ∧
    (ClefMxlAnalyser.validate_clef ['C'] line octaveChange).m_octaveChange = 0 := by
  by_cases c1 : octaveChange = 0 <;>
  by_cases c3 : line < 1 ∨ line > 5 <;>
  simp [ClefMxlAnalyser.validate_clef, c1, c3]

theorem validate_clef_other (sign : List Char) (line octaveChange : Int)
    (hG : sign ≠ ['G']) (hF : sign ≠ ['F']) (hC : sign ≠ ['C']) :
    (ClefMxlAnalyser.validate_clef sign line octaveChange).sign =
      (if sign = ['p', 'e', 'r', 'c', 'u', 's', 's', 'i', 'o', 'n'] then
        .k_clef_sign_percussion
      else if sign = ['T', 'A', 'B'] then .k_clef_sign_TAB
      else if sign = ['n', 'o', 'n', 'e'] then .k_clef_sign_none
      else .k_clef_sign_G) ∧
    (ClefMxlAnalyser.validate_clef sign line octaveChange).m_line =
      (if sign = ['p', 'e', 'r', 'c', 'u', 's', 's', 'i', 'o', 'n'] ∨ sign = ['T', 'A', 'B'] ∨
        sign = ['n', 'o', 'n', 'e'] then 3 else 2) ∧
    (ClefMxlAnalyser.validate_clef sign line octaveChange).m_octaveChange = 0 := by
  by_cases c1 : octaveChange = 0 <;>
  by_cases c3 : sign = ['p', 'e', 'r', 'c', 'u', 's', 's', 'i', 'o', 'n'] <;>
  by_cases c4 : sign = ['T', 'A', 'B'] <;>
  by_cases c5 : sign = ['n', 'o', 'n', 'e'] <;>
  simp [ClefMxlAnalyser.validate_clef, hG, hF, hC, c1, c3, c4, c5]

/-! ## Facts about integers within a range -/

theorem get_child_pcdata_int_of_none (name : String) (number : List Char)
    (nMin nMax nDefault : Int) (h : extract_long number = none) :
    (MxlElementAnalyser.get_child_pcdata_int name number nMin nMax nDefault).1 = nDefault ∧
    (MxlElementAnalyser.get_child_pcdata_int name number nMin nMax nDefault).2.length = 1 := by
  simp [MxlElementAnalyser.get_child_pcdata_int, h]

theorem get_child_pcdata_int_out_of_range (name : String) (number : List Char)
    (nMin nMax nDefault v : Int) (h : extract_long number = some v)
    (hv : v < nMin ∨ nMax < v) :
    (MxlElementAnalyser.get_child_pcdata_int name number nMin nMax nDefault).1 = nDefault ∧
    (MxlElementAnalyser.get_child_pcdata_int name number nMin nMax nDefault).2.length = 1 := by
  have hv' : v < nMin ∨ v > nMax := hv
  simp [MxlElementAnalyser.get_child_pcdata_int, h, if_pos hv']

theorem get_child_pcdata_int_in_range (name : String) (number : List Char)
    (nMin nMax nDefault v : Int) (hMin : INT_MIN ≤ nMin) (hMax : nMax ≤ INT_MAX)
    (h : extract_long number = some v) (h1 : nMin ≤ v) (h2 : v ≤ nMax) :
    MxlElementAnalyser.get_child_pcdata_int name number nMin nMax nDefault = (v, []) := by
  have hv : ¬ (v < nMin ∨ v > nMax) := by omega
  simp only [MxlElementAnalyser.get_child_pcdata_int, h, if_neg hv]
  rw [long_to_int_of_int v (le_trans hMin h1) (le_trans h2 hMax)]

theorem get_child_pcdata_int_bounds (name : String) (number : List Char)
    (nMin nMax nDefault : Int) (hMin : INT_MIN ≤ nMin) (hMax : nMax ≤ INT_MAX) :
    (nMin ≤ (MxlElementAnalyser.get_child_pcdata_int name number nMin nMax nDefault).1 ∧
      (MxlElementAnalyser.get_child_pcdata_int name number nMin nMax nDefault).1 ≤ nMax) ∨
    (MxlElementAnalyser.get_child_pcdata_int name number nMin nMax nDefault).1 = nDefault := by
  cases h : extract_long number with
  | none => exact Or.inr (get_child_pcdata_int_of_none name number nMin nMax nDefault h).1
  | some v =>
    by_cases hv : v < nMin ∨ nMax < v
    · exact Or.inr
        (get_child_pcdata_int_out_of_range name number nMin nMax nDefault v h hv).1
    · left
      rw [get_child_pcdata_int_in_range name number nMin nMax nDefault v hMin hMax h
        (by omega) (by omega)]
      simp only
      omega

theorem get_child_pcdata_int_msgs (name : String) (number : List Char)
    (nMin nMax nDefault : Int) :
    (MxlElementAnalyser.get_child_pcdata_int name number nMin nMax nDefault).2 = [] ∨
    ((MxlElementAnalyser.get_child_pcdata_int name number nMin nMax nDefault).1 = nDefault ∧
      (MxlElementAnalyser.get_child_pcdata_int name number nMin nMax nDefault).2.length = 1) := by
  cases h : extract_long number with
  | none => exact Or.inr (get_child_pcdata_int_of_none name number nMin nMax nDefault h)
  | some v =>
    by_cases hv : v < nMin ∨ nMax < v
    · exact Or.inr (get_child_pcdata_int_out_of_range name number nMin nMax nDefault v h hv)
    · left
      have hv' : ¬ (v < nMin ∨ v > nMax) := hv
      simp only [MxlElementAnalyser.get_child_pcdata_int, h, if_neg hv']

/-! ## Facts about integers converted to an int -/

theorem get_child_value_integer_of_int (s nDefault : Int) (h1 : INT_MIN ≤ s)
    (h2 : s ≤ INT_MAX) : get_child_value_integer (some s) nDefault = (s, []) := by
  simp only [get_child_value_integer, get_child_value_long]
  rw [long_to_int_of_int s h1 h2]

/-- C1: for a voice `v > 0`, `move_time_as_required_by_voice` calls `insert_go_fwd` exactly
when the position recorded for `v` is strictly less than `m_curTime`, and with the length
`m_curTime` minus that position: in that case its result is the result of that call, every
state it returns has the call `(v, gap)` appended to the trace, and it does return when
there is no music data or `divisions >= 1` and the fuel covers the gap. When the recorded
position is not less (equal included) it returns with the trace and the music data
unchanged. For `v = 0` the state is returned unchanged. -/
theorem C1_move_time_requests_go_fwd (kq : ℚ) (fuel : Nat) (a : MxlAnalyser) (v staff : Int) :
    (v = 0 → MxlTimeKeeper.move_time_as_required_by_voice kq fuel a v staff = some a) ∧
    (0 < v → (a.m_timeKeeper.get_timepos_for_voice v).1 < a.m_timeKeeper.m_curTime →
      (∃ a0 : MxlAnalyser, a0.go_fwd_calls = a.go_fwd_calls ∧
        MxlTimeKeeper.move_time_as_required_by_voice kq fuel a v staff =
          (MxlAnalyser.insert_go_fwd kq fuel a0 v
            (a.m_timeKeeper.m_curTime - (a.m_timeKeeper.get_timepos_for_voice v).1)).map
            (fun a1 => MxlTimeKeeper.move_time_update kq a1 v)) ∧
      (∀ a', MxlTimeKeeper.move_time_as_required_by_voice kq fuel a v staff = some a' →
        a'.go_fwd_calls = a.go_fwd_calls ++
          [(v, a.m_timeKeeper.m_curTime - (a.m_timeKeeper.get_timepos_for_voice v).1)]) ∧
      ((a.m_currentMD = none ∨ 1 ≤ a.current_divisions) →
        (a.m_timeKeeper.m_curTime - (a.m_timeKeeper.get_timepos_for_voice v).1).toNat ≤ fuel →
        (MxlTimeKeeper.move_time_as_required_by_voice kq fuel a v staff).isSome)) ∧
    (0 < v → ¬ (a.m_timeKeeper.get_timepos_for_voice v).1 < a.m_timeKeeper.m_curTime →
      ∃ a', MxlTimeKeeper.move_time_as_required_by_voice kq fuel a v staff = some a' ∧
        a'.go_fwd_calls = a.go_fwd_calls ∧ a'.m_currentMD = a.m_currentMD) := by
  have hcur := get_timepos_for_voice_curTime a.m_timeKeeper v
  refine ⟨?_, ?_, ?_⟩
  · intro hv
    simp [MxlTimeKeeper.move_time_as_required_by_voice, hv]
  · intro hv hlt
    have hlt2 : (a.m_timeKeeper.get_timepos_for_voice v).1 <
        (a.m_timeKeeper.get_timepos_for_voice v).2.m_curTime := by rw [hcur]; exact hlt
    have heq : MxlTimeKeeper.move_time_as_required_by_voice kq fuel a v staff =
        (MxlAnalyser.insert_go_fwd kq fuel
          { a with m_timeKeeper :=
              { (a.m_timeKeeper.get_timepos_for_voice v).2 with
                m_curTime := (a.m_timeKeeper.get_timepos_for_voice v).1
                m_time := (a.m_timeKeeper.get_timepos_for_voice v).2.m_startTime +
                  MxlTimeKeeper.duration_to_time_units kq
                    { (a.m_timeKeeper.get_timepos_for_voice v).2 with
                      m_curTime := (a.m_timeKeeper.get_timepos_for_voice v).1 }
                    (a.m_timeKeeper.get_timepos_for_voice v).1 } } v
          (a.m_timeKeeper.m_curTime - (a.m_timeKeeper.get_timepos_for_voice v).1)).map
          (fun a1 => MxlTimeKeeper.move_time_update kq a1 v) := by
      simp only [MxlTimeKeeper.move_time_as_required_by_voice, gt_iff_lt, hv, if_true, hlt2,
        hcur, hlt]
    refine ⟨⟨_, ?_, heq⟩, ?_, ?_⟩
    · rfl
    · intro a' ha'
      rw [heq] at ha'
      obtain ⟨a1, h1, h2⟩ := Option.map_eq_some'.mp ha'
      have h3 := insert_go_fwd_calls kq fuel _ _ _ _ h1
      rw [← h2, move_time_update_calls]
      exact h3
    · intro hd hf
      rw [heq, Option.isSome_map']
      exact insert_go_fwd_isSome kq fuel _ _ _ hd (by omega) hf
  · intro hv hnlt
    have hnlt2 : ¬ (a.m_timeKeeper.get_timepos_for_voice v).1 <
        (a.m_timeKeeper.get_timepos_for_voice v).2.m_curTime := by rw [hcur]; exact hnlt
    simp only [MxlTimeKeeper.move_time_as_required_by_voice, gt_iff_lt, hv, if_true, hnlt2,
      if_false]
    split
    · exact ⟨_, rfl, rfl, rfl⟩
    · exact ⟨_, rfl, rfl, rfl⟩

/-- C1 at `sample_analyser`: voice 2 (recorded position 3, current position 8) gets the
call `insert_go_fwd(2, 5)`, and the function returns with fuel 5. -/
theorem C1_move_time_requests_go_fwd_witness :
    ((0 : Int) < 2 ∧
      (sample_analyser.m_timeKeeper.get_timepos_for_voice 2).1 <
        sample_analyser.m_timeKeeper.m_curTime) ∧
    (∀ a', MxlTimeKeeper.move_time_as_required_by_voice 64 5 sample_analyser 2 1 = some a' →
      a'.go_fwd_calls = sample_analyser.go_fwd_calls ++
        [(2, sample_analyser.m_timeKeeper.m_curTime -
          (sample_analyser.m_timeKeeper.get_timepos_for_voice 2).1)]) ∧
    (MxlTimeKeeper.move_time_as_required_by_voice 64 5 sample_analyser 2 1).isSome :=
  ⟨⟨by decide, by decide⟩,
    ((C1_move_time_requests_go_fwd 64 5 sample_analyser 2 1).2.1 (by decide) (by decide)).2.1,
    ((C1_move_time_requests_go_fwd 64 5 sample_analyser 2 1).2.1 (by decide) (by decide)).2.2
      (Or.inr (by decide)) (by decide)⟩

/-- C2: `backup_timepos(a)` sets the current time position to `max(0, c - a)`, which is
never negative, and sets the analyser's current voice to 0. It holds for every current
position `c`, in particular for `c >= 0`. -/
theorem C2_backup_timepos_clamps (kq : ℚ) (a : MxlAnalyser) (amount : Int) :
    (MxlTimeKeeper.backup_timepos kq a amount).m_timeKeeper.m_curTime =
      max 0 (a.m_timeKeeper.m_curTime - amount) ∧
    0 ≤ (MxlTimeKeeper.backup_timepos kq a amount).m_timeKeeper.m_curTime ∧
    (MxlTimeKeeper.backup_timepos kq a amount).m_curVoice = 0 := by
  refine ⟨backup_timepos_curTime kq a amount, ?_, rfl⟩
  rw [backup_timepos_curTime]
  exact le_max_left _ _

/-- C3: within a measure with `divisions >= 1`, when the current position is `p > 0` and
`backup_timepos(p)` has been called, `determine_voice_and_timepos(B, staff)` for a voice
`B > 0` without a recorded position returns `B`, calls `insert_go_fwd` not at all (trace and
music data unchanged), leaves the current position at 0 and gives `m_time = m_startTime`,
the start time of the measure; `B` gets the record 0. -/
theorem C3_new_voice_after_backup (kq : ℚ) (fuel : Nat) (a : MxlAnalyser) (p B staff : Int)
    (_hdiv : 1 ≤ a.m_timeKeeper.m_divisions) (_hp : 0 < p)
    (hcur : a.m_timeKeeper.m_curTime = p) (hB : 0 < B)
    (hnew : map_find a.m_timeKeeper.m_voiceTime B = none) :
    ∃ a', MxlTimeKeeper.determine_voice_and_timepos kq fuel
        (MxlTimeKeeper.backup_timepos kq a p) B staff = some (B, a') ∧
      a'.go_fwd_calls = a.go_fwd_calls ∧ a'.m_currentMD = a.m_currentMD ∧
      a'.m_timeKeeper.m_curTime = 0 ∧
      a'.m_timeKeeper.m_time = a'.m_timeKeeper.m_startTime ∧
      a'.m_timeKeeper.m_startTime = a.m_timeKeeper.m_startTime ∧
      map_find a'.m_timeKeeper.m_voiceTime B = some 0 := by
  have hB0 : ¬ B = 0 := by omega
  have hc : (MxlTimeKeeper.backup_timepos kq a p).m_timeKeeper.m_curTime = 0 := by
    rw [backup_timepos_curTime, hcur]; simp
  have hn : map_find (MxlTimeKeeper.backup_timepos kq a p).m_timeKeeper.m_voiceTime B = none := by
    rw [backup_timepos_voiceTime]; exact hnew
  have hs := backup_timepos_startTime kq a p
  have hcalls : (MxlTimeKeeper.backup_timepos kq a p).go_fwd_calls = a.go_fwd_calls := rfl
  have hmd : (MxlTimeKeeper.backup_timepos kq a p).m_currentMD = a.m_currentMD := rfl
  generalize MxlTimeKeeper.backup_timepos kq a p = b at hc hn hs hcalls hmd ⊢
  simp only [MxlTimeKeeper.determine_voice_and_timepos, hB0, if_false,
    get_timepos_for_voice_of_none _ _ hn, if_true]
  rw [move_time_in_sequence kq fuel _ B staff hB (by simp [map_find_map_set_self, hc])]
  refine ⟨_, rfl, hcalls, hmd, hc, ?_, hs, ?_⟩
  · simp [MxlTimeKeeper.move_time_update, hc, duration_to_time_units_zero]
  · simp [MxlTimeKeeper.move_time_update, hc, map_find_map_set_self]

/-- C3 at `sample_analyser` (voice 1 has advanced the current position to 8): after
`backup_timepos(8)`, voice 3 is placed at the start time of the measure, without filler. -/
theorem C3_new_voice_after_backup_witness :
    ∃ a', MxlTimeKeeper.determine_voice_and_timepos 64 0
        (MxlTimeKeeper.backup_timepos 64 sample_analyser 8) 3 2 = some (3, a') ∧
      a'.go_fwd_calls = sample_analyser.go_fwd_calls ∧
      a'.m_currentMD = sample_analyser.m_currentMD ∧
      a'.m_timeKeeper.m_curTime = 0 ∧
      a'.m_timeKeeper.m_time = a'.m_timeKeeper.m_startTime ∧
      a'.m_timeKeeper.m_startTime = sample_analyser.m_timeKeeper.m_startTime ∧
      map_find a'.m_timeKeeper.m_voiceTime 3 = some 0 :=
  C3_new_voice_after_backup 64 0 sample_analyser 8 3 2 (by decide) (by decide) (by decide)
    (by decide) (by decide)

/-- C4, counterexample: in `sample_analyser` after `backup_timepos(8)` the current position
is 0 and voice 1 is recorded at 8, ahead by a gap of 8; `move_time_as_required_by_voice(1)`
returns with the trace of `insert_go_fwd` calls and the music data unchanged: no filler. -/
theorem C4_counterexample :
    (MxlTimeKeeper.backup_timepos 64 sample_analyser 8).m_timeKeeper.m_curTime <
      ((MxlTimeKeeper.backup_timepos 64 sample_analyser 8).m_timeKeeper.get_timepos_for_voice
        1).1 ∧
    ∃ a', MxlTimeKeeper.move_time_as_required_by_voice 64 8
        (MxlTimeKeeper.backup_timepos 64 sample_analyser 8) 1 1 = some a' ∧
      a'.go_fwd_calls = (MxlTimeKeeper.backup_timepos 64 sample_analyser 8).go_fwd_calls ∧
      a'.m_currentMD = (MxlTimeKeeper.backup_timepos 64 sample_analyser 8).m_currentMD := by
  refine ⟨by decide, ?_⟩
  rw [move_time_ahead 64 8 _ 1 1 8 (by decide) (by decide) (by decide)]
  exact ⟨_, rfl, rfl, rfl⟩

/-- C4, amended: when the position recorded for a voice `v > 0` is ahead of the current
position, `move_time_as_required_by_voice` records no filler (the trace of `insert_go_fwd`
calls and the music data are unchanged); it advances the current position to the voice's
recorded position, which stays the voice's record. -/
theorem C4_voice_ahead_no_filler (kq : ℚ) (fuel : Nat) (a : MxlAnalyser) (v staff : Int)
    (hv : 0 < v)
    (hahead : a.m_timeKeeper.m_curTime < (a.m_timeKeeper.get_timepos_for_voice v).1) :
    ∃ a', MxlTimeKeeper.move_time_as_required_by_voice kq fuel a v staff = some a' ∧
      a'.go_fwd_calls = a.go_fwd_calls ∧ a'.m_currentMD = a.m_currentMD ∧
      a'.m_timeKeeper.m_curTime = (a.m_timeKeeper.get_timepos_for_voice v).1 ∧
      map_find a'.m_timeKeeper.m_voiceTime v =
        some (a.m_timeKeeper.get_timepos_for_voice v).1 := by
  cases h : map_find a.m_timeKeeper.m_voiceTime v with
  | none =>
    rw [get_timepos_for_voice_of_none _ _ h] at hahead
    have hneg : a.m_timeKeeper.m_curTime < 0 := hahead
    have h0 : ¬ (0 : Int) < a.m_timeKeeper.m_curTime := by omega
    have h1 : ¬ (0 : Int) = a.m_timeKeeper.m_curTime := by omega
    simp only [MxlTimeKeeper.move_time_as_required_by_voice, gt_iff_lt, hv, if_true,
      get_timepos_for_voice_of_none _ _ h, h0, h1, if_false]
    exact ⟨_, rfl, rfl, rfl, rfl, by simp [MxlTimeKeeper.move_time_update, map_find_map_set_self]⟩
  | some t =>
    rw [get_timepos_for_voice_of_some _ _ _ h] at hahead ⊢
    rw [move_time_ahead kq fuel a v staff t hv h hahead]
    exact ⟨_, rfl, rfl, rfl, rfl, by simp [MxlTimeKeeper.move_time_update, map_find_map_set_self]⟩

/-- C4 amended, at `sample_analyser` after `backup_timepos(8)` and voice 1. -/
theorem C4_voice_ahead_no_filler_witness :
    ∃ a', MxlTimeKeeper.move_time_as_required_by_voice 64 0
        (MxlTimeKeeper.backup_timepos 64 sample_analyser 8) 1 1 = some a' ∧
      a'.go_fwd_calls = (MxlTimeKeeper.backup_timepos 64 sample_analyser 8).go_fwd_calls ∧
      a'.m_currentMD = (MxlTimeKeeper.backup_timepos 64 sample_analyser 8).m_currentMD ∧
      a'.m_timeKeeper.m_curTime =
        ((MxlTimeKeeper.backup_timepos 64 sample_analyser 8).m_timeKeeper.get_timepos_for_voice
          1).1 ∧
      map_find a'.m_timeKeeper.m_voiceTime 1 =
        some ((MxlTimeKeeper.backup_timepos 64 sample_analyser
          8).m_timeKeeper.get_timepos_for_voice 1).1 :=
  C4_voice_ahead_no_filler 64 0 (MxlTimeKeeper.backup_timepos 64 sample_analyser 8) 1 1
    (by decide) (by decide)

/-- C7, failing input: from any state brought to `full_reset`, the one-operation sequence
`forward_timepos(-1, 0, 0)` (a `<forward>` whose `<duration>` is -1) returns with the
current time position at -1, a negative time: unlike `backup_timepos` and
`increment_time`, `forward_timepos` does not stop at 0. What does hold is
`apply_ops_nonneg`: recorded per-voice positions are never negative, and the current
position is never negative when no `forward_timepos` gets a negative amount. -/
theorem C7_forward_timepos_negative (kq : ℚ) (fuel : Nat) (a : MxlAnalyser) :
    ∃ a', apply_ops kq fuel { a with m_timeKeeper := a.m_timeKeeper.full_reset }
        [.forward_timepos (-1) 0 0] = some a' ∧
      a'.m_timeKeeper.m_curTime = -1 ∧ a'.m_timeKeeper.m_curTime < 0 := by
  refine ⟨_, rfl, ?_, ?_⟩ <;>
    simp [MxlTimeKeeper.forward_timepos, MxlTimeKeeper.full_reset,
      MxlTimeKeeper.reset_for_new_measure]

/-! ## Claims about staff numbers -/

/-- C5, counterexample: for an instrument with 2 staves the `<staff>` value 3 is replaced
by 1, not by the nearest valid staff number 2; and the `<staff>` value 4294967298, which
does not fit in an `int`, is read as 2 (its low 32 bits), kept, and nothing is reported. -/
theorem C5_counterexample :
    (NoteRestMxlAnalyser.set_staff (some 3) (some 2)).iStaff = 1 ∧
    (NoteRestMxlAnalyser.set_staff (some 3) (some 2)).iStaff ≠ 2 ∧
    (NoteRestMxlAnalyser.set_staff (some 4294967298) (some 2)).iStaff = 2 ∧
    (NoteRestMxlAnalyser.set_staff (some 4294967298) (some 2)).msgs = [] := by
  decide

/-- C5, amended: for an instrument with `n >= 1` staves and a `<staff>` value `s` that
fits in an `int`, `set_staff` replaces `s` by 1 when it is outside `1..n` (when `s < 1`
and also when `s > n`) and reports one diagnostic; a value inside `1..n` is kept and
nothing is reported; the note's staff index is the resulting number minus 1. -/
theorem C5_set_staff_replaces_by_one (n s : Int) (_hn : 1 ≤ n) (hs1 : INT_MIN ≤ s)
    (hs2 : s ≤ INT_MAX) :
    ((s < 1 ∨ n < s) →
      (NoteRestMxlAnalyser.set_staff (some s) (some n)).iStaff = 1 ∧
      (NoteRestMxlAnalyser.set_staff (some s) (some n)).msgs.length = 1) ∧
    ((1 ≤ s ∧ s ≤ n) →
      (NoteRestMxlAnalyser.set_staff (some s) (some n)).iStaff = s ∧
      (NoteRestMxlAnalyser.set_staff (some s) (some n)).msgs = []) ∧
    (NoteRestMxlAnalyser.set_staff (some s) (some n)).noteStaff =
      (NoteRestMxlAnalyser.set_staff (some s) (some n)).iStaff - 1 := by
  simp only [NoteRestMxlAnalyser.set_staff, get_child_value_integer_of_int s 1 hs1 hs2]
  refine ⟨?_, ?_, ?_⟩
  · intro h
    rw [if_pos h]
    exact ⟨rfl, rfl⟩
  · intro h
    have h' : ¬ (s < 1 ∨ n < s) := by omega
    rw [if_neg h']
    exact ⟨rfl, rfl⟩
  · split <;> rfl

/-- C5 amended, for 2 staves and the values 3 (replaced by 1) and 2 (kept). -/
theorem C5_set_staff_replaces_by_one_witness :
    ((NoteRestMxlAnalyser.set_staff (some 3) (some 2)).iStaff = 1 ∧
      (NoteRestMxlAnalyser.set_staff (some 3) (some 2)).msgs.length = 1) ∧
    ((NoteRestMxlAnalyser.set_staff (some 2) (some 2)).iStaff = 2 ∧
      (NoteRestMxlAnalyser.set_staff (some 2) (some 2)).msgs = []) :=
  ⟨(C5_set_staff_replaces_by_one 2 3 (by decide) (by decide) (by decide)).1 (by decide),
    (C5_set_staff_replaces_by_one 2 2 (by decide) (by decide) (by decide)).2.1 (by decide)⟩

/-- C8, failing input: the locator `a#zip:x` (path `a`, inner path `x` of one character)
is valid with inner protocol zip, but its inner path is empty instead of `x`: the test
`i < iMax - 2` asks for two characters after the colon. For inner paths of two characters
or more `construct_zip_locator` gives what the claim says. -/
theorem C8_one_char_inner_path_lost :
    (DocLocator.construct ['a', '#', 'z', 'i', 'p', ':', 'x']).m_fValid = true ∧
    (DocLocator.construct ['a', '#', 'z', 'i', 'p', ':', 'x']).m_path = ['a'] ∧
    (DocLocator.construct ['a', '#', 'z', 'i', 'p', ':', 'x']).m_innerProtocol = .k_zip ∧
    (DocLocator.construct ['a', '#', 'z', 'i', 'p', ':', 'x']).m_innerPath = [] ∧
    (DocLocator.construct ['a', '#', 'z', 'i', 'p', ':', 'x']).m_innerPath ≠ ['x'] := by
  decide

/-- C9: for a locator `L` without `#`: when `L` is `file:` followed by `P`, the protocol is
file and the path is `P`; when the text before the first `:` of `L` is `string`, the
protocol is string; otherwise the protocol is file and the path is the whole of `L`. In
all these cases the locator is valid, the inner protocol is none and the inner path and
the inner file are empty. -/
theorem C9_locator_without_sharp (L : List Char) (h : '#' ∉ L) :
    (∀ P, L = ['f', 'i', 'l', 'e', ':'] ++ P →
      (DocLocator.construct L).m_protocol = .k_file ∧ (DocLocator.construct L).m_path = P) ∧
    ((':' ∈ L ∧ L.takeWhile (fun x => x != ':') = ['s', 't', 'r', 'i', 'n', 'g']) →
      (DocLocator.construct L).m_protocol = .k_string) ∧
    ((¬ ∃ P, L = ['f', 'i', 'l', 'e', ':'] ++ P) →
      ¬ (':' ∈ L ∧ L.takeWhile (fun x => x != ':') = ['s', 't', 'r', 'i', 'n', 'g']) →
      (DocLocator.construct L).m_protocol = .k_file ∧ (DocLocator.construct L).m_path = L) ∧
    (DocLocator.construct L).m_fValid = true ∧
    (DocLocator.construct L).m_innerProtocol = .k_none ∧
    (DocLocator.construct L).m_innerPath = [] ∧
    (DocLocator.construct L).m_innerFile = [] := by
  by_cases hs : ':' ∈ L ∧ L.takeWhile (fun x => x != ':') = ['s', 't', 'r', 'i', 'n', 'g']
  · have e : DocLocator.construct L =
        { m_fullLocator := L, m_protocol := .k_string, m_innerProtocol := .k_none,
          m_path := [], m_innerPath := [], m_innerFile := [], m_fValid := true } := by
      unfold DocLocator.construct
      simp only [split_locator_string _ L hs]
      exact extract_file_of_empty _ rfl
    rw [e]
    refine ⟨?_, fun _ => rfl, fun _ hn => absurd hs hn, rfl, rfl, rfl, rfl⟩
    intro P hP
    exfalso
    have h2 := hs.2
    rw [hP] at h2
    have e2 : ['f', 'i', 'l', 'e', ':'] ++ P = ['f', 'i', 'l', 'e'] ++ ':' :: P := by simp
    rw [e2, takeWhile_ne_decomp _ P ':' (by decide)] at h2
    exact absurd h2 (by decide)
  · have e : DocLocator.construct L =
        { m_fullLocator := L, m_protocol := .k_file, m_innerProtocol := .k_none,
          m_path :=
            if (if ':' ∈ L ∧ L.takeWhile (fun x => x != ':') = ['f', 'i', 'l', 'e']
                then str_find L ':' + 1 else 0) > 0
            then substr L (if ':' ∈ L ∧ L.takeWhile (fun x => x != ':') = ['f', 'i', 'l', 'e']
                then str_find L ':' + 1 else 0)
            else L,
          m_innerPath := [], m_innerFile := [], m_fValid := true } := by
      unfold DocLocator.construct
      simp only [split_locator_not_string _ L hs, split_locator_inner_no_sharp _ L _ h]
      exact extract_file_of_empty _ rfl
    rw [e]
    refine ⟨?_, fun hh => absurd hh hs, ?_, rfl, rfl, rfl, rfl⟩
    · intro P hP
      refine ⟨rfl, ?_⟩
      have e2 : ['f', 'i', 'l', 'e', ':'] ++ P = ['f', 'i', 'l', 'e'] ++ ':' :: P := by simp
      have hm : ':' ∈ L := by rw [hP]; simp
      have htw : L.takeWhile (fun x => x != ':') = ['f', 'i', 'l', 'e'] := by
        rw [hP, e2, takeWhile_ne_decomp _ P ':' (by decide)]
      have hf : str_find L ':' = 4 := by
        rw [hP, e2, str_find_decomp _ P ':' (by decide)]; rfl
      simp only [hm, htw, and_self, if_true, hf]
      rw [if_pos (by decide), hP]
      exact substr_after ['f', 'i', 'l', 'e', ':'] P _ rfl
    · intro hnf _
      refine ⟨rfl, ?_⟩
      have hc : ¬ (':' ∈ L ∧ L.takeWhile (fun x => x != ':') = ['f', 'i', 'l', 'e']) := by
        rintro ⟨hm, htw⟩
        obtain ⟨A, B, hl, hA⟩ := List.eq_append_cons_of_mem hm
        rw [hl, takeWhile_ne_decomp A B ':' hA] at htw
        exact hnf ⟨B, by rw [hl, htw]; simp⟩
      simp only [hc, if_false]
      rw [if_neg (by decide)]

/-- C9 for the locators `file:a`, `string:a` and `c:a`. -/
theorem C9_locator_without_sharp_witness :
    ((DocLocator.construct ['f', 'i', 'l', 'e', ':', 'a']).m_protocol = .k_file ∧
      (DocLocator.construct ['f', 'i', 'l', 'e', ':', 'a']).m_path = ['a']) ∧
    (DocLocator.construct ['s', 't', 'r', 'i', 'n', 'g', ':', 'a']).m_protocol = .k_string ∧
    ((DocLocator.construct ['c', ':', 'a']).m_protocol = .k_file ∧
      (DocLocator.construct ['c', ':', 'a']).m_path = ['c', ':', 'a']) :=
  ⟨(C9_locator_without_sharp ['f', 'i', 'l', 'e', ':', 'a'] (by decide)).1 ['a'] rfl,
    (C9_locator_without_sharp ['s', 't', 'r', 'i', 'n', 'g', ':', 'a'] (by decide)).2.1
      (by decide),
    (C9_locator_without_sharp ['c', ':', 'a'] (by decide)).2.2.1
      (by rintro ⟨P, hP⟩; exact absurd hP (by simp)) (by decide)⟩

/-- C10: `DocLocator(L)` is invalid exactly when `L` is not a string-protocol locator (the
text before its first `:` is not `string`) and `L` contains a `#` with no `:` from the
first `#` on; every other string, the empty string among them, gives a valid locator. -/
theorem C10_invalid_iff (L : List Char) :
    ((DocLocator.construct L).m_fValid = false ↔
      (¬ (':' ∈ L ∧ L.takeWhile (fun x => x != ':') = ['s', 't', 'r', 'i', 'n', 'g']) ∧
        '#' ∈ L ∧ ':' ∉ L.dropWhile (fun x => x != '#'))) ∧
    (DocLocator.construct []).m_fValid = true := by
  refine ⟨?_, by decide⟩
  unfold DocLocator.construct
  rw [extract_file_valid]
  by_cases hs : ':' ∈ L ∧ L.takeWhile (fun x => x != ':') = ['s', 't', 'r', 'i', 'n', 'g']
  · rw [split_locator_string _ L hs]
    exact iff_of_false (by simp) (fun hh => hh.1 hs)
  · rw [split_locator_not_string _ L hs]
    by_cases hsh : '#' ∈ L
    · obtain ⟨A, B, hl, hA⟩ := List.eq_append_cons_of_mem hsh
      subst hl
      rw [dropWhile_ne_decomp A B '#' hA]
      by_cases hc : ':' ∈ B
      · obtain ⟨C, Q, hb, hC⟩ := List.eq_append_cons_of_mem hc
        subst hb
        rw [split_locator_inner_colon _ A C Q _ hA hC]
        exact iff_of_false (by simp) (fun hh => hh.2.2 (List.mem_cons_of_mem _ hc))
      · rw [split_locator_inner_no_colon _ A B _ hA hc]
        refine iff_of_true rfl ⟨hs, hsh, ?_⟩
        intro hm
        rcases List.mem_cons.mp hm with h1 | h1
        · exact absurd h1 (by decide)
        · exact hc h1
    · rw [split_locator_inner_no_sharp _ L _ hsh]
      exact iff_of_false (by simp) (fun hh => hsh hh.2.1)

/-- C11, failing input: the locator `a#zip:x` does not start with `file:` or `string:` and
has the form `P#zip:Q` with `P` free of `#`, but `get_locator_string` returns `a#zip:`, not
the locator: the inner path of one character was dropped by `split_locator`. For locators
without `#` and for inner paths of any other length the round trip holds
(`locator_round_trip_no_sharp`, `locator_round_trip_zip`). -/
theorem C11_round_trip_one_char_inner_path :
    (DocLocator.construct ['a', '#', 'z', 'i', 'p', ':', 'x']).get_locator_string =
      ['a', '#', 'z', 'i', 'p', ':'] ∧
    (DocLocator.construct ['a', '#', 'z', 'i', 'p', ':', 'x']).get_locator_string ≠
      ['a', '#', 'z', 'i', 'p', ':', 'x'] := by
  decide

/-! ## Claims about ending numbers -/

/-- C12: every text accepted by the pattern of the MusicXML schema for ending numbers is
accepted by `mxl_is_valid_ending_number`, which also accepts `1,2` and `1, 2 ` and, in
general, numerals separated by a comma and any number of blank spaces, with any number of
blank spaces at the end; `1, 2 ` is not accepted by the schema's pattern. -/
theorem C12_schema_pattern_accepted :
    (∀ num : List Char, regexXsdEndingNumber.rmatch num = true →
      mxl_is_valid_ending_number num = true) ∧
    mxl_is_valid_ending_number ['1', ',', '2'] = true ∧
    mxl_is_valid_ending_number ['1', ',', ' ', '2', ' '] = true ∧
    (∀ (first : List Char) (more : List (Nat × List Char)) (trailing : Nat),
      is_ending_numeral first = true → (∀ p ∈ more, is_ending_numeral p.2 = true) →
      mxl_is_valid_ending_number (ending_number_text first more trailing) = true) ∧
    regexXsdEndingNumber.rmatch ['1', ',', ' ', '2', ' '] = false := by
  refine ⟨?_, by decide, by decide, ending_number_text_valid, by decide⟩
  intro num h
  rw [mxl_is_valid_ending_number, RegularExpression.rmatch_iff_matches']
  exact xsd_le_valid ((RegularExpression.rmatch_iff_matches' _ _).mp h)

/-- C12 for the text `1, 2`, which the schema's pattern accepts. -/
theorem C12_schema_pattern_accepted_witness :
    regexXsdEndingNumber.rmatch ['1', ',', ' ', '2'] = true ∧
    mxl_is_valid_ending_number ['1', ',', ' ', '2'] = true :=
  ⟨by decide, C12_schema_pattern_accepted.1 ['1', ',', ' ', '2'] (by decide)⟩

/-- C13: for an ending number that lists the numerals `first` and those of `more` (each a
digit from 1 to 9 followed by digits, each fitting in an `int`), with any blank spaces
after the commas and at the end, the text is accepted by `mxl_is_valid_ending_number` and
`mxl_extract_numbers_from_ending` appends exactly the numbers listed, in order of
appearance, to the vector. By `valid_ending_number_cases` every accepted text that is not
blank has this form. -/
theorem C13_extract_numbers (first : List Char) (more : List (Nat × List Char))
    (trailing : Nat) (repetitions : List Int) (h1 : is_ending_numeral first = true)
    (h2 : ∀ p ∈ more, is_ending_numeral p.2 = true)
    (hb1 : (decimal_value first : Int) ≤ INT_MAX)
    (hb2 : ∀ p ∈ more, (decimal_value p.2 : Int) ≤ INT_MAX) :
    mxl_is_valid_ending_number (ending_number_text first more trailing) = true ∧
    mxl_extract_numbers_from_ending (ending_number_text first more trailing) repetitions =
      some (repetitions ++
        (first :: more.map Prod.snd).map (fun d => (decimal_value d : Int))) := by
  refine ⟨ending_number_text_valid first more trailing h1 h2, ?_⟩
  rw [mxl_extract_numbers_from_ending, digit_runs_ending_number_text first more trailing h1 h2]
  apply push_back_matches_in_range
  intro r hr
  rcases List.mem_cons.mp hr with hr | hr
  · rw [hr]; exact hb1
  · obtain ⟨p, hp, hpr⟩ := List.mem_map.mp hr
    rw [← hpr]; exact hb2 p hp

/-- C13 for the text `1, 2, 3`, which gives the numbers 1, 2, 3. -/
theorem C13_extract_numbers_witness :
    ending_number_text ['1'] [(1, ['2']), (1, ['3'])] 0 =
      ['1', ',', ' ', '2', ',', ' ', '3'] ∧
    mxl_is_valid_ending_number (ending_number_text ['1'] [(1, ['2']), (1, ['3'])] 0) = true ∧
    mxl_extract_numbers_from_ending (ending_number_text ['1'] [(1, ['2']), (1, ['3'])] 0) [] =
      some ([] ++ (['1'] :: [(1, ['2']), (1, ['3'])].map Prod.snd).map
        (fun d => (decimal_value d : Int))) :=
  ⟨by decide,
    C13_extract_numbers ['1'] [(1, ['2']), (1, ['3'])] 0 [] (by decide) (by decide)
      (by decide) (by decide)⟩

/-! ## Claims about repetition marks -/

/-- C14: `mxl_type_of_repetion_mark` gives the same result for a text and for the text in
lower case. With any number of blank spaces before the words, between them and after
them, and the letters in any case: `D.C.` and `Da Capo` give da-capo, followed by `al Fine`
or `al Coda` they give da-capo-al-fine or da-capo-al-coda; `D.S.`, `Dal Segno` and
`Del Segno` give dal-segno, followed by `al Fine` or `al Coda` they give dal-segno-al-fine
or dal-segno-al-coda; `Fine` gives fine; `To Coda` gives to-coda; a text whose lower case
form matches none of the eight patterns gives `k_repeat_none`. -/
theorem C14_repetition_marks :
    (∀ value : List Char,
      mxl_type_of_repetion_mark value = mxl_type_of_repetion_mark (value.map tolower)) ∧
    (∀ p ∈ da_capo_words, ∀ (value : List Char) (lead : Nat) (gaps : List Nat),
      value.map tolower = spaces lead ++ spaced_words p gaps →
      mxl_type_of_repetion_mark value = .k_repeat_da_capo) ∧
    (∀ p ∈ da_capo_words, ∀ (value : List Char) (lead : Nat) (gaps : List Nat),
      value.map tolower = spaces lead ++ spaced_words (p ++ al_fine_words) gaps →
      mxl_type_of_repetion_mark value = .k_repeat_da_capo_al_fine) ∧
    (∀ p ∈ da_capo_words, ∀ (value : List Char) (lead : Nat) (gaps : List Nat),
      value.map tolower = spaces lead ++ spaced_words (p ++ al_coda_words) gaps →
      mxl_type_of_repetion_mark value = .k_repeat_da_capo_al_coda) ∧
    (∀ p ∈ dal_segno_words, ∀ (value : List Char) (lead : Nat) (gaps : List Nat),
      value.map tolower = spaces lead ++ spaced_words p gaps →
      mxl_type_of_repetion_mark value = .k_repeat_dal_segno) ∧
    (∀ p ∈ dal_segno_words, ∀ (value : List Char) (lead : Nat) (gaps : List Nat),
      value.map tolower = spaces lead ++ spaced_words (p ++ al_fine_words) gaps →
      mxl_type_of_repetion_mark value = .k_repeat_dal_segno_al_fine) ∧
    (∀ p ∈ dal_segno_words, ∀ (value : List Char) (lead : Nat) (gaps : List Nat),
      value.map tolower = spaces lead ++ spaced_words (p ++ al_coda_words) gaps →
      mxl_type_of_repetion_mark value = .k_repeat_dal_segno_al_coda) ∧
    (∀ (value : List Char) (lead : Nat) (gaps : List Nat),
      value.map tolower = spaces lead ++ spaced_words [['f', 'i', 'n', 'e']] gaps →
      mxl_type_of_repetion_mark value = .k_repeat_fine) ∧
    (∀ (value : List Char) (lead : Nat) (gaps : List Nat),
      value.map tolower = spaces lead ++ spaced_words [['t', 'o'], ['c', 'o', 'd', 'a']] gaps →
      mxl_type_of_repetion_mark value = .k_repeat_to_coda) ∧
    (∀ value : List Char,
      regexDaCapo.rmatch (value.map tolower) = false →
      regexDaCapoAlFine.rmatch (value.map tolower) = false →
      regexDaCapoAlCoda.rmatch (value.map tolower) = false →
      regexDalSegno.rmatch (value.map tolower) = false →
      regexDalSegnoAlFine.rmatch (value.map tolower) = false →
      regexDalSegnoAlCoda.rmatch (value.map tolower) = false →
      regexFine.rmatch (value.map tolower) = false →
      regexToCoda.rmatch (value.map tolower) = false →
      mxl_type_of_repetion_mark value = .k_repeat_none) := by
  refine ⟨?_, ?_, ?_, ?_, ?_, ?_, ?_, ?_, ?_, ?_⟩
  · intro value
    have e : (value.map tolower).map tolower = value.map tolower := by
      rw [List.map_map]
      exact List.map_congr_left (fun c _ => tolower_idem c)
    simp only [mxl_type_of_repetion_mark, e]
  · intro p hp value lead gaps h
    simp only [da_capo_words, List.mem_cons, List.mem_singleton, List.not_mem_nil, or_false] at hp
    rcases hp with rfl | rfl
    · exact repetion_mark_da_capo value _ h
        (spaced_rmatch_inl [re_lit ['d'] + re_lit ['d', '.'], re_lit ['c'] + re_lit ['c', '.']] _ _
          (by decide) lead gaps)
    · exact repetion_mark_da_capo value _ h
        (spaced_rmatch_inr [re_lit ['d', 'a'], re_lit ['c', 'a', 'p', 'o']] _ _
          (by decide) lead gaps)
  · intro p hp value lead gaps h
    simp only [da_capo_words, List.mem_cons, List.mem_singleton, List.not_mem_nil, or_false] at hp
    rcases hp with rfl | rfl
    · exact repetion_mark_da_capo_al_fine value _ h
        (excluded_rmatch _ _ (by decide) lead gaps)
        (spaced_rmatch_inl [re_lit ['d'] + re_lit ['d', '.'], re_lit ['c'] + re_lit ['c', '.'], re_lit ['a', 'l'], re_lit ['f', 'i', 'n', 'e']] _ _
          (by decide) lead gaps)
    · exact repetion_mark_da_capo_al_fine value _ h
        (excluded_rmatch _ _ (by decide) lead gaps)
        (spaced_rmatch_inr [re_lit ['d', 'a'], re_lit ['c', 'a', 'p', 'o'], re_lit ['a', 'l'], re_lit ['f', 'i', 'n', 'e']] _ _
          (by decide) lead gaps)
  · intro p hp value lead gaps h
    simp only [da_capo_words, List.mem_cons, List.mem_singleton, List.not_mem_nil, or_false] at hp
    rcases hp with rfl | rfl
    · exact repetion_mark_da_capo_al_coda value _ h
        (excluded_rmatch _ _ (by decide) lead gaps)
        (excluded_rmatch _ _ (by decide) lead gaps)
        (spaced_rmatch_inl [re_lit ['d'] + re_lit ['d', '.'], re_lit ['c'] + re_lit ['c', '.'], re_lit ['a', 'l'], re_lit ['c', 'o', 'd', 'a']] _ _
          (by decide) lead gaps)
    · exact repetion_mark_da_capo_al_coda value _ h
        (excluded_rmatch _ _ (by decide) lead gaps)
        (excluded_rmatch _ _ (by decide) lead gaps)
        (spaced_rmatch_inr [re_lit ['d', 'a'], re_lit ['c', 'a', 'p', 'o'], re_lit ['a', 'l'], re_lit ['c', 'o', 'd', 'a']] _ _
          (by decide) lead gaps)
  · intro p hp value lead gaps h
    simp only [dal_segno_words, List.mem_cons, List.mem_singleton, List.not_mem_nil, or_false] at hp
    rcases hp with rfl | rfl | rfl
    · exact repetion_mark_dal_segno value _ h
        (excluded_rmatch _ _ (by decide) lead gaps)
        (excluded_rmatch _ _ (by decide) lead gaps)
        (excluded_rmatch _ _ (by decide) lead gaps)
        (spaced_rmatch_inl [re_lit ['d'] + re_lit ['d', '.'], re_lit ['s'] + re_lit ['s', '.']] _ _
          (by decide) lead gaps)
    · exact repetion_mark_dal_segno value _ h
        (excluded_rmatch _ _ (by decide) lead gaps)
        (excluded_rmatch _ _ (by decide) lead gaps)
        (excluded_rmatch _ _ (by decide) lead gaps)
        (spaced_rmatch_inr [re_cat [re_lit ['d'], re_lit ['a'] + re_lit ['e'], re_lit ['l']], re_lit ['s', 'e', 'g', 'n', 'o']] _ _
          (by decide) lead gaps)
    · exact repetion_mark_dal_segno value _ h
        (excluded_rmatch _ _ (by decide) lead gaps)
        (excluded_rmatch _ _ (by decide) lead gaps)
        (excluded_rmatch _ _ (by decide) lead gaps)
        (spaced_rmatch_inr [re_cat [re_lit ['d'], re_lit ['a'] + re_lit ['e'], re_lit ['l']], re_lit ['s', 'e', 'g', 'n', 'o']] _ _
          (by decide) lead gaps)
  · intro p hp value lead gaps h
    simp only [dal_segno_words, List.mem_cons, List.mem_singleton, List.not_mem_nil, or_false] at hp
    rcases hp with rfl | rfl | rfl
    · exact repetion_mark_dal_segno_al_fine value _ h
        (excluded_rmatch _ _ (by decide) lead gaps)
        (excluded_rmatch _ _ (by decide) lead gaps)
        (excluded_rmatch _ _ (by decide) lead gaps)
        (excluded_rmatch _ _ (by decide) lead gaps)
        (spaced_rmatch_inl [re_lit ['d'] + re_lit ['d', '.'], re_lit ['s'] + re_lit ['s', '.'], re_lit ['a', 'l'], re_lit ['f', 'i', 'n', 'e']] _ _
          (by decide) lead gaps)
    · exact repetion_mark_dal_segno_al_fine value _ h
        (excluded_rmatch _ _ (by decide) lead gaps)
        (excluded_rmatch _ _ (by decide) lead gaps)
        (excluded_rmatch _ _ (by decide) lead gaps)
        (excluded_rmatch _ _ (by decide) lead gaps)
        (spaced_rmatch_inr [re_cat [re_lit ['d'], re_lit ['a'] + re_lit ['e'], re_lit ['l']], re_lit ['s', 'e', 'g', 'n', 'o'], re_lit ['a', 'l'], re_lit ['f', 'i', 'n', 'e']] _ _
          (by decide) lead gaps)
    · exact repetion_mark_dal_segno_al_fine value _ h
        (excluded_rmatch _ _ (by decide) lead gaps)
        (excluded_rmatch _ _ (by decide) lead gaps)
        (excluded_rmatch _ _ (by decide) lead gaps)
        (excluded_rmatch _ _ (by decide) lead gaps)
        (spaced_rmatch_inr [re_cat [re_lit ['d'], re_lit ['a'] + re_lit ['e'], re_lit ['l']], re_lit ['s', 'e', 'g', 'n', 'o'], re_lit ['a', 'l'], re_lit ['f', 'i', 'n', 'e']] _ _
          (by decide) lead gaps)
  · intro p hp value lead gaps h
    simp only [dal_segno_words, List.mem_cons, List.mem_singleton, List.not_mem_nil, or_false] at hp
    rcases hp with rfl | rfl | rfl
    · exact repetion_mark_dal_segno_al_coda value _ h
        (excluded_rmatch _ _ (by decide) lead gaps)
        (excluded_rmatch _ _ (by decide) lead gaps)
        (excluded_rmatch _ _ (by decide) lead gaps)
        (excluded_rmatch _ _ (by decide) lead gaps)
        (excluded_rmatch _ _ (by decide) lead gaps)
        (spaced_rmatch_inl [re_lit ['d'] + re_lit ['d', '.'], re_lit ['s'] + re_lit ['s', '.'], re_lit ['a', 'l'], re_lit ['c', 'o', 'd', 'a']] _ _
          (by decide) lead gaps)
    · exact repetion_mark_dal_segno_al_coda value _ h
        (excluded_rmatch _ _ (by decide) lead gaps)
        (excluded_rmatch _ _ (by decide) lead gaps)
        (excluded_rmatch _ _ (by decide) lead gaps)
        (excluded_rmatch _ _ (by decide) lead gaps)
        (excluded_rmatch _ _ (by decide) lead gaps)
        (spaced_rmatch_inr [re_cat [re_lit ['d'], re_lit ['a'] + re_lit ['e'], re_lit ['l']], re_lit ['s', 'e', 'g', 'n', 'o'], re_lit ['a', 'l'], re_lit ['c', 'o', 'd', 'a']] _ _
          (by decide) lead gaps)
    · exact repetion_mark_dal_segno_al_coda value _ h
        (excluded_rmatch _ _ (by decide) lead gaps)
        (excluded_rmatch _ _ (by decide) lead gaps)
        (excluded_rmatch _ _ (by decide) lead gaps)
        (excluded_rmatch _ _ (by decide) lead gaps)
        (excluded_rmatch _ _ (by decide) lead gaps)
        (spaced_rmatch_inr [re_cat [re_lit ['d'], re_lit ['a'] + re_lit ['e'], re_lit ['l']], re_lit ['s', 'e', 'g', 'n', 'o'], re_lit ['a', 'l'], re_lit ['c', 'o', 'd', 'a']] _ _
          (by decide) lead gaps)
  · intro value lead gaps h
    exact repetion_mark_fine value _ h
        (excluded_rmatch _ _ (by decide) lead gaps)
        (excluded_rmatch _ _ (by decide) lead gaps)
        (excluded_rmatch _ _ (by decide) lead gaps)
        (excluded_rmatch _ _ (by decide) lead gaps)
        (excluded_rmatch _ _ (by decide) lead gaps)
        (excluded_rmatch _ _ (by decide) lead gaps)
        (spaced_rmatch [re_lit ['f', 'i', 'n', 'e']] _ (by decide) lead gaps)
  · intro value lead gaps h
    exact repetion_mark_to_coda value _ h
        (excluded_rmatch _ _ (by decide) lead gaps)
        (excluded_rmatch _ _ (by decide) lead gaps)
        (excluded_rmatch _ _ (by decide) lead gaps)
        (excluded_rmatch _ _ (by decide) lead gaps)
        (excluded_rmatch _ _ (by decide) lead gaps)
        (excluded_rmatch _ _ (by decide) lead gaps)
        (excluded_rmatch _ _ (by decide) lead gaps)
        (spaced_rmatch [re_lit ['t', 'o'], re_lit ['c', 'o', 'd', 'a']] _ (by decide) lead gaps)
  · intro value e1 e2 e3 e4 e5 e6 e7 e8
    exact repetion_mark_none value _ rfl e1 e2 e3 e4 e5 e6 e7 e8

/-- C14 for the text `D.C. al Fine` and for the text `To  Coda`. -/
theorem C14_repetition_marks_witness :
    mxl_type_of_repetion_mark ['D', '.', 'C', '.', ' ', 'a', 'l', ' ', 'F', 'i', 'n', 'e'] =
      .k_repeat_da_capo_al_fine ∧
    mxl_type_of_repetion_mark ['T', 'o', ' ', ' ', 'C', 'o', 'd', 'a'] = .k_repeat_to_coda :=
  ⟨C14_repetition_marks.2.2.1 [['d', '.'], ['c', '.']] (by decide)
      ['D', '.', 'C', '.', ' ', 'a', 'l', ' ', 'F', 'i', 'n', 'e'] 0 [0, 1, 1, 0] (by decide),
    C14_repetition_marks.2.2.2.2.2.2.2.2.1 ['T', 'o', ' ', ' ', 'C', 'o', 'd', 'a'] 0 [2, 0]
      (by decide)⟩

/-! ## Claims about reading integers -/

/-- C15, counterexample: for the version `9223372036854775808.0` (`M` is 2 to the power
63, `m` is 0) the major number does not fit in a `long`, the extraction fails and
`set_musicxml_version` returns 100, not `100*M + m`. -/
theorem C15_counterexample :
    MxlAnalyser.set_musicxml_version (['9', '2', '2', '3', '3', '7', '2', '0', '3', '6', '8', '5', '4', '7', '7', '5', '8', '0', '8'] ++ ['.', '0']) = 100 ∧
    decimal_value ['9', '2', '2', '3', '3', '7', '2', '0', '3', '6', '8', '5', '4', '7', '7', '5', '8', '0', '8'] = 9223372036854775808 := by
  decide

/-- C15, amended: for a version `M.m` in which `M` and `m` are runs of decimal digits, not
empty, such that `100*M + m` fits in an `int`, `set_musicxml_version` returns (and stores)
`100*M + m`; `3.1` gives 301, `2.0` gives 200 and `1.0` gives 100. -/
theorem C15_musicxml_version (M m : List Char) (hM : M ≠ []) (hm : m ≠ [])
    (hMd : ∀ c ∈ M, is_digit c = true) (hmd : ∀ c ∈ m, is_digit c = true)
    (hfit : 100 * (decimal_value M : Int) + (decimal_value m : Int) ≤ INT_MAX) :
    MxlAnalyser.set_musicxml_version (M ++ '.' :: m) =
      100 * (decimal_value M : Int) + (decimal_value m : Int) := by
  have hdot : '.' ∉ M := fun h => (is_digit_not_special '.' (hMd '.' h)).2.2.2 rfl
  have hM0 : (0 : Int) ≤ (decimal_value M : Int) := Int.natCast_nonneg _
  have hm0 : (0 : Int) ≤ (decimal_value m : Int) := Int.natCast_nonneg _
  have h1 := to_integer_digits M hM hMd (by omega)
  have h2 := to_integer_digits m hm hmd (by omega)
  have hmin : substr (M ++ '.' :: m) ((M.length : Int) + 1) = m := by
    have e : M ++ '.' :: m = (M ++ ['.']) ++ m := by simp
    rw [e]
    exact substr_after (M ++ ['.']) m _ (by simp)
  have hi : (M.length : Int) ≠ -1 := by omega
  simp only [MxlAnalyser.set_musicxml_version, str_find_decomp M m '.' hdot, ne_eq, hi,
    not_false_eq_true, if_true, substr_n_prefix, h1, hmin, h2, Bool.false_eq_true, if_false]
  ring

/-- C15 amended, for the versions `3.1`, `2.0` and `1.0`. -/
theorem C15_musicxml_version_witness :
    MxlAnalyser.set_musicxml_version ['3', '.', '1'] =
      100 * (decimal_value ['3'] : Int) + (decimal_value ['1'] : Int) ∧
    MxlAnalyser.set_musicxml_version ['3', '.', '1'] = 301 ∧
    MxlAnalyser.set_musicxml_version ['2', '.', '0'] = 200 ∧
    MxlAnalyser.set_musicxml_version ['1', '.', '0'] = 100 :=
  ⟨C15_musicxml_version ['3'] ['1'] (by decide) (by decide) (by decide) (by decide)
      (by decide),
    by decide, by decide, by decide⟩

/-- C16, counterexample: from the text `9223372036854775808` a decimal integer can be
read, but it does not fit in a `long`: `to_integer` returns true (error) and sets 0. -/
theorem C16_counterexample :
    MxlAnalyser.to_integer ['9', '2', '2', '3', '3', '7', '2', '0', '3', '6', '8', '5', '4', '7', '7', '5', '8', '0', '8'] = (true, 0) ∧
    (∀ c ∈ ['9', '2', '2', '3', '3', '7', '2', '0', '3', '6', '8', '5', '4', '7', '7', '5', '8', '0', '8'], is_digit c = true) := by
  decide

/-- C16, amended: a text is white space `ws`, an optional sign, a run of digits and a rest
that does not begin with a digit (`text_decomposition`). When the run of digits is not
empty, `to_integer` returns false exactly when the integer read fits in a `long`, and then
sets the result to the integer read if that fits in an `int`, whatever follows it; when
the integer does not fit in a `long` it returns true and sets 0. When there is no digit
after the white space and the sign, it returns true and sets 0. -/
theorem C16_to_integer (ws sign rest : List Char) (hws : ∀ c ∈ ws, is_space c = true)
    (hsign : sign = [] ∨ sign = ['+'] ∨ sign = ['-'])
    (hrest : ∀ c ∈ rest.head?, is_digit c = false) :
    (∀ digits : List Char, digits ≠ [] → (∀ c ∈ digits, is_digit c = true) →
      ((INT_MIN ≤ signed_value sign digits ∧ signed_value sign digits ≤ INT_MAX) →
        MxlAnalyser.to_integer (ws ++ sign ++ digits ++ rest) =
          (false, signed_value sign digits)) ∧
      ((LONG_MIN ≤ signed_value sign digits ∧ signed_value sign digits ≤ LONG_MAX) →
        (MxlAnalyser.to_integer (ws ++ sign ++ digits ++ rest)).1 = false) ∧
      ((signed_value sign digits < LONG_MIN ∨ LONG_MAX < signed_value sign digits) →
        MxlAnalyser.to_integer (ws ++ sign ++ digits ++ rest) = (true, 0))) ∧
    ((sign = [] → ∀ c ∈ rest.head?, is_space c = false ∧ c ≠ '+' ∧ c ≠ '-') →
      MxlAnalyser.to_integer (ws ++ sign ++ rest) = (true, 0)) := by
  constructor
  · intro digits hne hd
    have h := extract_long_numeral ws sign digits rest hws hsign hne hd hrest
    refine ⟨?_, ?_, ?_⟩
    · intro hr
      have hl : LONG_MIN ≤ signed_value sign digits ∧ signed_value sign digits ≤ LONG_MAX := by
        have h1 := hr.1
        have h2 := hr.2
        unfold INT_MIN at h1
        unfold INT_MAX at h2
        unfold LONG_MIN LONG_MAX
        omega
      rw [if_pos hl] at h
      rw [MxlAnalyser.to_integer, h]
      simp only
      rw [long_to_int_of_int _ hr.1 hr.2]
    · intro hl
      rw [if_pos hl] at h
      rw [MxlAnalyser.to_integer, h]
    · intro hl
      have hn : ¬ (LONG_MIN ≤ signed_value sign digits ∧
          signed_value sign digits ≤ LONG_MAX) := by omega
      rw [if_neg hn] at h
      rw [MxlAnalyser.to_integer, h]
  · intro hmax
    rw [MxlAnalyser.to_integer, extract_long_no_numeral ws sign rest hws hsign hrest hmax]

/-- C16 amended, for the texts `12` (false, 12), the empty text and `abc` (true, 0), and
` -12abc` (false, -12). -/
theorem C16_to_integer_witness :
    MxlAnalyser.to_integer ['1', '2'] = (false, 12) ∧
    MxlAnalyser.to_integer [] = (true, 0) ∧
    MxlAnalyser.to_integer ['a', 'b', 'c'] = (true, 0) ∧
    MxlAnalyser.to_integer ([' '] ++ ['-'] ++ ['1', '2'] ++ ['a', 'b', 'c']) =
      (false, signed_value ['-'] ['1', '2']) :=
  ⟨by decide, by decide, by decide,
    ((C16_to_integer [' '] ['-'] ['a', 'b', 'c'] (by decide) (by decide) (by decide)).1
      ['1', '2'] (by decide) (by decide)).1 (by decide)⟩

/-! ## Claims about context snapshots -/

/-- C17: after `save_context(c, instr, staff, clefEntry, keyEntry)`, `get_prolog_clef` for
column `c` and the matching shape id returns that clef entry and `get_prolog_key` the key
entry; a later `save_context` for another column or another shape id does not change what
they return; and after any sequence of `save_context` calls on an empty table, for a
column and shape id that no call was made for, both return the "no entry" sentinel. -/
theorem C17_context_round_trip (staff_index : Int → Int → Int) (ctx : List ContextSnapshot)
    (iCol iInstr iStaff : Int) (pClefEntry pKeyEntry : Option Nat) :
    SpAlgColumn.get_prolog_clef
        (SpAlgColumn.save_context staff_index ctx iCol iInstr iStaff pClefEntry pKeyEntry)
        iCol (staff_index iInstr iStaff) = pClefEntry ∧
    SpAlgColumn.get_prolog_key
        (SpAlgColumn.save_context staff_index ctx iCol iInstr iStaff pClefEntry pKeyEntry)
        iCol (staff_index iInstr iStaff) = pKeyEntry ∧
    (∀ iCol' idx', ¬ (iCol = iCol' ∧ staff_index iInstr iStaff = idx') →
      SpAlgColumn.get_prolog_clef
          (SpAlgColumn.save_context staff_index ctx iCol iInstr iStaff pClefEntry pKeyEntry)
          iCol' idx' = SpAlgColumn.get_prolog_clef ctx iCol' idx' ∧
      SpAlgColumn.get_prolog_key
          (SpAlgColumn.save_context staff_index ctx iCol iInstr iStaff pClefEntry pKeyEntry)
          iCol' idx' = SpAlgColumn.get_prolog_key ctx iCol' idx') ∧
    (∀ (calls : List SaveContextCall) (iCol' idx' : Int),
      (∀ c ∈ calls, ¬ (c.iCol = iCol' ∧ staff_index c.iInstr c.iStaff = idx')) →
      SpAlgColumn.get_prolog_clef (SpAlgColumn.save_all staff_index [] calls) iCol' idx' =
        none ∧
      SpAlgColumn.get_prolog_key (SpAlgColumn.save_all staff_index [] calls) iCol' idx' =
        none) := by
  refine ⟨?_, ?_, ?_, ?_⟩
  · simp [SpAlgColumn.get_prolog_clef, SpAlgColumn.find_context, SpAlgColumn.save_context]
  · simp [SpAlgColumn.get_prolog_key, SpAlgColumn.find_context, SpAlgColumn.save_context]
  · intro iCol' idx' hne
    simp only [SpAlgColumn.get_prolog_clef, SpAlgColumn.get_prolog_key,
      SpAlgColumn.find_context, SpAlgColumn.save_context, List.find?_cons, hne, decide_False,
      and_self]
  · intro calls iCol' idx' hc
    have h := find_context_save_all_none staff_index iCol' idx' calls [] rfl hc
    simp only [SpAlgColumn.get_prolog_clef, SpAlgColumn.get_prolog_key, h, and_self]

/-- C17 with the shape id `2 * instr + staff`: a clef entry saved for column 1 is not
returned for column 2, and a lookup for column 2 returns the sentinel. -/
theorem C17_context_round_trip_witness :
    SpAlgColumn.get_prolog_clef
        (SpAlgColumn.save_context (fun i s => 2 * i + s) [] 1 0 1 (some 7) none) 2 1 =
      SpAlgColumn.get_prolog_clef [] 2 1 ∧
    SpAlgColumn.get_prolog_clef
        (SpAlgColumn.save_all (fun i s => 2 * i + s) []
          [{ iCol := 1, iInstr := 0, iStaff := 1, pClefEntry := some 7, pKeyEntry := none }])
        2 1 = none :=
  ⟨((C17_context_round_trip (fun i s => 2 * i + s) [] 1 0 1 (some 7) none).2.2.1 2 1
      (by decide)).1,
    ((C17_context_round_trip (fun i s => 2 * i + s) [] 1 0 1 (some 7) none).2.2.2
      [{ iCol := 1, iInstr := 0, iStaff := 1, pClefEntry := some 7, pKeyEntry := none }] 2 1
      (by decide)).1⟩

/-! ## Claims about the go-forward filler and assign_voice -/

/-- C18, failing input: in `two_voice_analyser` (one division per quarter note, music data
present) voice 2 is at 0 and the current position is 9, a gap of 9.
`move_time_as_required_by_voice(2)` returns with the current position and the record of
voice 2 at 16, not at 9: `insert_go_fwd` inserts a second rest of a full longa (8) for the
remaining 1. For a gap of at most a longa the claim holds (`move_time_single_chunk`). -/
theorem C18_filler_overshoots :
    two_voice_analyser.m_timeKeeper.m_curTime = 9 ∧
    (two_voice_analyser.m_timeKeeper.get_timepos_for_voice 2).1 = 0 ∧
    (MxlTimeKeeper.move_time_as_required_by_voice 64 9 two_voice_analyser 2 1).map
      (fun a => (a.m_timeKeeper.m_curTime, map_find a.m_timeKeeper.m_voiceTime 2)) =
      some (16, some 16) := by
  decide

/-- C19, failing input: in `two_voice_analyser` (one division per quarter note, music data
present, voice 2 at 0) `insert_go_fwd(2, 9)` inserts two rests of 8 divisions each, 16 in
all and not 9, and the record of voice 2 advances by 16: after the first rest `shift`
stays at a longa although only 1 remains. For a shift of at most a longa the claim holds
(`insert_go_fwd_single_chunk`). -/
theorem C19_rests_exceed_shift :
    (MxlAnalyser.insert_go_fwd 64 9 two_voice_analyser 2 9).map
      (fun a => (a.m_currentMD.map (fun md => md.map (fun r => r.duration)),
        map_find a.m_timeKeeper.m_voiceTime 2)) =
      some (some [8, 8], some 16) := by
  decide

/-- C20: with `m_curTime >= 0`, when `v` is the smallest voice number `>= 1` whose recorded
time position (0 for a voice without record) is `<= m_curTime`, and `v` is below 100,
`assign_voice` returns `v`; the time keeper afterwards is the one left by looking up `v`
(a voice without record is started at 0), and in it the position of the returned voice is
`<= m_curTime`. -/
theorem C20_assign_voice_smallest (tk : MxlTimeKeeper) (v : Int) (hcur : 0 ≤ tk.m_curTime)
    (hv1 : 1 ≤ v) (hv100 : v < 100)
    (hv : (tk.get_timepos_for_voice v).1 ≤ tk.m_curTime)
    (hmin : ∀ w, 1 ≤ w → w < v → tk.m_curTime < (tk.get_timepos_for_voice w).1) :
    tk.assign_voice.1 = v ∧
    tk.assign_voice.2 = (tk.get_timepos_for_voice v).2 ∧
    (tk.assign_voice.2.get_timepos_for_voice tk.assign_voice.1).1 ≤
      tk.assign_voice.2.m_curTime := by
  have h := assign_voice_loop_smallest tk hcur v (by omega) hv 100 0 (le_refl 0) (by omega)
    (by omega) hmin
  have e : tk.assign_voice = (v, (tk.get_timepos_for_voice v).2) := h
  rw [e]
  refine ⟨rfl, rfl, ?_⟩
  simp only
  rw [get_timepos_for_voice_of_some _ v _ (get_timepos_for_voice_recorded tk v),
    get_timepos_for_voice_curTime]
  exact hv

/-- C20 for a time keeper at position 4 with voices 1 and 2 recorded at 9: voice 3, which
has no record, is the smallest with a position `<= 4` and is returned. -/
theorem C20_assign_voice_smallest_witness :
    (MxlTimeKeeper.assign_voice
      { two_voice_analyser.m_timeKeeper with
        m_curTime := 4, m_voiceTime := [(1, 9), (2, 9)] }).1 = 3 :=
  (C20_assign_voice_smallest
    { two_voice_analyser.m_timeKeeper with m_curTime := 4, m_voiceTime := [(1, 9), (2, 9)] }
    3 (by decide) (by decide) (by decide) (by decide)
    (by
      intro w h1 h2
      have hw : w = 1 ∨ w = 2 := by omega
      rcases hw with hw | hw <;> (subst hw; decide))).1

/-! ## Claims about the saved staff of a voice -/

/-- C21, failing input: at the start of a measure (`fresh_analyser`, no voice has a
record) a grace note of voice 1 on staff 1 is followed by a note of voice 1 on staff 2:
`determine_voice_and_timepos(1, 1)`, `increment_time(1, 1, 0)` (a grace note has
duration 0), `determine_voice_and_timepos(1, 2)`. After the first call
`get_staff_for_voice(1)` is 1, the staff of the first call that processed voice 1; after
the second call it is 2: the position of voice 1 is still 0, and the staff is saved
whenever that position is 0. -/
theorem C21_saved_staff_overwritten :
    (MxlTimeKeeper.determine_voice_and_timepos 64 0 fresh_analyser 1 1).map
      (fun r => (r.1, r.2.m_timeKeeper.get_staff_for_voice 1)) = some (1, 1) ∧
    ((MxlTimeKeeper.determine_voice_and_timepos 64 0 fresh_analyser 1 1).bind
      (fun r => MxlTimeKeeper.determine_voice_and_timepos 64 0
        { r.2 with m_timeKeeper := r.2.m_timeKeeper.increment_time 64 1 1 0 } 1 2)).map
      (fun r => (r.1, r.2.m_timeKeeper.get_staff_for_voice 1)) = some (1, 2) := by
  decide

/-! ## Claims about clefs -/

/-- C22: for every clef sign string, line and octave change given to `validate_clef`, the
resulting sign, `m_line` and `m_octaveChange` are one of the supported combinations (G
with line 1 or 2 and an octave change of at most 2 in absolute value; F with line 4 and
an octave change of at most 2 in absolute value; F with line 3 or 5 and octave change 0;
C with line 1 to 5 and octave change 0; percussion, TAB or none with line 3 and octave
change 0). The signs `G`, `F`, `C`, `percussion`, `TAB` and `none` give the sign of that
name, and any other sign becomes G on line 2 with octave change 0. -/
theorem C22_validate_clef_supported (sign : List Char) (line octaveChange : Int) :
    supported_clef (ClefMxlAnalyser.validate_clef sign line octaveChange).sign
      (ClefMxlAnalyser.validate_clef sign line octaveChange).m_line
      (ClefMxlAnalyser.validate_clef sign line octaveChange).m_octaveChange ∧
    (sign = ['G'] →
      (ClefMxlAnalyser.validate_clef sign line octaveChange).sign = .k_clef_sign_G) ∧
    (sign = ['F'] →
      (ClefMxlAnalyser.validate_clef sign line octaveChange).sign = .k_clef_sign_F) ∧
    (sign = ['C'] →
      (ClefMxlAnalyser.validate_clef sign line octaveChange).sign = .k_clef_sign_C) ∧
    (sign = ['p', 'e', 'r', 'c', 'u', 's', 's', 'i', 'o', 'n'] →
      (ClefMxlAnalyser.validate_clef sign line octaveChange).sign =
        .k_clef_sign_percussion) ∧
    (sign = ['T', 'A', 'B'] →
      (ClefMxlAnalyser.validate_clef sign line octaveChange).sign = .k_clef_sign_TAB) ∧
    (sign = ['n', 'o', 'n', 'e'] →
      (ClefMxlAnalyser.validate_clef sign line octaveChange).sign = .k_clef_sign_none) ∧
    (sign ∉ known_clef_signs →
      (ClefMxlAnalyser.validate_clef sign line octaveChange).sign = .k_clef_sign_G ∧
      (ClefMxlAnalyser.validate_clef sign line octaveChange).m_line = 2 ∧
      (ClefMxlAnalyser.validate_clef sign line octaveChange).m_octaveChange = 0) := by
  have hother := validate_clef_other sign line octaveChange
  refine ⟨?_, ?_, ?_, ?_, ?_, ?_, ?_, ?_⟩
  · unfold supported_clef
    simp only [abs_le]
    by_cases hG : sign = ['G']
    · subst hG
      obtain ⟨h1, h2, h3⟩ := validate_clef_G line octaveChange
      rw [h1, h2, h3]
      left
      refine ⟨rfl, ?_, ?_⟩
      · split <;> omega
      · split <;> omega
    · by_cases hF : sign = ['F']
      · subst hF
        obtain ⟨h1, h2, h3⟩ := validate_clef_F line octaveChange
        rw [h1, h2, h3]
        right
        by_cases h4 : line = 3 ∨ line = 5
        · right; left
          refine ⟨rfl, ?_, ?_⟩
          · split <;> omega
          · split <;> omega
        · left
          refine ⟨rfl, ?_, ?_⟩
          · split <;> omega
          · split <;> omega
      · by_cases hC : sign = ['C']
        · subst hC
          obtain ⟨h1, h2, h3⟩ := validate_clef_C line octaveChange
          rw [h1, h2, h3]
          right; right; right; left
          refine ⟨rfl, ?_, rfl⟩
          split <;> omega
        · obtain ⟨h1, h2, h3⟩ := hother hG hF hC
          rw [h1, h2, h3]
          by_cases c3 : sign = ['p', 'e', 'r', 'c', 'u', 's', 's', 'i', 'o', 'n']
          · simp [c3]
          · by_cases c4 : sign = ['T', 'A', 'B']
            · simp [c4]
            · by_cases c5 : sign = ['n', 'o', 'n', 'e']
              · simp [c5]
              · simp [c3, c4, c5]
  · intro h
    subst h
    exact (validate_clef_G line octaveChange).1
  · intro h
    subst h
    exact (validate_clef_F line octaveChange).1
  · intro h
    subst h
    exact (validate_clef_C line octaveChange).1
  · intro h
    rw [(hother (by rw [h]; decide) (by rw [h]; decide) (by rw [h]; decide)).1, if_pos h]
  · intro h
    rw [(hother (by rw [h]; decide) (by rw [h]; decide) (by rw [h]; decide)).1, if_pos h,
      if_neg (by rw [h]; decide)]
  · intro h
    rw [(hother (by rw [h]; decide) (by rw [h]; decide) (by rw [h]; decide)).1, if_pos h,
      if_neg (by rw [h]; decide), if_neg (by rw [h]; decide)]
  · intro h
    simp only [known_clef_signs, List.mem_cons, List.mem_singleton, not_or,
      List.not_mem_nil, not_false_eq_true, and_true] at h
    obtain ⟨h1, h2, h3, h4, h5, h6⟩ := h
    obtain ⟨e1, e2, e3⟩ := hother h1 h2 h3
    rw [e1, e2, e3]
    simp [h4, h5, h6]

/-! ## Claims about barlines -/

/-- C23: when a left barline is merged into the previous barline of type `L` and the new
element has type `R`, `combine_barlines` sets the type, taking the first case that
applies, to: `L` if `R` is none; double if `L` and `R` are both simple; simple if `R` is
simple and `L` is not; `R` if `L` is simple; start-repetition if `L` is end and `R` is
start-repetition; double-repetition if `L` is end-repetition and `R` is start-repetition
(no message in these cases); and heavy-heavy, with one message, for every other pair. For
a right or middle barline, and for a left barline without a previous barline, the type is
`R` and there is no message. -/
theorem C23_combine_barlines (barline_type_to_ldp : EBarline → String) (L R : EBarline) :
    BarlineMxlAnalyser.create_barline ['l', 'e', 'f', 't'] (some L) = (false, L) ∧
    (R = .k_barline_none →
      BarlineMxlAnalyser.created_and_combined barline_type_to_ldp ['l', 'e', 'f', 't']
        (some L) R = (L, [])) ∧
    (L = .k_barline_simple → R = .k_barline_simple →
      BarlineMxlAnalyser.created_and_combined barline_type_to_ldp ['l', 'e', 'f', 't']
        (some L) R = (.k_barline_double, [])) ∧
    (R = .k_barline_simple → L ≠ .k_barline_simple →
      BarlineMxlAnalyser.created_and_combined barline_type_to_ldp ['l', 'e', 'f', 't']
        (some L) R = (.k_barline_simple, [])) ∧
    (L = .k_barline_simple → R ≠ .k_barline_none → R ≠ .k_barline_simple →
      BarlineMxlAnalyser.created_and_combined barline_type_to_ldp ['l', 'e', 'f', 't']
        (some L) R = (R, [])) ∧
    (L = .k_barline_end → R = .k_barline_start_repetition →
      BarlineMxlAnalyser.created_and_combined barline_type_to_ldp ['l', 'e', 'f', 't']
        (some L) R = (.k_barline_start_repetition, [])) ∧
    (L = .k_barline_end_repetition → R = .k_barline_start_repetition →
      BarlineMxlAnalyser.created_and_combined barline_type_to_ldp ['l', 'e', 'f', 't']
        (some L) R = (.k_barline_double_repetition, [])) ∧
    (R ≠ .k_barline_none → R ≠ .k_barline_simple → L ≠ .k_barline_simple →
      ¬ (L = .k_barline_end ∧ R = .k_barline_start_repetition) →
      ¬ (L = .k_barline_end_repetition ∧ R = .k_barline_start_repetition) →
      (BarlineMxlAnalyser.created_and_combined barline_type_to_ldp ['l', 'e', 'f', 't']
        (some L) R).1 = .k_barline_heavy_heavy ∧
      (BarlineMxlAnalyser.created_and_combined barline_type_to_ldp ['l', 'e', 'f', 't']
        (some L) R).2.length = 1) ∧
    (∀ (location : List Char) (last_barline : Option EBarline),
      location ≠ ['l', 'e', 'f', 't'] ∨ last_barline = none →
      BarlineMxlAnalyser.created_and_combined barline_type_to_ldp location last_barline R =
        (R, [])) := by
  refine ⟨rfl, ?_, ?_, ?_, ?_, ?_, ?_, ?_, ?_⟩
  · intro h
    simp [BarlineMxlAnalyser.created_and_combined, BarlineMxlAnalyser.create_barline,
      BarlineMxlAnalyser.combine_barlines, h]
  · intro h1 h2
    simp [BarlineMxlAnalyser.created_and_combined, BarlineMxlAnalyser.create_barline,
      BarlineMxlAnalyser.combine_barlines, h1, h2]
  · intro h1 h2
    simp [BarlineMxlAnalyser.created_and_combined, BarlineMxlAnalyser.create_barline,
      BarlineMxlAnalyser.combine_barlines, h1, h2]
  · intro h1 h2 h3
    simp [BarlineMxlAnalyser.created_and_combined, BarlineMxlAnalyser.create_barline,
      BarlineMxlAnalyser.combine_barlines, h1, h2, h3]
  · intro h1 h2
    simp [BarlineMxlAnalyser.created_and_combined, BarlineMxlAnalyser.create_barline,
      BarlineMxlAnalyser.combine_barlines, h1, h2]
  · intro h1 h2
    simp [BarlineMxlAnalyser.created_and_combined, BarlineMxlAnalyser.create_barline,
      BarlineMxlAnalyser.combine_barlines, h1, h2]
  · intro h1 h2 h3 h4 h5
    simp only [not_and] at h4 h5
    by_cases e1 : L = .k_barline_end <;> by_cases e2 : L = .k_barline_end_repetition <;>
    simp [BarlineMxlAnalyser.created_and_combined, BarlineMxlAnalyser.create_barline,
      BarlineMxlAnalyser.combine_barlines, h1, h2, h3, e1, e2, h4, h5]
  · intro location last_barline h
    rcases h with h | h
    · cases last_barline <;>
      simp [BarlineMxlAnalyser.created_and_combined, BarlineMxlAnalyser.create_barline,
        BarlineMxlAnalyser.combine_barlines, h]
    · subst h
      simp [BarlineMxlAnalyser.created_and_combined, BarlineMxlAnalyser.create_barline,
        BarlineMxlAnalyser.combine_barlines]

/-- C23 for a previous barline of type end-repetition and a left barline of type
start-repetition (double-repetition), for two simple barlines (double), and for a previous
double barline and a left heavy barline (heavy-heavy with one message). -/
theorem C23_combine_barlines_witness :
    BarlineMxlAnalyser.created_and_combined (fun _ => "") ['l', 'e', 'f', 't']
      (some .k_barline_end_repetition) .k_barline_start_repetition =
      (.k_barline_double_repetition, []) ∧
    BarlineMxlAnalyser.created_and_combined (fun _ => "") ['l', 'e', 'f', 't']
      (some .k_barline_simple) .k_barline_simple = (.k_barline_double, []) ∧
    (BarlineMxlAnalyser.created_and_combined (fun _ => "") ['l', 'e', 'f', 't']
      (some .k_barline_double) .k_barline_heavy).1 = .k_barline_heavy_heavy ∧
    (BarlineMxlAnalyser.created_and_combined (fun _ => "") ['l', 'e', 'f', 't']
      (some .k_barline_double) .k_barline_heavy).2.length = 1 :=
  ⟨(C23_combine_barlines (fun _ => "") .k_barline_end_repetition
      .k_barline_start_repetition).2.2.2.2.2.2.1 rfl rfl,
    by decide, by decide, by decide⟩

/-! ## Claims about integers within a range -/

/-- C24, counterexample: for the midi-channel range 1 to 16 with default 1, the texts
`16xyz` and `2.5` are not integers (each has a character that is not a digit, a sign or
white space), yet `get_child_pcdata_int` returns 16 and 2, not the default 1, and reports
nothing: the extraction reads the integer at the start of the text and ignores the rest. -/
theorem C24_counterexample :
    (∃ c ∈ ['1', '6', 'x', 'y', 'z'],
      is_digit c = false ∧ is_space c = false ∧ c ≠ '+' ∧ c ≠ '-') ∧
    MxlElementAnalyser.get_child_pcdata_int "midi-channel" ['1', '6', 'x', 'y', 'z'] 1 16 1 =
      (16, []) ∧
    (∃ c ∈ ['2', '.', '5'], is_digit c = false ∧ is_space c = false ∧ c ≠ '+' ∧ c ≠ '-') ∧
    MxlElementAnalyser.get_child_pcdata_int "midi-channel" ['2', '.', '5'] 1 16 1 =
      (2, []) := by
  decide

/-- C24, amended: with `nMin` and `nMax` in the range of an `int`,
`get_child_pcdata_int(name, nMin, nMax, nDefault)` returns the integer `v` read from the
start of the child's text (after optional white space and an optional sign, ignoring any
characters that follow the digits) when `nMin <= v <= nMax`, and reports nothing; in every
other case (no integer can be read from the start of the text, or it is out of range) it
returns `nDefault` and reports exactly one message; so its result is in `[nMin, nMax]` or
equal to `nDefault`, and a message is reported only when the default is returned. In
terms of the text: when the text is white space, an optional sign, a run of digits that
is not empty and a rest that does not begin with a digit, `v` is the integer written by
the sign and the digits, however large; when no digit follows the white space and the
sign, the default is returned with one message. An imported midi-channel, stored as the
result for the range 1 to 16 minus 1, is in 0..15. -/
theorem C24_child_pcdata_int (name : String) (number : List Char) (nMin nMax nDefault : Int)
    (hMin : INT_MIN ≤ nMin) (hMax : nMax ≤ INT_MAX) :
    (∀ v, extract_long number = some v → nMin ≤ v → v ≤ nMax →
      MxlElementAnalyser.get_child_pcdata_int name number nMin nMax nDefault = (v, [])) ∧
    ((∀ v, extract_long number = some v → v < nMin ∨ nMax < v) →
      (MxlElementAnalyser.get_child_pcdata_int name number nMin nMax nDefault).1 = nDefault ∧
      (MxlElementAnalyser.get_child_pcdata_int name number nMin nMax nDefault).2.length = 1) ∧
    ((nMin ≤ (MxlElementAnalyser.get_child_pcdata_int name number nMin nMax nDefault).1 ∧
        (MxlElementAnalyser.get_child_pcdata_int name number nMin nMax nDefault).1 ≤ nMax) ∨
      (MxlElementAnalyser.get_child_pcdata_int name number nMin nMax nDefault).1 = nDefault) ∧
    ((MxlElementAnalyser.get_child_pcdata_int name number nMin nMax nDefault).2 = [] ∨
      ((MxlElementAnalyser.get_child_pcdata_int name number nMin nMax nDefault).1 = nDefault ∧
        (MxlElementAnalyser.get_child_pcdata_int name number nMin nMax nDefault).2.length =
          1)) ∧
    (∀ ws sign digits rest : List Char, number = ws ++ sign ++ digits ++ rest →
      (∀ c ∈ ws, is_space c = true) → (sign = [] ∨ sign = ['+'] ∨ sign = ['-']) →
      digits ≠ [] → (∀ c ∈ digits, is_digit c = true) →
      (∀ c ∈ rest.head?, is_digit c = false) →
      ((nMin ≤ signed_value sign digits ∧ signed_value sign digits ≤ nMax) →
        MxlElementAnalyser.get_child_pcdata_int name number nMin nMax nDefault =
          (signed_value sign digits, [])) ∧
      ((signed_value sign digits < nMin ∨ nMax < signed_value sign digits) →
        (MxlElementAnalyser.get_child_pcdata_int name number nMin nMax nDefault).1 =
          nDefault ∧
        (MxlElementAnalyser.get_child_pcdata_int name number nMin nMax nDefault).2.length =
          1)) ∧
    (∀ ws sign rest : List Char, number = ws ++ sign ++ rest →
      (∀ c ∈ ws, is_space c = true) → (sign = [] ∨ sign = ['+'] ∨ sign = ['-']) →
      (∀ c ∈ rest.head?, is_digit c = false) →
      (sign = [] → ∀ c ∈ rest.head?, is_space c = false ∧ c ≠ '+' ∧ c ≠ '-') →
      (MxlElementAnalyser.get_child_pcdata_int name number nMin nMax nDefault).1 =
        nDefault ∧
      (MxlElementAnalyser.get_child_pcdata_int name number nMin nMax nDefault).2.length =
        1) ∧
    (0 ≤ (MidiInstrumentMxlAnalyser.midi_channel number).1 ∧
      (MidiInstrumentMxlAnalyser.midi_channel number).1 ≤ 15) := by
  refine ⟨?_, ?_, ?_, ?_, ?_, ?_, ?_⟩
  · intro v h h1 h2
    exact get_child_pcdata_int_in_range name number nMin nMax nDefault v hMin hMax h h1 h2
  · intro h
    cases he : extract_long number with
    | none => exact get_child_pcdata_int_of_none name number nMin nMax nDefault he
    | some v =>
      exact get_child_pcdata_int_out_of_range name number nMin nMax nDefault v he (h v he)
  · exact get_child_pcdata_int_bounds name number nMin nMax nDefault hMin hMax
  · exact get_child_pcdata_int_msgs name number nMin nMax nDefault
  · intro ws sign digits rest hnum hws hsign hne hd hrest
    have he := extract_long_numeral ws sign digits rest hws hsign hne hd hrest
    rw [← hnum] at he
    have hMin' : -2147483648 ≤ nMin := hMin
    have hMax' : nMax ≤ 2147483647 := hMax
    constructor
    · intro hr
      have hl : LONG_MIN ≤ signed_value sign digits ∧ signed_value sign digits ≤ LONG_MAX := by
        unfold LONG_MIN LONG_MAX
        omega
      rw [if_pos hl] at he
      exact get_child_pcdata_int_in_range name number nMin nMax nDefault _ hMin hMax he
        hr.1 hr.2
    · intro hr
      by_cases hl : LONG_MIN ≤ signed_value sign digits ∧ signed_value sign digits ≤ LONG_MAX
      · rw [if_pos hl] at he
        exact get_child_pcdata_int_out_of_range name number nMin nMax nDefault _ he hr
      · rw [if_neg hl] at he
        exact get_child_pcdata_int_of_none name number nMin nMax nDefault he
  · intro ws sign rest hnum hws hsign hrest hmax
    have he := extract_long_no_numeral ws sign rest hws hsign hrest hmax
    rw [← hnum] at he
    exact get_child_pcdata_int_of_none name number nMin nMax nDefault he
  · have hb := get_child_pcdata_int_bounds "midi-channel" number 1 16 1 (by decide)
      (by decide)
    have e : (MidiInstrumentMxlAnalyser.midi_channel number).1 =
        (MxlElementAnalyser.get_child_pcdata_int "midi-channel" number 1 16 1).1 - 1 := rfl
    rw [e]
    omega

/-- C24 amended, for the midi-channel range 1 to 16 with default 1: the text `12` gives 12
and no message, the texts `17` and `abc` give the default 1 and one message, and the text
`99999999999999999999`, which does not fit in a `long`, gives the default; the channels
stored for the texts `1` and `16` are 0 and 15, the ends of the range. -/
theorem C24_child_pcdata_int_witness :
    MxlElementAnalyser.get_child_pcdata_int "midi-channel" ['1', '2'] 1 16 1 = (12, []) ∧
    (MxlElementAnalyser.get_child_pcdata_int "midi-channel" ['1', '7'] 1 16 1).1 = 1 ∧
    (MxlElementAnalyser.get_child_pcdata_int "midi-channel" ['1', '7'] 1 16 1).2.length = 1 ∧
    (MxlElementAnalyser.get_child_pcdata_int "midi-channel" ['a', 'b', 'c'] 1 16 1).1 = 1 ∧
    (MxlElementAnalyser.get_child_pcdata_int "midi-channel"
      ['9', '9', '9', '9', '9', '9', '9', '9', '9', '9', '9', '9', '9', '9', '9', '9', '9',
        '9', '9', '9'] 1 16 1).1 = 1 ∧
    MidiInstrumentMxlAnalyser.midi_channel ['1'] = (0, []) ∧
    MidiInstrumentMxlAnalyser.midi_channel ['1', '6'] = (15, []) :=
  ⟨(C24_child_pcdata_int "midi-channel" ['1', '2'] 1 16 1 (by decide) (by decide)).1 12
      (by decide) (by decide) (by decide),
    by decide, by decide, by decide, by decide, by decide, by decide⟩

end Lomse
